import Mathlib

/-!
mongo-analyzer: a shallow embedding of `analyzer.go`

The Go program reads a MongoDB log (one JSON object per line), cuts it into
chunks of `chunkSize` lines and hands every chunk to `process`, which parses
the lines and runs four consumers over the records: `chunkConvert`
(transcript), `chunkCommands` (commands / collscans rows, rotated through
`addCommand` / `addCollscan` / `saveCommands`), `chunkQueryProf` and
`chunkCollectionProf` (running statistics).

Modelling decisions

* The package-level variables (`queryProf`, `collectionProf`, `commands`,
  `commandsCounter`, `collscans`, `collscansCounter`) and the output
  directory form an explicit `State`; every function returns the error it
  would return in Go (`none` for `nil`) together with the state it leaves
  behind, because Go mutates the globals before an error is returned.
* `float64` is `Float64`: a finite value (the rational it denotes), an
  infinity or NaN, with the IEEE 754 operations (every result rounded to the
  nearest binary64 value, ties to even).  The sign of a zero is not kept.
* `int` and `int64` are 64-bit two's complement: increments go through
  `wrapInt64`.
* The file system is a map from file name to a node; a file holds the CSV
  rows written to it (the CSV encoder is taken to be an injective
  serialiser of rows).  Paths on which `os.Stat` or `os.OpenFile` fail are
  nodes of their own, so the I/O error returns of the source are reachable.
* Library functions whose behaviour the program does not fix
  (`json.Unmarshal`, `json.Marshal`, `time.Parse`, `Time.Format`,
  `fmt.Sprintf`) are fields of `Lib`; every theorem holds for all of them.
-/

namespace MongoAnalyzer

/-! ## Values -/

/-- Rounding to the nearest integer, a tie to the even one. -/
def roundHalfEven (x : ℚ) : Int :=
  if x - ⌊x⌋ < 1 / 2 then ⌊x⌋
  else if 1 / 2 < x - ⌊x⌋ then ⌊x⌋ + 1
  else if ⌊x⌋ % 2 = 0 then ⌊x⌋ else ⌊x⌋ + 1

/-- A Go `float64` (IEEE 754 binary64): a finite value, kept as the rational
it denotes, an infinity with its sign, or NaN.  The sign of a zero is not
kept: the zero divisors of this program are sums that started from `+0`, which
IEEE addition never turns into `-0`, so the sign could show only in the text
`fmt` prints for a zero. -/
inductive Float64 where
  | fin (x : ℚ)
  | inf (negative : Bool)
  | nan
deriving DecidableEq

/-- The `float64` an exact result is rounded to: the nearest value with a
significand of 53 bits and an exponent from -1022 to 1023 (below `2^-1022` the
values are the multiples of `2^-1074`), a tie going to the even significand;
a result that rounds to `2^1024` or more is an infinity. -/
def Float64.round (x : ℚ) : Float64 :=
  if x = 0 then .fin 0
  else
    let e : Int := max (Int.log 2 |x|) (-1022)
    let ulp : ℚ := 2 ^ (e - 52)
    let y : ℚ := roundHalfEven (|x| / ulp) * ulp
    if 2 ^ 1024 ≤ y then .inf (decide (x < 0))
    else .fin (if x < 0 then -y else y)

/-- The Go operator `+` on `float64`. -/
def Float64.add : Float64 → Float64 → Float64
  | .fin x, .fin y => round (x + y)
  | .fin _, .inf b => .inf b
  | .inf a, .fin _ => .inf a
  | .inf a, .inf b => if a = b then .inf a else .nan
  | _, _ => .nan

/-- The Go operator `*` on `float64`. -/
def Float64.mul : Float64 → Float64 → Float64
  | .fin x, .fin y => round (x * y)
  | .fin x, .inf b => if x = 0 then .nan else .inf (xor (decide (x < 0)) b)
  | .inf a, .fin y => if y = 0 then .nan else .inf (xor a (decide (y < 0)))
  | .inf a, .inf b => .inf (xor a b)
  | _, _ => .nan

/-- The Go operator `/` on `float64`: a finite value divided by zero is an
infinity, zero by zero is NaN. -/
def Float64.div : Float64 → Float64 → Float64
  | .fin x, .fin y =>
    if y = 0 then (if x = 0 then .nan else .inf (decide (x < 0))) else round (x / y)
  | .fin _, .inf _ => .fin 0
  | .inf a, .fin y => .inf (xor a (decide (y < 0)))
  | _, _ => .nan

/-- The Go operator `<` on `float64`: false when an operand is NaN. -/
def Float64.lt : Float64 → Float64 → Bool
  | .fin x, .fin y => decide (x < y)
  | .fin _, .inf b => !b
  | .inf a, .fin _ => a
  | .inf a, .inf b => a && !b
  | _, _ => false

/-- The Go operator `<=` on `float64`: false when an operand is NaN. -/
def Float64.le : Float64 → Float64 → Bool
  | .fin x, .fin y => decide (x ≤ y)
  | .fin _, .inf b => !b
  | .inf a, .fin _ => a
  | .inf a, .inf b => a || !b
  | _, _ => false

/-- The conversion `float64(n)` of an `int64`. -/
def Float64.ofInt (n : Int) : Float64 := round (n : ℚ)

/-- The value is one a `float64` holds: rounding leaves it as it is. -/
def Float64.Exact : Float64 → Prop
  | .fin x => Float64.round x = .fin x
  | _ => True

instance instAddFloat64 : Add Float64 := ⟨Float64.add⟩

instance instMulFloat64 : Mul Float64 := ⟨Float64.mul⟩

instance instDivFloat64 : Div Float64 := ⟨Float64.div⟩

instance instLTFloat64 : LT Float64 := ⟨fun a b => Float64.lt a b = true⟩

instance instLEFloat64 : LE Float64 := ⟨fun a b => Float64.le a b = true⟩

instance instDecidableLTFloat64 (a b : Float64) : Decidable (a < b) :=
  inferInstanceAs (Decidable (Float64.lt a b = true))

instance instDecidableLEFloat64 (a b : Float64) : Decidable (a ≤ b) :=
  inferInstanceAs (Decidable (Float64.le a b = true))

/-- A constant of the source that is a natural number. -/
instance instOfNatFloat64 (n : Nat) : OfNat Float64 n := ⟨.fin (n : ℚ)⟩

/-- The constant `math.MaxFloat64`, `2^1024 - 2^971`. -/
def maxFloat64 : Float64 := .fin (2 ^ 1024 - 2 ^ 971)

/-- A value of type `any` as `json.Unmarshal` produces it: `nil`, `bool`,
`float64`, `string`, `[]any` or `map[string]any`.  A number is the finite
`float64` the decoder yields, given by its value.  A map is an association
list read by first match. -/
inductive JVal where
  | null
  | bool (b : Bool)
  | num (x : ℚ)
  | str (s : String)
  | arr (xs : List JVal)
  | obj (m : List (String × JVal))

/-- The Go type `map[string]any`. -/
abbrev JMap := List (String × JVal)

/-- The Go type `[]string`, one CSV row. -/
abbrev Row := List String

/-- The Go map read `value, ok := m[k]`. -/
def lookup : JMap → String → Option JVal
  | [], _ => none
  | (k', v) :: rest, k => if k' = k then some v else lookup rest k

/-- The Go builtin `delete(m, k)`. -/
def delete (m : JMap) (k : String) : JMap :=
  m.filter (fun kv => decide (kv.1 ≠ k))

/-- Wrap-around of a 64-bit signed integer. -/
def wrapInt64 (x : Int) : Int :=
  (x + 9223372036854775808) % 18446744073709551616 - 9223372036854775808

/-- Splitting a list of characters at every occurrence of `sep`; the result
is never empty. -/
def splitChars (sep : Char) : List Char → List (List Char)
  | [] => [[]]
  | c :: cs =>
    if c = sep then [] :: splitChars sep cs
    else
      match splitChars sep cs with
      | [] => [[c]]
      | piece :: pieces => (c :: piece) :: pieces

/-- The Go call `strings.Split(s, sep)` for a separator of one character. -/
def stringsSplit (s : String) (sep : Char) : List String :=
  (splitChars sep s.data).map String.mk

/-! ## Library functions and configuration -/

/-- The parsed instant `time.Time`, kept abstract. -/
abbrev Time := String

/-- Library functions the program calls and does not define. -/
structure Lib where
  /-- The call `json.Unmarshal(line, &record)` on an empty map: `none` when it
  returns an error. -/
  jsonUnmarshal : String → Option JMap
  /-- The call `json.Marshal(command)`. -/
  jsonMarshal : JMap → Except String String
  /-- The call `time.Parse(time.RFC3339, date)`. -/
  timeParse : String → Except String Time
  /-- The call `timestamp.Format(time.RFC3339)`. -/
  timeFormat : Time → String
  /-- The call `fmt.Sprintf("%[1]v", v)`, where `none` is a missing key. -/
  sprintV : Option JVal → String
  /-- The call `fmt.Sprintf("%0.2[1]f", x)`. -/
  sprintF2 : Float64 → String
  /-- The call `fmt.Sprint(x)` on a `float64`. -/
  sprint : Float64 → String

/-- The flags and the output prefix `main` computes from them. -/
structure Config where
  outputDir : String
  outputPrefix : String
  chunkSize : Int

/-! ## File system -/

/-- What a path of the output directory holds. -/
inductive Node where
  /-- a regular file with the CSV rows written so far -/
  | file (rows : List Row)
  /-- a path on which `os.Stat` fails with an error other than "not exist" -/
  | denied
  /-- a directory: `os.Stat` succeeds, `os.OpenFile` for writing fails -/
  | dir
deriving DecidableEq

/-- The file system: `none` is a path that does not exist. -/
abbrev FS := String → Option Node

/-- Outcome of `os.Stat`. -/
inductive StatResult where
  | present
  | notExist
  | failed (err : String)
deriving DecidableEq

/-- The call `os.Stat(fileName)`. -/
def osStat (fs : FS) (fileName : String) : StatResult :=
  match fs fileName with
  | none => .notExist
  | some .denied => .failed ("stat " ++ fileName ++ ": permission denied")
  | some _ => .present

/-- The call `os.OpenFile(fileName, O_CREATE|O_APPEND|O_WRONLY, ModePerm)`: the
rows the opened file holds (none for a file just created), or the error. -/
def osOpenFile (fs : FS) (fileName : String) : Except String (List Row) :=
  match fs fileName with
  | none => .ok []
  | some (.file rows) => .ok rows
  | some .denied => .error ("open " ++ fileName ++ ": permission denied")
  | some .dir => .error ("open " ++ fileName ++ ": is a directory")

/-- The effect of `writer.WriteAll(rows)` on a file opened for appending that
held `old`. -/
def writeAll (fs : FS) (fileName : String) (old rows : List Row) : FS :=
  fun name => if name = fileName then some (.file (old ++ rows)) else fs name

/-- The header row of the commands and collscans files. -/
def commandsHeader : Row :=
  ["Hash", "Duration (Minutes)", "Time (IST)", "Application", "Origin",
   "Database", "Collection", "Type", "Sort", "Plan", "Command"]

/-- The header row of the transcript files. -/
def logsHeader : Row := ["t", "s", "c", "id", "ctx", "msg", "attr"]

/-- Go `saveCommands`: stat the file, prepend the header when it does not
exist, open for appending, write the rows. -/
def saveCommands (commands : List Row) (fileName : String) (fs : FS) :
    Option String × FS :=
  match osStat fs fileName with
  | .failed err => (some err, fs)
  | st =>
    let commands := if st = .notExist then commandsHeader :: commands else commands
    match osOpenFile fs fileName with
    | .error err => (some err, fs)
    | .ok old => (none, writeAll fs fileName old commands)

/-! ## State -/

/-- Go `profMeta`. -/
structure profMeta where
  docsExamined : Float64
  nreturned : Float64
  reslen : Float64
  duration : Float64
  count : Int
  min : Float64
  max : Float64
deriving DecidableEq

/-- The Go type `map[string]profMeta`, an association list with one entry per
key. -/
abbrev ProfMap := List (String × profMeta)

/-- The Go map read `meta, ok := prof[key]`. -/
def ProfMap.get? : ProfMap → String → Option profMeta
  | [], _ => none
  | (k', v) :: rest, k => if k' = k then some v else ProfMap.get? rest k

/-- The Go map write `prof[key] = meta`. -/
def ProfMap.set : ProfMap → String → profMeta → ProfMap
  | [], k, v => [(k, v)]
  | (k', v') :: rest, k, v =>
    if k' = k then (k, v) :: rest else (k', v') :: ProfMap.set rest k v

/-- The package-level variables together with the file system. -/
structure State where
  queryProf : ProfMap
  collectionProf : ProfMap
  commands : List Row
  commandsCounter : Int
  collscans : List Row
  collscansCounter : Int
  fs : FS

/-- The state `main` starts from: the initial values of the package-level
variables over a given file system. -/
def State.init (fs : FS) : State :=
  { queryProf := [], collectionProf := [], commands := [], commandsCounter := 0,
    collscans := [], collscansCounter := 0, fs := fs }

/-! ## The rotating sinks -/

/-- The name of the commands file with index `counter`. -/
def commandsFile (cfg : Config) (counter : Int) : String :=
  cfg.outputDir ++ "/" ++ cfg.outputPrefix ++ "_commands" ++ "_" ++ toString counter ++ ".csv"

/-- The name of the collscans file with index `counter`. -/
def collscansFile (cfg : Config) (counter : Int) : String :=
  cfg.outputDir ++ "/" ++ cfg.outputPrefix ++ "_collscans" ++ "_" ++ toString counter ++ ".csv"

/-- The name of the transcript file with index `counter`. -/
def logsFile (cfg : Config) (counter : Int) : String :=
  cfg.outputDir ++ "/" ++ cfg.outputPrefix ++ "_logs" ++ "_" ++ toString counter ++ ".csv"

/-- Go `addCommand`: append the row; once the buffer holds `chunkSize` rows, save
it to the file of the current index, empty it and increment the index. -/
def addCommand (cfg : Config) (row : Row) (s : State) : Option String × State :=
  let s := { s with commands := s.commands ++ [row] }
  if (s.commands.length : Int) < cfg.chunkSize then (none, s)
  else
    match saveCommands s.commands (commandsFile cfg s.commandsCounter) s.fs with
    | (some err, fs) => (some err, { s with fs := fs })
    | (none, fs) =>
      (none, { s with fs := fs, commands := [],
                      commandsCounter := wrapInt64 (s.commandsCounter + 1) })

/-- Go `addCollscan`: the same rotation over `collscans` and `collscansCounter`. -/
def addCollscan (cfg : Config) (row : Row) (s : State) : Option String × State :=
  let s := { s with collscans := s.collscans ++ [row] }
  if (s.collscans.length : Int) < cfg.chunkSize then (none, s)
  else
    match saveCommands s.collscans (collscansFile cfg s.collscansCounter) s.fs with
    | (some err, fs) => (some err, { s with fs := fs })
    | (none, fs) =>
      (none, { s with fs := fs, collscans := [],
                      collscansCounter := wrapInt64 (s.collscansCounter + 1) })

/-! ## The transcript -/

/-- The row `chunkConvert` builds for one record. -/
def logsRow (lib : Lib) (record : JMap) : Row :=
  [lib.sprintV (lookup record "t"), lib.sprintV (lookup record "s"),
   lib.sprintV (lookup record "c"), lib.sprintV (lookup record "id"),
   lib.sprintV (lookup record "ctx"), lib.sprintV (lookup record "msg"),
   lib.sprintV (lookup record "attr")]

/-- Go `chunkConvert`: one row per record, appended to the transcript file of
index `i / chunkSize`, after a header when that file does not exist.  The
division panics for a chunk size of 0, which is returned as an error here. -/
def chunkConvert (cfg : Config) (lib : Lib) (i : Int) (records : List JMap) (fs : FS) :
    Option String × FS :=
  let rows := records.map (logsRow lib)
  if rows.length < 1 then (none, fs)
  else if cfg.chunkSize = 0 then (some "panic: integer divide by zero", fs)
  else
    let counter := Int.tdiv i cfg.chunkSize
    let fileName := logsFile cfg counter
    match osStat fs fileName with
    | .failed err => (some err, fs)
    | st =>
      let rows := if st = .notExist then logsHeader :: rows else rows
      match osOpenFile fs fileName with
      | .error err => (some err, fs)
      | .ok old => (none, writeAll fs fileName old rows)

/-! ## Field extraction -/

/-- The Go idiom `value, ok := m[k]; if !ok { return errors.New(k + ": invalid key") }`. -/
def required (m : JMap) (k : String) : Except String JVal :=
  match lookup m k with
  | some v => .ok v
  | none => .error (k ++ ": invalid key")

/-- The Go idiom `x, ok := value.(string); if !ok { return errors.New(k + ": invalid string") }`. -/
def asString (k : String) : JVal → Except String String
  | .str s => .ok s
  | _ => .error (k ++ ": invalid string")

/-- The type assertion `value.(map[string]any)` with its error return. -/
def asMap (k : String) : JVal → Except String JMap
  | .obj m => .ok m
  | _ => .error (k ++ ": invalid map")

/-- The type assertion `value.(float64)` with its error return. -/
def asFloat64 (k : String) : JVal → Except String Float64
  | .num x => .ok (.fin x)
  | _ => .error (k ++ ": invalid float64")

/-- The type assertion `value.(bool)` with its error return. -/
def asBool (k : String) : JVal → Except String Bool
  | .bool b => .ok b
  | _ => .error (k ++ ": invalid bool")

/-- The Go idiom for an optional string: `x := ""`, and when the key is present
the type assertion with its error return. -/
def optString (m : JMap) (k : String) : Except String String :=
  match lookup m k with
  | none => .ok ""
  | some v => asString k v

/-- The same idiom for an optional bool, default `false`. -/
def optBool (m : JMap) (k : String) : Except String Bool :=
  match lookup m k with
  | none => .ok false
  | some v => asBool k v

/-- The same idiom for an optional number, default `float64(0)`. -/
def optFloat64 (m : JMap) (k : String) : Except String Float64 :=
  match lookup m k with
  | none => .ok 0
  | some v => asFloat64 k v

/-- The values `chunkCommands` extracts from a "Slow query" record. -/
structure Command where
  queryHash : String
  duration : Float64
  timestamp : Time
  appName : String
  remote : String
  database : String
  collection : String
  typeStr : String
  sort : Bool
  planSummary : String
  commandBytes : String

/-- The keys `chunkCommands` deletes from the command document, in order. -/
def strippedKeys : List String :=
  ["$clusterTime", "$db", "$readPreference", "lsid", "readConcern",
   "writeConcern", "txnNumber", "flowControl"]

/-- The body of the loop of `chunkCommands` up to the construction of the row:
`none` for a record whose `msg` is a string other than "Slow query".  The
divisor `1000 * 60` is a constant expression, which Go evaluates exactly. -/
def commandOf (lib : Lib) (record : JMap) : Except String (Option Command) := do
  let value ← required record "msg"
  let msg ← asString "msg" value
  if msg = "Slow query" then
    let value ← required record "t"
    let t ← asMap "t" value
    let value ← required t "$date"
    let date ← asString "$date" value
    let timestamp ← lib.timeParse date
    let value ← required record "attr"
    let attr ← asMap "attr" value
    let queryHash ← optString attr "queryHash"
    let value ← required attr "durationMillis"
    let durationMillis ← asFloat64 "durationMillis" value
    let duration := durationMillis / 60000
    let value ← required attr "command"
    let command ← asMap "command" value
    let command := strippedKeys.foldl delete command
    let commandBytes ← lib.jsonMarshal command
    let value ← required attr "type"
    let typeStr ← asString "type" value
    let sort ← optBool attr "hasSortStage"
    let appName ← optString attr "appName"
    let remote ← optString attr "remote"
    let planSummary ← optString attr "planSummary"
    let value ← required attr "ns"
    let ns ← asString "ns" value
    let splitStr := stringsSplit ns '.'
    let database := if splitStr.length > 1 then splitStr.getD 0 "" else ""
    let collection := if splitStr.length > 1 then splitStr.getD 1 "" else ""
    return some
      { queryHash := queryHash, duration := duration, timestamp := timestamp,
        appName := appName, remote := remote, database := database,
        collection := collection, typeStr := typeStr, sort := sort,
        planSummary := planSummary, commandBytes := commandBytes }
  else
    return none

/-- The row `chunkCommands` builds from the extracted values. -/
def Command.row (lib : Lib) (c : Command) : Row :=
  [c.queryHash, lib.sprintF2 c.duration, lib.timeFormat c.timestamp, c.appName,
   c.remote, c.database, c.collection, c.typeStr, toString c.sort, c.planSummary,
   c.commandBytes]

/-- Go `chunkCommands`: for every "Slow query" record build the row, pass it to
`addCommand` and, when the plan is "COLLSCAN", to `addCollscan`; return at the
first error. -/
def chunkCommands (cfg : Config) (lib : Lib) : List JMap → State → Option String × State
  | [], s => (none, s)
  | record :: rest, s =>
    match commandOf lib record with
    | .error err => (some err, s)
    | .ok none => chunkCommands cfg lib rest s
    | .ok (some c) =>
      match addCommand cfg (c.row lib) s with
      | (some err, s) => (some err, s)
      | (none, s) =>
        if c.planSummary = "COLLSCAN" then
          match addCollscan cfg (c.row lib) s with
          | (some err, s) => (some err, s)
          | (none, s) => chunkCommands cfg lib rest s
        else chunkCommands cfg lib rest s

/-! ## Parsing -/

/-- The loop of Go `parse`: a line that fails to decode is skipped, any other
record is appended. -/
def parseLoop (lib : Lib) (records : List JMap) : List String → List JMap
  | [] => records
  | line :: lines =>
    match lib.jsonUnmarshal line with
    | none => parseLoop lib records lines
    | some record => parseLoop lib (records ++ [record]) lines

/-- Go `parse`: the records and the error, which is always `nil`. -/
def parse (lib : Lib) (lines : List String) : List JMap × Option String :=
  (parseLoop lib [] lines, none)

/-! ## Running statistics -/

/-- The values `chunkQueryProf` and `chunkCollectionProf` extract from a
"Slow query" record: the key and the numbers merged into its `profMeta`. -/
structure ProfEvent where
  key : String
  durationMillis : Float64
  duration : Float64
  docsExamined : Float64
  nreturned : Float64
  reslen : Float64
deriving DecidableEq

/-- The validation part of the loop body of `chunkQueryProf`. -/
def queryEvent (record : JMap) : Except String (Option ProfEvent) := do
  let value ← required record "msg"
  let msg ← asString "msg" value
  if msg = "Slow query" then
    let value ← required record "attr"
    let attr ← asMap "attr" value
    let queryHash ← optString attr "queryHash"
    let value ← required attr "durationMillis"
    let durationMillis ← asFloat64 "durationMillis" value
    let duration := durationMillis / 60000
    let docsExamined ← optFloat64 attr "docsExamined"
    let nreturned ← optFloat64 attr "nreturned"
    let reslen ← optFloat64 attr "reslen"
    return some
      { key := queryHash, durationMillis := durationMillis, duration := duration,
        docsExamined := docsExamined, nreturned := nreturned, reslen := reslen }
  else
    return none

/-- The validation part of the loop body of `chunkCollectionProf`. -/
def collectionEvent (record : JMap) : Except String (Option ProfEvent) := do
  let value ← required record "msg"
  let msg ← asString "msg" value
  if msg = "Slow query" then
    let value ← required record "attr"
    let attr ← asMap "attr" value
    let value ← required attr "durationMillis"
    let durationMillis ← asFloat64 "durationMillis" value
    let duration := durationMillis / 60000
    let value ← required attr "ns"
    let ns ← asString "ns" value
    let docsExamined ← optFloat64 attr "docsExamined"
    let nreturned ← optFloat64 attr "nreturned"
    let reslen ← optFloat64 attr "reslen"
    return some
      { key := ns, durationMillis := durationMillis, duration := duration,
        docsExamined := docsExamined, nreturned := nreturned, reslen := reslen }
  else
    return none

/-- The zero value of `profMeta`, what a Go map read returns for a missing key. -/
def profMeta.zero : profMeta :=
  { docsExamined := 0, nreturned := 0, reslen := 0, duration := 0, count := 0,
    min := 0, max := 0 }

/-- The update both accumulators apply to the entry read from the map (lines
520-535 and 657-672): `found` is the entry when the key is present; a new key
starts from the zero value with `min` set to `math.MaxFloat64`.  The divisor
`1024 * 1024` is a constant expression, which Go evaluates exactly. -/
def mergeStat (found : Option profMeta) (e : ProfEvent) : profMeta :=
  let stat :=
    match found with
    | some stat => stat
    | none => { profMeta.zero with min := maxFloat64 }
  let stat := if e.durationMillis < stat.min then { stat with min := e.durationMillis } else stat
  let stat := if e.durationMillis > stat.max then { stat with max := e.durationMillis } else stat
  let stat := { stat with count := wrapInt64 (stat.count + 1) }
  let stat := { stat with duration := stat.duration + e.duration }
  let stat := { stat with docsExamined := stat.docsExamined + e.docsExamined }
  let stat := { stat with nreturned := stat.nreturned + e.nreturned }
  let stat := { stat with reslen := stat.reslen + e.reslen / 1048576 }
  stat

/-- Read the entry of the event's key, update it, write it back. -/
def merge (prof : ProfMap) (e : ProfEvent) : ProfMap :=
  prof.set e.key (mergeStat (prof.get? e.key) e)

/-- Go `chunkQueryProf`, over the variable `queryProf`. -/
def chunkQueryProf : List JMap → ProfMap → Option String × ProfMap
  | [], queryProf => (none, queryProf)
  | record :: rest, queryProf =>
    match queryEvent record with
    | .error err => (some err, queryProf)
    | .ok none => chunkQueryProf rest queryProf
    | .ok (some e) => chunkQueryProf rest (merge queryProf e)

/-- Go `chunkCollectionProf`, over the variable `collectionProf`. -/
def chunkCollectionProf : List JMap → ProfMap → Option String × ProfMap
  | [], collectionProf => (none, collectionProf)
  | record :: rest, collectionProf =>
    match collectionEvent record with
    | .error err => (some err, collectionProf)
    | .ok none => chunkCollectionProf rest collectionProf
    | .ok (some e) => chunkCollectionProf rest (merge collectionProf e)

/-! ## Processing a chunk -/

/-- Go `process`: parse the chunk, then run the four consumers in order and
return at the first error. -/
def process (cfg : Config) (lib : Lib) (i : Int) (chunk : List String) (s : State) :
    Option String × State :=
  match parse lib chunk with
  | (_, some err) => (some err, s)
  | (records, none) =>
    match chunkConvert cfg lib i records s.fs with
    | (some err, fs) => (some err, { s with fs := fs })
    | (none, fs) =>
      match chunkCommands cfg lib records { s with fs := fs } with
      | (some err, s) => (some err, s)
      | (none, s) =>
        match chunkQueryProf records s.queryProf with
        | (some err, queryProf) => (some err, { s with queryProf := queryProf })
        | (none, queryProf) =>
          match chunkCollectionProf records s.collectionProf with
          | (some err, collectionProf) =>
            (some err, { s with queryProf := queryProf, collectionProf := collectionProf })
          | (none, collectionProf) =>
            (none, { s with queryProf := queryProf, collectionProf := collectionProf })

/-- The calls of `process` the loop of `main` makes, given as the list of
`(skip, chunk)` pairs: `main` stops at the first error. -/
def processAll (cfg : Config) (lib : Lib) : List (Int × List String) → State → Option String × State
  | [], s => (none, s)
  | (i, chunk) :: rest, s =>
    match process cfg lib i chunk s with
    | (some err, s) => (some err, s)
    | (none, s) => processAll cfg lib rest s

/-- The end of `main` (lines 79-92): a non-empty `commands` buffer is saved to
the file of the current index, then a non-empty `collscans` buffer; neither
buffer is emptied and neither index incremented. -/
def flushRemaining (cfg : Config) (s : State) : Option String × State :=
  match
    (if s.commands.length > 0 then
      saveCommands s.commands (commandsFile cfg s.commandsCounter) s.fs
    else (none, s.fs)) with
  | (some err, fs) => (some err, { s with fs := fs })
  | (none, fs) =>
    match
      (if s.collscans.length > 0 then
        saveCommands s.collscans (collscansFile cfg s.collscansCounter) fs
      else (none, fs)) with
    | (some err, fs) => (some err, { s with fs := fs })
    | (none, fs) => (none, { s with fs := fs })

/-! ## Reading a record the way the specification names its fields -/

/-- A record is a slow-query event when `record["msg"] == "Slow query"`. -/
def slowQuery (record : JMap) : Bool :=
  match lookup record "msg" with
  | some (.str msg) => decide (msg = "Slow query")
  | _ => false

/-- The `attr` sub-document of a record (empty when absent or not a map). -/
def attrOf (record : JMap) : JMap :=
  match lookup record "attr" with
  | some (.obj attr) => attr
  | _ => []

/-- The `queryHash` of a record, the empty string when absent. -/
def queryHashOf (record : JMap) : String :=
  match lookup (attrOf record) "queryHash" with
  | some (.str h) => h
  | _ => ""

/-- The `ns` of a record. -/
def nsOf (record : JMap) : String :=
  match lookup (attrOf record) "ns" with
  | some (.str ns) => ns
  | _ => ""

/-- The number a record carries under key `k` of `attr`, 0 when absent. -/
def numberOf (record : JMap) (k : String) : Float64 :=
  match lookup (attrOf record) k with
  | some (.num x) => .fin x
  | _ => 0

/-- The raw `durationMillis` of a record. -/
def durationMillisOf (record : JMap) : Float64 := numberOf record "durationMillis"

/-- The event of a record as the specification names it, keyed by `key`: the
raw duration `d`, the minute duration `d / 60000`, `docsExamined`,
`nreturned` and `reslen` (0 when absent). -/
def eventOf (key : JMap → String) (record : JMap) : ProfEvent :=
  { key := key record, durationMillis := durationMillisOf record,
    duration := durationMillisOf record / 60000,
    docsExamined := numberOf record "docsExamined",
    nreturned := numberOf record "nreturned", reslen := numberOf record "reslen" }

/-- The loop shared by `chunkQueryProf` and `chunkCollectionProf`, over any
extraction function. -/
def chunkProf (event : JMap → Except String (Option ProfEvent)) :
    List JMap → ProfMap → Option String × ProfMap
  | [], prof => (none, prof)
  | record :: rest, prof =>
    match event record with
    | .error err => (some err, prof)
    | .ok none => chunkProf event rest prof
    | .ok (some e) => chunkProf event rest (merge prof e)

/-- What merging an event does to the entry of key `k`. -/
def keyStat (k : String) (found : Option profMeta) (e : ProfEvent) : Option profMeta :=
  if e.key = k then some (mergeStat found e) else found

/-- The records of a sequence of chunks, in order. -/
def allRecords (lib : Lib) : List (Int × List String) → List JMap
  | [] => []
  | (_, chunk) :: rest => (parse lib chunk).1 ++ allRecords lib rest

/-! ## Sample inputs -/

/-- A well-formed "Slow query" record. -/
def sampleSlow (queryHash : String) (durationMillis : ℚ) (ns : String) : JMap :=
  [("t", .obj [("$date", .str "2024-05-01T10:00:00Z")]),
   ("msg", .str "Slow query"),
   ("attr", .obj [("type", .str "command"), ("ns", .str ns), ("queryHash", .str queryHash),
     ("durationMillis", .num durationMillis),
     ("command", .obj [("find", .str "orders"), ("$db", .str "shop")])])]

/-- A record that is not a slow-query event. -/
def sampleOther : JMap := [("msg", .str "Connection accepted")]

/-- A "Slow query" record without the required field `t`. -/
def sampleNoT : JMap :=
  [("msg", .str "Slow query"),
   ("attr", .obj [("type", .str "command"), ("ns", .str "shop.orders"),
     ("durationMillis", .num 1200), ("command", .obj [("find", .str "orders")])])]

/-- A "Slow query" record whose required fields are valid and whose optional
`docsExamined` is a string. -/
def sampleBadDocs : JMap :=
  [("t", .obj [("$date", .str "2024-05-01T10:00:00Z")]),
   ("msg", .str "Slow query"),
   ("attr", .obj [("type", .str "command"), ("ns", .str "shop.orders"),
     ("durationMillis", .num 1200), ("docsExamined", .str "many"),
     ("command", .obj [("find", .str "orders")])])]

/-- The required fields of a qualifying event (`t`, `t.$date`, `attr`,
`attr.durationMillis`, `attr.command`, `attr.type`, `attr.ns`) are all present
with the right type. -/
def requiredFieldsValid (record : JMap) : Bool :=
  (match lookup record "t" with
    | some (.obj t) =>
      (match lookup t "$date" with
        | some (.str _) => true
        | _ => false)
    | _ => false) &&
  (match lookup record "attr" with
    | some (.obj attr) =>
      (match lookup attr "durationMillis" with
        | some (.num _) => true
        | _ => false) &&
      (match lookup attr "command" with
        | some (.obj _) => true
        | _ => false) &&
      (match lookup attr "type" with
        | some (.str _) => true
        | _ => false) &&
      (match lookup attr "ns" with
        | some (.str _) => true
        | _ => false)
    | _ => false)

/-- A library instance for concrete runs: the lines "a", "b", "c", "d", "e"
decode to fixed records, every other line fails to decode. -/
def sampleLib : Lib :=
  { jsonUnmarshal := fun line =>
      if line = "a" then some (sampleSlow "H1" 1200 "shop.orders")
      else if line = "b" then some (sampleSlow "H1" 600 "shop.orders")
      else if line = "c" then some sampleOther
      else if line = "d" then some sampleNoT
      else if line = "e" then some sampleBadDocs
      else none
    jsonMarshal := fun _ => .ok "cmd"
    timeParse := fun date => .ok date
    timeFormat := fun t => t
    sprintV := fun v => match v with | some (.str s) => s | none => "<nil>" | _ => "map"
    sprintF2 := fun _ => "0.00"
    sprint := fun _ => "0" }

/-- A sample configuration. -/
def sampleConfig : Config := { outputDir := "out", outputPrefix := "mongod", chunkSize := 100 }

/-- The empty output directory. -/
def noFiles : FS := fun _ => none

/-- The string a record carries under key `k` of `attr`, empty when absent. -/
def stringOf (record : JMap) (k : String) : String :=
  match lookup (attrOf record) k with
  | some (.str s) => s
  | _ => ""

/-- The bool a record carries under key `k` of `attr`, `false` when absent. -/
def boolOf (record : JMap) (k : String) : Bool :=
  match lookup (attrOf record) k with
  | some (.bool b) => b
  | _ => false

/-- Key `k` of `attr` is present with a value that fails the type test. -/
def mistyped (record : JMap) (k : String) (hasType : JVal → Bool) : Bool :=
  match lookup (attrOf record) k with
  | some v => !hasType v
  | none => false

/-- The value is a `string`. -/
def JVal.isString : JVal → Bool
  | .str _ => true
  | _ => false

/-- The value is a `float64`. -/
def JVal.isNumber : JVal → Bool
  | .num _ => true
  | _ => false

/-- The value is a `bool`. -/
def JVal.isBool : JVal → Bool
  | .bool _ => true
  | _ => false

/-- Some optional field (`queryHash`, `appName`, `remote`, `planSummary`,
`hasSortStage`, `docsExamined`, `nreturned`, `reslen`) is present with a value
of the wrong type. -/
def optionalFieldMistyped (record : JMap) : Bool :=
  mistyped record "queryHash" JVal.isString || mistyped record "appName" JVal.isString ||
  mistyped record "remote" JVal.isString || mistyped record "planSummary" JVal.isString ||
  mistyped record "hasSortStage" JVal.isBool || mistyped record "docsExamined" JVal.isNumber ||
  mistyped record "nreturned" JVal.isNumber || mistyped record "reslen" JVal.isNumber

/-- The layout a rotating sink keeps: the rows added so far are the blocks
saved to the files of index 0, 1, ... (each holding the header and exactly
`chunkSize` rows) followed by the buffer, which holds fewer than `chunkSize`
rows; the counter is the number of files and no file of a later index exists. -/
def Rotated (chunkSize : Int) (file : Int → String) (rows buf : List Row) (counter : Int)
    (fs : FS) : Prop :=
  ∃ blocks : List (List Row),
    rows = blocks.flatten ++ buf ∧
    (∀ b ∈ blocks, (b.length : Int) = chunkSize) ∧
    (buf.length : Int) < chunkSize ∧
    counter = (blocks.length : Int) ∧
    (∀ (k : Nat) (b : List Row), blocks[k]? = some b →
      fs (file (k : Int)) = some (.file (commandsHeader :: b))) ∧
    (∀ k : Nat, blocks.length ≤ k → fs (file (k : Int)) = none)

/-- The rows `chunkCommands` passes to `addCommand` for a list of records it
processes without error: the row of every record that yields one, in order. -/
def commandRows (lib : Lib) (records : List JMap) : List Row :=
  records.filterMap fun record =>
    match commandOf lib record with
    | .ok (some c) => some (c.row lib)
    | _ => none

/-- Every path that exists is a regular file. -/
def AllFiles (fs : FS) : Prop :=
  ∀ name, fs name ≠ some .denied ∧ fs name ≠ some .dir

/-! ## The report writer -/

/-- Go `profElement`. -/
structure profElement where
  key : String
  value : profMeta
deriving DecidableEq

/-- The call `os.Create(name)`: the error, if any. -/
def osCreate (fs : FS) (name : String) : Option String :=
  match fs name with
  | some .denied => some ("open " ++ name ++ ": permission denied")
  | some .dir => some ("open " ++ name ++ ": is a directory")
  | _ => none

/-- Go `save`: create or truncate the file under the output directory and
write the rows. -/
def save (cfg : Config) (fileName : String) (rows : List Row) (fs : FS) : Option String × FS :=
  match osCreate fs (cfg.outputDir ++ "/" ++ fileName) with
  | some err => (some err, fs)
  | none =>
    (none, fun name => if name = cfg.outputDir ++ "/" ++ fileName then some (.file rows)
      else fs name)

/-- The call `sort.Slice(sorted, less)` with the comparison of the source,
`sorted[i].value.duration > sorted[j].value.duration`.  Go fixes neither the
order of elements that compare equal nor the order in which a map is ranged
over; the model sorts by insertion, which is one of the outcomes Go allows.
(With a NaN among the durations the comparison is no ordering and Go promises
no order at all.) -/
def sortSlice (sorted : List profElement) : List profElement :=
  sorted.insertionSort (fun a b => ¬ (b.value.duration > a.value.duration))

/-- The examined/returned ratio of lines 570-573 and 707-710: the quotient,
replaced by `math.MaxFloat64` when `nreturned == 0`. -/
def ratio (value : profMeta) : Float64 :=
  let ratio := value.docsExamined / value.nreturned
  if value.nreturned = 0 then maxFloat64 else ratio

/-- The row both reports build for one element. -/
def profRow (lib : Lib) (total : Float64) (element : profElement) : Row :=
  [element.key,
   toString element.value.count,
   lib.sprintF2 element.value.duration,
   lib.sprintF2 ((element.value.duration / total) * 100),
   lib.sprintF2 ((element.value.duration * 60 * 1000) / Float64.ofInt element.value.count),
   lib.sprintF2 element.value.min,
   lib.sprintF2 element.value.max,
   lib.sprint element.value.docsExamined,
   lib.sprint element.value.nreturned,
   lib.sprintF2 (ratio element.value),
   lib.sprintF2 element.value.reslen,
   lib.sprintF2 (element.value.reslen / (element.value.duration * 60))]

/-- The header row of the query report. -/
def queryProfHeader : Row :=
  ["Hash", "Count", "Duration (Minutes)", "Percentage (Duration)", "Average Latency (ms)",
   "Minimum Latency (ms)", "Maximum Latency (ms)", "Examined", "Returned",
   "Ratio (Examined/Returned)", "Response (MB)", "Throughput (MB/Second)"]

/-- The header row of the collection report. -/
def collectionProfHeader : Row :=
  ["Collection", "Count", "Duration (Minutes)", "Percentage (Duration)",
   "Average Latency (ms)", "Minimum Latency (ms)", "Maximum Latency (ms)", "Examined",
   "Returned", "Ratio (Examined/Returned)", "Response (MB)", "Throughput (MB/Second)"]

/-- The loop over the map at the start of both reports: the elements in the
order of iteration, and the total of their durations. -/
def collect (prof : ProfMap) : List profElement × Float64 :=
  prof.foldl (fun acc kv => (acc.1 ++ [{ key := kv.1, value := kv.2 }], acc.2 + kv.2.duration))
    ([], 0)

/-- The elements of a report in the order written: collected, then sorted. -/
def profSorted (prof : ProfMap) : List profElement :=
  sortSlice (collect prof).1

/-- The rows of a report: the header, then one row per sorted element. -/
def profRows (lib : Lib) (header : Row) (prof : ProfMap) : List Row :=
  header :: (profSorted prof).map (profRow lib (collect prof).2)

/-- Go `saveQueryProf`: nothing for an empty map, else the rows of the report
saved to `<prefix>_query_prof.csv`. -/
def saveQueryProf (cfg : Config) (lib : Lib) (s : State) : Option String × FS :=
  if s.queryProf.length < 1 then (none, s.fs)
  else save cfg (cfg.outputPrefix ++ "_query_prof.csv")
    (profRows lib queryProfHeader s.queryProf) s.fs

/-- Go `saveCollectionProf`: the same over `collectionProf`, saved to
`<prefix>_collection_prof.csv`. -/
def saveCollectionProf (cfg : Config) (lib : Lib) (s : State) : Option String × FS :=
  if s.collectionProf.length < 1 then (none, s.fs)
  else save cfg (cfg.outputPrefix ++ "_collection_prof.csv")
    (profRows lib collectionProfHeader s.collectionProf) s.fs

/-! ## The run -/

/-- The loop of `main` (lines 68-78) with `fuel` iterations at most: while
`skip < len(lines)` process `lines[skip:limit]` and add the chunk size to
`skip`; stop at the first error.  A slice with bounds out of range panics,
which is returned as an error here, as is running out of fuel. -/
def mainLoop (cfg : Config) (lib : Lib) (lines : List String) :
    Nat → Int → State → Option String × State
  | 0, skip, s =>
    if skip < (lines.length : Int) then (some "out of fuel", s) else (none, s)
  | fuel + 1, skip, s =>
    if skip < (lines.length : Int) then
      let limit := wrapInt64 (skip + cfg.chunkSize)
      let limit := if limit > (lines.length : Int) then (lines.length : Int) else limit
      if skip < 0 ∨ limit < skip then (some "panic: slice bounds out of range", s)
      else
        let chunk := (lines.drop skip.toNat).take (limit - skip).toNat
        match process cfg lib skip chunk s with
        | (some err, s) => (some err, s)
        | (none, s) => mainLoop cfg lib lines fuel (wrapInt64 (skip + cfg.chunkSize)) s
    else (none, s)

/-- Go `main` from the split lines on: the check of the chunk size, the loop
(which for a chunk size of at least 100 ends within `len(lines)` iterations),
the last flush of both buffers and the two reports; `log.Fatalln` is the
return of the error.  Creating the output directory is taken to succeed. -/
def main (cfg : Config) (lib : Lib) (lines : List String) (fs : FS) : Option String × State :=
  if cfg.chunkSize < 100 then
    (some "error: chunk size (-s) must be atleast 100", State.init fs)
  else
    match mainLoop cfg lib lines lines.length 0 (State.init fs) with
    | (some err, s) => (some err, s)
    | (none, s) =>
      match flushRemaining cfg s with
      | (some err, s) => (some err, s)
      | (none, s) =>
        match saveQueryProf cfg lib s with
        | (some err, fs) => (some err, { s with fs := fs })
        | (none, fs) =>
          match saveCollectionProf cfg lib { s with fs := fs } with
          | (some err, fs) => (some err, { s with fs := fs })
          | (none, fs) => (none, { s with fs := fs })

/-- The calls of `process` a loop over chunks of `N` lines makes: chunk `k` is
`(k * N, the next N lines)`, until no line is left. -/
def chunkList (N : Nat) : Nat → Nat → List String → List (Int × List String)
  | 0, _, _ => []
  | fuel + 1, k, rest =>
    if rest = [] then []
    else (((k * N : Nat) : Int), rest.take N) :: chunkList N fuel (k + 1) (rest.drop N)

/-- A sequence of calls of `addCommand`, stopped at the first error. -/
def addCommands (cfg : Config) : List Row → State → Option String × State
  | [], s => (none, s)
  | row :: rest, s =>
    match addCommand cfg row s with
    | (some err, s) => (some err, s)
    | (none, s) => addCommands cfg rest s

/-- An accumulator with two keys, the second with the longer duration. -/
def sampleProf : ProfMap :=
  [("H1", { docsExamined := 5, nreturned := 0, reslen := 0, duration := 1, count := 1,
            min := 60000, max := 60000 }),
   ("H2", { docsExamined := 8, nreturned := 4, reslen := 0, duration := 3, count := 2,
            min := 60000, max := 120000 })]

/-- The rows `chunkCommands` passes to `addCollscan` for a list of records it
processes without error: the rows whose plan is "COLLSCAN", in order. -/
def collscanRows (lib : Lib) (records : List JMap) : List Row :=
  records.filterMap fun record =>
    match commandOf lib record with
    | .ok (some c) => if c.planSummary = "COLLSCAN" then some (c.row lib) else none
    | _ => none

/-- The files of a sink hold, in index order, the data rows `rows`: file `k`
holds the header and the `k`-th block, and no file of a later index exists. -/
def FilesHold (file : Int → String) (rows : List Row) (fs : FS) : Prop :=
  ∃ blocks : List (List Row),
    blocks.flatten = rows ∧
    (∀ (k : Nat) (b : List Row), blocks[k]? = some b →
      fs (file (k : Int)) = some (.file (commandsHeader :: b))) ∧
    (∀ k : Nat, blocks.length ≤ k → fs (file (k : Int)) = none)

/-- The "Slow query" record of the end-to-end scenario: 1200 ms, nothing
returned, namespace "db.coll", no plan summary. -/
def scenarioSlow : JMap :=
  [("t", .obj [("$date", .str "2024-05-01T10:00:00Z")]),
   ("msg", .str "Slow query"),
   ("attr", .obj [("type", .str "command"), ("ns", .str "db.coll"), ("queryHash", .str "H1"),
     ("durationMillis", .num 1200), ("nreturned", .num 0),
     ("command", .obj [("find", .str "coll")])])]

/-- The library of the scenario: the first line is not JSON. -/
def scenarioLib : Lib :=
  { sampleLib with
    jsonUnmarshal := fun line =>
      if line = "slow" then some scenarioSlow
      else if line = "other" then some sampleOther
      else none }

/-- The three lines of the scenario. -/
def scenarioLines : List String := ["not json", "slow", "other"]

/-- The values `chunkQueryProf` extracts from the slow record of the scenario. -/
def scenarioEvent : ProfEvent :=
  { key := "H1", durationMillis := 1200, duration := 1200 / 60000, docsExamined := 0,
    nreturned := 0, reslen := 0 }

/-- The number of data rows of the CSV file at `name`: its rows but the header;
zero when there is no such file. -/
def dataRows (fs : FS) (name : String) : Nat :=
  match fs name with
  | some (.file rows) => rows.length - 1
  | _ => 0

/-- The total number of data rows of the transcript files of index below `n`. -/
def transcriptRows (cfg : Config) (fs : FS) (n : Nat) : Nat :=
  ((List.range n).map fun (k : Nat) => dataRows fs (logsFile cfg (k : Int))).sum

/-- An input of 101 lines that all parse: the first record lacks the required
field `t`, the other hundred are not slow-query events. -/
def abortedLines : List String := "d" :: List.replicate 100 "c"

/-- A well-formed "Slow query" record whose plan is a collection scan. -/
def sampleScan (queryHash : String) : JMap :=
  [("t", .obj [("$date", .str "2024-05-01T10:00:00Z")]),
   ("msg", .str "Slow query"),
   ("attr", .obj [("type", .str "command"), ("ns", .str "shop.items"),
     ("queryHash", .str queryHash), ("planSummary", .str "COLLSCAN"),
     ("durationMillis", .num 900),
     ("command", .obj [("find", .str "items")])])]

/-- A library whose lines "s1", "s2", "s3" decode to collection scans, "a" to a
slow query with an index plan and "c" to another event. -/
def scanLib : Lib :=
  { sampleLib with
    jsonUnmarshal := fun line =>
      if line = "s1" then some (sampleScan "S1")
      else if line = "s2" then some (sampleScan "S2")
      else if line = "s3" then some (sampleScan "S3")
      else if line = "a" then some (sampleSlow "H1" 1200 "shop.orders")
      else if line = "c" then some sampleOther
      else none }

/-- A configuration that rotates after two rows. -/
def smallConfig : Config := { outputDir := "out", outputPrefix := "mongod", chunkSize := 2 }

/-- The arguments of the calls of `process` the loop of `main` makes, in order:
the loop of `mainLoop` with the same fuel, recording `(skip, chunk)` at every
call, the failing one included. -/
def mainLoopCalls (cfg : Config) (lib : Lib) (lines : List String) :
    Nat → Int → State → List (Int × List String)
  | 0, _, _ => []
  | fuel + 1, skip, s =>
    if skip < (lines.length : Int) then
      let limit := wrapInt64 (skip + cfg.chunkSize)
      let limit := if limit > (lines.length : Int) then (lines.length : Int) else limit
      if skip < 0 ∨ limit < skip then []
      else
        let chunk := (lines.drop skip.toNat).take (limit - skip).toNat
        (skip, chunk) ::
          match process cfg lib skip chunk s with
          | (some _, _) => []
          | (none, s) => mainLoopCalls cfg lib lines fuel (wrapInt64 (skip + cfg.chunkSize)) s
    else []

/-! ## Basic facts -/

/-! ## Facts about `float64` -/

theorem f64_ofNat (n : Nat) : (OfNat.ofNat n : Float64) = .fin (n : ℚ) := rfl

theorem f64_zero : (0 : Float64) = .fin 0 := by
  rw [f64_ofNat, Nat.cast_zero]

theorem f64_add (a b : Float64) : a + b = Float64.add a b := rfl

theorem f64_mul (a b : Float64) : a * b = Float64.mul a b := rfl

theorem f64_div (a b : Float64) : a / b = Float64.div a b := rfl

theorem f64_lt_iff (a b : Float64) : a < b ↔ Float64.lt a b = true := Iff.rfl

theorem f64_le_iff (a b : Float64) : a ≤ b ↔ Float64.le a b = true := Iff.rfl

theorem f64_fin_lt_fin (x y : ℚ) : Float64.fin x < Float64.fin y ↔ x < y := by
  simp [f64_lt_iff, Float64.lt]

theorem f64_fin_le_fin (x y : ℚ) : Float64.fin x ≤ Float64.fin y ↔ x ≤ y := by
  simp [f64_le_iff, Float64.le]

theorem f64_round_zero : Float64.round 0 = .fin 0 := by
  simp [Float64.round]

/-- A comparison that holds has no NaN operand. -/
theorem f64_ne_nan_of_lt {a b : Float64} (h : a < b) : a ≠ .nan ∧ b ≠ .nan := by
  rw [f64_lt_iff] at h
  rcases a with x | (_ | _) | _ <;> rcases b with y | (_ | _) | _ <;> simp_all [Float64.lt]

theorem f64_ne_nan_of_le {a b : Float64} (h : a ≤ b) : a ≠ .nan ∧ b ≠ .nan := by
  rw [f64_le_iff] at h
  rcases a with x | (_ | _) | _ <;> rcases b with y | (_ | _) | _ <;> simp_all [Float64.le]

theorem f64_le_of_lt {a b : Float64} (h : a < b) : a ≤ b := by
  rw [f64_lt_iff] at h
  rw [f64_le_iff]
  rcases a with x | (_ | _) | _ <;> rcases b with y | (_ | _) | _ <;>
    simp_all [Float64.lt, Float64.le]
  exact h.le

theorem f64_le_of_not_lt {a b : Float64} (ha : a ≠ .nan) (hb : b ≠ .nan) (h : ¬ a < b) :
    b ≤ a := by
  rw [f64_lt_iff] at h
  rw [f64_le_iff]
  rcases a with x | (_ | _) | _ <;> rcases b with y | (_ | _) | _ <;>
    simp_all [Float64.lt, Float64.le]

theorem f64_le_refl {a : Float64} (ha : a ≠ .nan) : a ≤ a := by
  rw [f64_le_iff]
  rcases a with x | (_ | _) | _ <;> simp_all [Float64.le]

theorem f64_le_trans {a b c : Float64} (hab : a ≤ b) (hbc : b ≤ c) : a ≤ c := by
  rw [f64_le_iff] at hab hbc ⊢
  rcases a with x | (_ | _) | _ <;> rcases b with y | (_ | _) | _ <;>
    rcases c with z | (_ | _) | _ <;> simp_all [Float64.le]
  exact hab.trans hbc

theorem f64_not_lt_of_le {a b : Float64} (h : a ≤ b) : ¬ b < a := by
  rw [f64_le_iff] at h
  rw [f64_lt_iff]
  rcases a with x | (_ | _) | _ <;> rcases b with y | (_ | _) | _ <;>
    simp_all [Float64.lt, Float64.le]

theorem f64_lt_asymm {a b : Float64} (h : a < b) : ¬ b < a :=
  f64_not_lt_of_le (f64_le_of_lt h)

/-- Adding 0 leaves every value a `float64` holds as it is. -/
theorem f64_add_zero {a : Float64} (h : a.Exact) : a + 0 = a := by
  rw [f64_add, f64_zero]
  cases a with
  | fin x => simpa [Float64.add, Float64.Exact] using h
  | inf b => rfl
  | nan => rfl

/-- Zero plus a value a `float64` holds is that value. -/
theorem f64_zero_add {a : Float64} (h : a.Exact) : 0 + a = a := by
  rw [f64_add, f64_zero]
  cases a with
  | fin x => simpa [Float64.add, Float64.Exact] using h
  | inf b => rfl
  | nan => rfl

theorem f64_zero_add_zero : (0 : Float64) + 0 = 0 := by
  rw [f64_add, f64_zero]
  simp [Float64.add, f64_round_zero]

theorem f64_zero_div (n : Nat) (hn : n ≠ 0) : (0 : Float64) / (OfNat.ofNat n : Float64) = 0 := by
  rw [f64_div, f64_zero, f64_ofNat]
  simp [Float64.div, hn, f64_round_zero]

/-- A finite result is rounded to a finite value or an infinity, never to NaN. -/
theorem f64_round_ne_nan (x : ℚ) : Float64.round x ≠ .nan := by
  unfold Float64.round
  simp only []
  split_ifs <;> simp

theorem roundHalfEven_of_near (x : ℚ) (m : Int) (h : |x - m| < 1 / 2) : roundHalfEven x = m := by
  rw [abs_lt] at h
  obtain ⟨h1, h2⟩ := h
  unfold roundHalfEven
  by_cases hx : (m : ℚ) ≤ x
  · have hf : ⌊x⌋ = m := Int.floor_eq_iff.2 ⟨hx, by linarith⟩
    rw [hf, if_pos (by linarith)]
  · push_neg at hx
    have hf : ⌊x⌋ = m - 1 := Int.floor_eq_iff.2 ⟨by push_cast; linarith, by push_cast; linarith⟩
    rw [hf]
    have h3 : ¬ (x - ((m - 1 : Int) : ℚ) < 1 / 2) := by push_cast; linarith
    have h4 : 1 / 2 < x - ((m - 1 : Int) : ℚ) := by push_cast; linarith
    rw [if_neg h3, if_pos h4]
    ring

theorem roundHalfEven_of_tie (x : ℚ) (n : Int) (h : x = (n : ℚ) + 1 / 2) :
    roundHalfEven x = if n % 2 = 0 then n else n + 1 := by
  have hf : ⌊x⌋ = n := Int.floor_eq_iff.2 ⟨by rw [h]; linarith, by rw [h]; linarith⟩
  unfold roundHalfEven
  rw [hf, h]
  have h1 : ¬ ((n : ℚ) + 1 / 2 - (n : ℚ) < 1 / 2) := by
    rw [add_sub_cancel_left]
    exact lt_irrefl _
  have h2 : ¬ (1 / 2 < (n : ℚ) + 1 / 2 - (n : ℚ)) := by
    rw [add_sub_cancel_left]
    exact lt_irrefl _
  rw [if_neg h1, if_neg h2]

/-- The value a positive result is rounded to, from its binade `2^e ≤ x < 2^(e+1)`
(`e ≥ -1022`) and the integer `m` that `x / 2^(e-52)` is rounded to. -/
theorem f64_round_pos (x : ℚ) (e m : Int) (he : -1022 ≤ e)
    (h1 : (2 : ℚ) ^ e ≤ x) (h2 : x < (2 : ℚ) ^ (e + 1))
    (hm : roundHalfEven (x / (2 : ℚ) ^ (e - 52)) = m)
    (hmax : (m : ℚ) * (2 : ℚ) ^ (e - 52) < 2 ^ 1024) :
    Float64.round x = .fin ((m : ℚ) * (2 : ℚ) ^ (e - 52)) := by
  have hpos : 0 < x := lt_of_lt_of_le (zpow_pos (by norm_num) e) h1
  have hlog : Int.log 2 x = e := by
    apply le_antisymm
    · have := (Int.lt_zpow_iff_log_lt (by norm_num : 1 < 2) hpos).1 (by exact_mod_cast h2)
      omega
    · exact (Int.zpow_le_iff_le_log (by norm_num : 1 < 2) hpos).1 (by exact_mod_cast h1)
  unfold Float64.round
  have habs : |x| = x := abs_of_pos hpos
  simp only [habs, hlog, max_eq_left he, if_neg (ne_of_gt hpos), if_neg (not_lt.2 hpos.le),
    hm, if_neg (not_le.2 hmax)]

/-! ## Integers and maps -/

theorem wrapInt64_of_lt (x : Int) (h0 : 0 ≤ x) (h1 : x < 9223372036854775808) :
    wrapInt64 x = x := by
  unfold wrapInt64
  omega

theorem get?_set_self (prof : ProfMap) (k : String) (v : profMeta) :
    (prof.set k v).get? k = some v := by
  induction prof with
  | nil => simp [ProfMap.set, ProfMap.get?]
  | cons kv rest ih =>
    obtain ⟨k', v'⟩ := kv
    by_cases h : k' = k
    · simp [ProfMap.set, ProfMap.get?, h]
    · simp [ProfMap.set, ProfMap.get?, h, ih]

theorem get?_set_ne (prof : ProfMap) (k k' : String) (v : profMeta) (h : k ≠ k') :
    (prof.set k v).get? k' = prof.get? k' := by
  induction prof with
  | nil => simp [ProfMap.set, ProfMap.get?, h]
  | cons kv rest ih =>
    obtain ⟨k0, v0⟩ := kv
    by_cases h0 : k0 = k
    · subst h0
      simp [ProfMap.set, ProfMap.get?, h]
    · by_cases h1 : k0 = k'
      · subst h1
        simp [ProfMap.set, ProfMap.get?, h0]
      · simp [ProfMap.set, ProfMap.get?, h0, h1, ih]

/-! ## Inversion of the extraction idioms -/

theorem bind_eq_ok {α β : Type} (x : Except String α) (f : α → Except String β) (b : β) :
    (x >>= f) = .ok b ↔ ∃ a, x = .ok a ∧ f a = .ok b := by
  cases x <;> simp [bind, Except.bind]

theorem required_eq_ok (m : JMap) (k : String) (v : JVal) :
    required m k = .ok v ↔ lookup m k = some v := by
  unfold required
  cases lookup m k <;> simp

theorem asString_eq_ok (k : String) (v : JVal) (s : String) :
    asString k v = .ok s ↔ v = .str s := by
  cases v <;> simp [asString]

theorem asMap_eq_ok (k : String) (v : JVal) (m : JMap) :
    asMap k v = .ok m ↔ v = .obj m := by
  cases v <;> simp [asMap]

theorem asFloat64_eq_ok (k : String) (v : JVal) (x : Float64) :
    asFloat64 k v = .ok x ↔ ∃ q, v = .num q ∧ x = .fin q := by
  cases v <;> simp [asFloat64, eq_comm]

theorem asBool_eq_ok (k : String) (v : JVal) (b : Bool) :
    asBool k v = .ok b ↔ v = .bool b := by
  cases v <;> simp [asBool]

theorem optString_eq_ok (m : JMap) (k : String) (s : String) :
    optString m k = .ok s ↔
      (lookup m k = none ∧ s = "") ∨ lookup m k = some (.str s) := by
  unfold optString
  cases h : lookup m k with
  | none => simp [eq_comm]
  | some v => simp [asString_eq_ok]

theorem optFloat64_eq_ok (m : JMap) (k : String) (x : Float64) :
    optFloat64 m k = .ok x ↔
      (lookup m k = none ∧ x = 0) ∨ ∃ q, lookup m k = some (.num q) ∧ x = .fin q := by
  unfold optFloat64
  cases h : lookup m k with
  | none => simp [eq_comm]
  | some v => simp [asFloat64_eq_ok]

theorem optBool_eq_ok (m : JMap) (k : String) (b : Bool) :
    optBool m k = .ok b ↔
      (lookup m k = none ∧ b = false) ∨ lookup m k = some (.bool b) := by
  unfold optBool
  cases h : lookup m k with
  | none => simp [eq_comm]
  | some v => simp [asBool_eq_ok]

theorem numberOf_eq (record attr : JMap) (k : String) (x : Float64)
    (hattr : lookup record "attr" = some (.obj attr)) (h : optFloat64 attr k = .ok x) :
    numberOf record k = x := by
  unfold numberOf attrOf
  rw [hattr]
  rcases (optFloat64_eq_ok attr k x).1 h with ⟨h1, rfl⟩ | ⟨q, h1, rfl⟩ <;> simp [h1]

/-- What a successful `queryEvent` has read from the record. -/
theorem queryEvent_some (record : JMap) (e : ProfEvent)
    (h : queryEvent record = .ok (some e)) :
    slowQuery record = true ∧ e = eventOf queryHashOf record := by
  unfold queryEvent at h
  simp only [bind_eq_ok, required_eq_ok, asString_eq_ok, asMap_eq_ok, asFloat64_eq_ok] at h
  obtain ⟨v, hv, msg, rfl, h⟩ := h
  split at h
  · rename_i hmsg
    simp only [bind_eq_ok, required_eq_ok, asString_eq_ok, asMap_eq_ok, asFloat64_eq_ok,
      optString_eq_ok] at h
    obtain ⟨a, hattr, attr, rfl, hash, hhash, dv, hd, f, ⟨q, rfl, rfl⟩, x, hx, y, hy, z, hz, h⟩ := h
    simp only [pure, Except.pure, Except.ok.injEq, Option.some.injEq] at h
    subst h
    subst hmsg
    have hk : queryHashOf record = hash := by
      unfold queryHashOf attrOf
      rw [hattr]
      rcases hhash with ⟨h1, rfl⟩ | h1 <;> simp [h1]
    have hdur : durationMillisOf record = .fin q := by
      unfold durationMillisOf numberOf attrOf
      rw [hattr]
      simp [hd]
    refine ⟨by simp [slowQuery, hv], ?_⟩
    simp only [eventOf, hk, hdur, numberOf_eq record attr _ _ hattr hx,
      numberOf_eq record attr _ _ hattr hy, numberOf_eq record attr _ _ hattr hz]
  · simp [pure, Except.pure] at h

theorem queryEvent_none (record : JMap) (h : queryEvent record = .ok none) :
    slowQuery record = false := by
  unfold queryEvent at h
  simp only [bind_eq_ok, required_eq_ok, asString_eq_ok, asMap_eq_ok, asFloat64_eq_ok] at h
  obtain ⟨v, hv, msg, rfl, h⟩ := h
  split at h
  · simp [bind_eq_ok, pure, Except.pure] at h
  · rename_i hmsg
    simp [slowQuery, hv, hmsg]

/-- What a successful `collectionEvent` has read from the record. -/
theorem collectionEvent_some (record : JMap) (e : ProfEvent)
    (h : collectionEvent record = .ok (some e)) :
    slowQuery record = true ∧ e = eventOf nsOf record := by
  unfold collectionEvent at h
  simp only [bind_eq_ok, required_eq_ok, asString_eq_ok, asMap_eq_ok, asFloat64_eq_ok] at h
  obtain ⟨v, hv, msg, rfl, h⟩ := h
  split at h
  · rename_i hmsg
    simp only [bind_eq_ok, required_eq_ok, asString_eq_ok, asMap_eq_ok, asFloat64_eq_ok,
      optString_eq_ok] at h
    obtain ⟨a, hattr, attr, rfl, dv, hd, f, ⟨q, rfl, rfl⟩, nv, hns, ns, rfl,
      x, hx, y, hy, z, hz, h⟩ := h
    simp only [pure, Except.pure, Except.ok.injEq, Option.some.injEq] at h
    subst h
    subst hmsg
    have hk : nsOf record = ns := by
      unfold nsOf attrOf
      rw [hattr]
      simp [hns]
    have hdur : durationMillisOf record = .fin q := by
      unfold durationMillisOf numberOf attrOf
      rw [hattr]
      simp [hd]
    refine ⟨by simp [slowQuery, hv], ?_⟩
    simp only [eventOf, hk, hdur, numberOf_eq record attr _ _ hattr hx,
      numberOf_eq record attr _ _ hattr hy, numberOf_eq record attr _ _ hattr hz]
  · simp [pure, Except.pure] at h

theorem collectionEvent_none (record : JMap) (h : collectionEvent record = .ok none) :
    slowQuery record = false := by
  unfold collectionEvent at h
  simp only [bind_eq_ok, required_eq_ok, asString_eq_ok, asMap_eq_ok, asFloat64_eq_ok] at h
  obtain ⟨v, hv, msg, rfl, h⟩ := h
  split at h
  · simp [bind_eq_ok, pure, Except.pure] at h
  · rename_i hmsg
    simp [slowQuery, hv, hmsg]

/-! ## The accumulator loop -/

theorem chunkQueryProf_eq (records : List JMap) (prof : ProfMap) :
    chunkQueryProf records prof = chunkProf queryEvent records prof := by
  induction records generalizing prof with
  | nil => rfl
  | cons r rest ih =>
    unfold chunkQueryProf chunkProf
    cases h : queryEvent r with
    | error err => rfl
    | ok o => cases o <;> simp [ih]

theorem chunkCollectionProf_eq (records : List JMap) (prof : ProfMap) :
    chunkCollectionProf records prof = chunkProf collectionEvent records prof := by
  induction records generalizing prof with
  | nil => rfl
  | cons r rest ih =>
    unfold chunkCollectionProf chunkProf
    cases h : collectionEvent r with
    | error err => rfl
    | ok o => cases o <;> simp [ih]

/-- Processing `a ++ b` is processing `a` and, when that succeeds, `b`. -/
theorem chunkProf_append (event : JMap → Except String (Option ProfEvent))
    (a b : List JMap) (prof : ProfMap) :
    chunkProf event (a ++ b) prof =
      match chunkProf event a prof with
      | (some err, prof') => (some err, prof')
      | (none, prof') => chunkProf event b prof' := by
  induction a generalizing prof with
  | nil => simp [chunkProf]
  | cons r rest ih =>
    simp only [List.cons_append, chunkProf]
    cases h : event r with
    | error err => rfl
    | ok o => cases o <;> simp [ih]

/-- A loop that returns no error has merged, in order, the event of every
slow-query record, each as the specification names it. -/
theorem chunkProf_ok (event : JMap → Except String (Option ProfEvent)) (key : JMap → String)
    (hsome : ∀ r e, event r = .ok (some e) → slowQuery r = true ∧ e = eventOf key r)
    (hnone : ∀ r, event r = .ok none → slowQuery r = false)
    (records : List JMap) (prof prof' : ProfMap)
    (h : chunkProf event records prof = (none, prof')) :
    prof' = ((records.filter slowQuery).map (eventOf key)).foldl merge prof := by
  induction records generalizing prof with
  | nil => simpa [chunkProf] using h.symm
  | cons r rest ih =>
    unfold chunkProf at h
    cases hr : event r with
    | error err => simp [hr] at h
    | ok o =>
      cases o with
      | none =>
        simp only [hr] at h
        simp [hnone r hr, ih prof h]
      | some e =>
        simp only [hr] at h
        obtain ⟨hs, rfl⟩ := hsome r e hr
        simp [hs, ih _ h]

/-! ## The update rule, key by key -/

theorem get?_merge (prof : ProfMap) (e : ProfEvent) (k : String) :
    (merge prof e).get? k = keyStat k (prof.get? k) e := by
  unfold merge keyStat
  by_cases h : e.key = k
  · subst h
    simp [get?_set_self]
  · simp [h, get?_set_ne _ _ _ _ h]

theorem get?_foldl_merge (events : List ProfEvent) (prof : ProfMap) (k : String) :
    (events.foldl merge prof).get? k = events.foldl (keyStat k) (prof.get? k) := by
  induction events generalizing prof with
  | nil => rfl
  | cons e rest ih => simp [List.foldl_cons, ih, get?_merge]

theorem mergeStat_count (found : Option profMeta) (e : ProfEvent) :
    (mergeStat found e).count =
      wrapInt64 ((match found with | some stat => stat.count | none => 0) + 1) := by
  unfold mergeStat
  cases found <;> simp only [] <;> split_ifs <;> rfl

theorem mergeStat_duration (found : Option profMeta) (e : ProfEvent) :
    (mergeStat found e).duration =
      (match found with | some stat => stat.duration | none => 0) + e.duration := by
  unfold mergeStat
  cases found <;> simp only [] <;> split_ifs <;> rfl

theorem mergeStat_min (found : Option profMeta) (e : ProfEvent) :
    (mergeStat found e).min =
      if e.durationMillis < (match found with | some stat => stat.min | none => maxFloat64)
      then e.durationMillis
      else (match found with | some stat => stat.min | none => maxFloat64) := by
  unfold mergeStat
  cases found <;> simp only [] <;> split_ifs <;> rfl

theorem mergeStat_max (found : Option profMeta) (e : ProfEvent) :
    (mergeStat found e).max =
      if e.durationMillis > (match found with | some stat => stat.max | none => 0)
      then e.durationMillis
      else (match found with | some stat => stat.max | none => 0) := by
  unfold mergeStat
  cases found <;> simp only [profMeta.zero] <;> split_ifs <;> rfl

/-- An update never stores NaN as `min` or `max`: it stores the raw duration
only when the comparison holds, and a comparison with NaN does not. -/
theorem mergeStat_ne_nan (found : Option profMeta) (e : ProfEvent)
    (h : ∀ stat, found = some stat → stat.min ≠ .nan ∧ stat.max ≠ .nan) :
    (mergeStat found e).min ≠ .nan ∧ (mergeStat found e).max ≠ .nan := by
  rw [mergeStat_min, mergeStat_max]
  constructor
  · split_ifs with hlt
    · exact (f64_ne_nan_of_lt hlt).1
    · cases found with
      | none => simp [maxFloat64]
      | some stat => exact (h stat rfl).1
  · split_ifs with hgt
    · exact (f64_ne_nan_of_lt hgt).2
    · cases found with
      | none => simp [f64_zero]
      | some stat => exact (h stat rfl).2

/-- Counting: the entry of key `k` is present exactly when an event of that
key has been merged, and its count is the number of such events. -/
theorem keyStat_count (k : String) (events : List ProfEvent) (found : Option profMeta) (c : Int)
    (hinv : (found = none ∧ c = 0) ∨ ∃ stat, found = some stat ∧ stat.count = c ∧ 1 ≤ c)
    (hlt : c + (events.countP (fun e => decide (e.key = k)) : Int) < 9223372036854775808) :
    let n : Int := c + (events.countP (fun e => decide (e.key = k)) : Int)
    (events.foldl (keyStat k) found = none ∧ n = 0) ∨
      ∃ stat, events.foldl (keyStat k) found = some stat ∧ stat.count = n ∧ 1 ≤ n := by
  induction events generalizing found c with
  | nil => simpa using hinv
  | cons e rest ih =>
    simp only [List.foldl_cons]
    by_cases hk : e.key = k
    · have hc : (List.countP (fun e => decide (e.key = k)) (e :: rest) : Int)
          = 1 + (List.countP (fun e => decide (e.key = k)) rest : Int) := by
        rw [List.countP_cons_of_pos _ _ (by simpa using hk)]
        push_cast
        ring
      rw [hc] at hlt ⊢
      have h0 : 0 ≤ c := by rcases hinv with ⟨_, h⟩ | ⟨_, _, _, h⟩ <;> omega
      have hstep : keyStat k found e = some (mergeStat found e) := by simp [keyStat, hk]
      have hcount : (mergeStat found e).count = c + 1 := by
        rw [mergeStat_count]
        rcases hinv with ⟨rfl, rfl⟩ | ⟨stat, rfl, rfl, _⟩
        · show wrapInt64 (0 + 1) = 0 + 1
          exact wrapInt64_of_lt _ (by omega) (by omega)
        · show wrapInt64 (stat.count + 1) = stat.count + 1
          exact wrapInt64_of_lt _ (by omega) (by omega)
      have := ih (keyStat k found e) (c + 1)
        (Or.inr ⟨_, hstep, hcount, by omega⟩) (by omega)
      simpa [add_assoc] using this
    · have hc : (List.countP (fun e => decide (e.key = k)) (e :: rest) : Int)
          = (List.countP (fun e => decide (e.key = k)) rest : Int) := by
        rw [List.countP_cons_of_neg _ _ (by simpa using hk)]
      rw [hc] at hlt ⊢
      have hstep : keyStat k found e = found := by simp [keyStat, hk]
      rw [hstep]
      exact ih found c hinv hlt

/-- Once an entry bounds `d` from both sides, it keeps doing so. -/
theorem keyStat_bounds_keep (k : String) (d : Float64) (events : List ProfEvent)
    (found : Option profMeta)
    (h : ∃ stat, found = some stat ∧ stat.min ≤ d ∧ d ≤ stat.max) :
    ∃ stat, events.foldl (keyStat k) found = some stat ∧ stat.min ≤ d ∧ d ≤ stat.max := by
  induction events generalizing found with
  | nil => simpa using h
  | cons e rest ih =>
    simp only [List.foldl_cons]
    apply ih
    obtain ⟨stat, rfl, h1, h2⟩ := h
    by_cases hk : e.key = k
    · refine ⟨mergeStat (some stat) e, by simp [keyStat, hk], ?_, ?_⟩
      · rw [mergeStat_min]
        simp only []
        split_ifs with hlt
        · exact f64_le_trans (f64_le_of_lt hlt) h1
        · exact h1
      · rw [mergeStat_max]
        simp only []
        split_ifs with hgt
        · exact f64_le_trans h2 (f64_le_of_lt hgt)
        · exact h2
    · exact ⟨stat, by simp [keyStat, hk], h1, h2⟩

/-- The entry of key `k` bounds the raw duration of every event of that key
merged into it, the first one included, when no `min` or `max` it starts from
is NaN. -/
theorem keyStat_bounds (k : String) (events : List ProfEvent) (found : Option profMeta)
    (hfound : ∀ stat, found = some stat → stat.min ≠ .nan ∧ stat.max ≠ .nan)
    (e : ProfEvent) (he : e ∈ events) (hk : e.key = k) (hd : e.durationMillis ≠ .nan) :
    ∃ stat, events.foldl (keyStat k) found = some stat ∧
      stat.min ≤ e.durationMillis ∧ e.durationMillis ≤ stat.max := by
  induction events generalizing found with
  | nil => simp at he
  | cons e' rest ih =>
    simp only [List.foldl_cons]
    rcases List.mem_cons.1 he with rfl | hmem
    · apply keyStat_bounds_keep
      have hm : (match found with | some stat => stat.min | none => maxFloat64) ≠ .nan := by
        cases found with
        | none => simp [maxFloat64]
        | some stat => exact (hfound stat rfl).1
      have hM : (match found with | some stat => stat.max | none => (0 : Float64)) ≠ .nan := by
        cases found with
        | none => simp [f64_zero]
        | some stat => exact (hfound stat rfl).2
      refine ⟨mergeStat found e, by simp [keyStat, hk], ?_, ?_⟩
      · rw [mergeStat_min]
        split_ifs with hlt
        · exact f64_le_refl hd
        · exact f64_le_of_not_lt hd hm hlt
      · rw [mergeStat_max]
        split_ifs with hgt
        · exact f64_le_refl hd
        · exact f64_le_of_not_lt hM hd hgt
    · apply ih _ _ hmem
      intro stat hs
      by_cases hk' : e'.key = k
      · have : keyStat k found e' = some (mergeStat found e') := by simp [keyStat, hk']
        rw [this] at hs
        cases hs
        exact mergeStat_ne_nan found e' hfound
      · have : keyStat k found e' = found := by simp [keyStat, hk']
        rw [this] at hs
        exact hfound stat hs

/-- The cumulative duration of the entry of key `k` is the `float64` sum that
adds the minute durations of the events of that key, one after the other, to
the duration it started from. -/
theorem keyStat_duration (k : String) (events : List ProfEvent) (found : Option profMeta) :
    (match events.foldl (keyStat k) found with | some stat => stat.duration | none => 0) =
      ((events.filter (fun e => decide (e.key = k))).map (fun e => e.duration)).foldl
        (fun acc d => acc + d) (match found with | some stat => stat.duration | none => 0) := by
  induction events generalizing found with
  | nil => simp
  | cons e rest ih =>
    simp only [List.foldl_cons]
    rw [ih]
    by_cases hk : e.key = k
    · simp [keyStat, hk, mergeStat_duration]
    · simp [keyStat, hk]

/-! ## `process` and the accumulators -/

theorem addCommand_prof (cfg : Config) (row : Row) (s : State) :
    (addCommand cfg row s).2.queryProf = s.queryProf ∧
      (addCommand cfg row s).2.collectionProf = s.collectionProf := by
  unfold addCommand
  simp only []
  split_ifs
  · exact ⟨rfl, rfl⟩
  · split <;> exact ⟨rfl, rfl⟩

theorem addCollscan_prof (cfg : Config) (row : Row) (s : State) :
    (addCollscan cfg row s).2.queryProf = s.queryProf ∧
      (addCollscan cfg row s).2.collectionProf = s.collectionProf := by
  unfold addCollscan
  simp only []
  split_ifs
  · exact ⟨rfl, rfl⟩
  · split <;> exact ⟨rfl, rfl⟩

/-- The rows pass leaves both accumulators alone. -/
theorem chunkCommands_prof (cfg : Config) (lib : Lib) (records : List JMap) (s : State) :
    (chunkCommands cfg lib records s).2.queryProf = s.queryProf ∧
      (chunkCommands cfg lib records s).2.collectionProf = s.collectionProf := by
  induction records generalizing s with
  | nil => exact ⟨rfl, rfl⟩
  | cons r rest ih =>
    unfold chunkCommands
    cases hc : commandOf lib r with
    | error err => exact ⟨rfl, rfl⟩
    | ok o =>
      cases o with
      | none => exact ih s
      | some c =>
        simp only []
        have h1 := addCommand_prof cfg (c.row lib) s
        rcases ha : addCommand cfg (c.row lib) s with ⟨_ | err, s1⟩
        · rw [ha] at h1
          simp only [] at h1 ⊢
          split_ifs
          · have h2 := addCollscan_prof cfg (c.row lib) s1
            rcases hb : addCollscan cfg (c.row lib) s1 with ⟨_ | err, s2⟩
            · rw [hb] at h2
              simp only [] at h2 ⊢
              have := ih s2
              exact ⟨this.1.trans (h2.1.trans h1.1), this.2.trans (h2.2.trans h1.2)⟩
            · rw [hb] at h2
              simp only [] at h2 ⊢
              exact ⟨h2.1.trans h1.1, h2.2.trans h1.2⟩
          · have := ih s1
            exact ⟨this.1.trans h1.1, this.2.trans h1.2⟩
        · rw [ha] at h1
          exact h1

/-- A chunk processed without error has run both accumulator loops to the end
over the records of the chunk. -/
theorem process_prof (cfg : Config) (lib : Lib) (i : Int) (chunk : List String) (s s' : State)
    (h : process cfg lib i chunk s = (none, s')) :
    chunkProf queryEvent (parse lib chunk).1 s.queryProf = (none, s'.queryProf) ∧
      chunkProf collectionEvent (parse lib chunk).1 s.collectionProf =
        (none, s'.collectionProf) := by
  unfold process at h
  simp only [parse] at h ⊢
  rcases h1 : chunkConvert cfg lib i (parseLoop lib [] chunk) s.fs with ⟨_ | err, fs1⟩
  · rw [h1] at h
    simp only [] at h
    have hp := chunkCommands_prof cfg lib (parseLoop lib [] chunk) { s with fs := fs1 }
    rcases h2 : chunkCommands cfg lib (parseLoop lib [] chunk) { s with fs := fs1 }
      with ⟨_ | err, s2⟩
    · rw [h2] at h hp
      simp only [] at h hp
      rcases h3 : chunkQueryProf (parseLoop lib [] chunk) s2.queryProf with ⟨_ | err, qp⟩
      · rw [h3] at h
        simp only [] at h
        rcases h4 : chunkCollectionProf (parseLoop lib [] chunk) s2.collectionProf
          with ⟨_ | err, cp⟩
        · rw [h4] at h
          simp only [Prod.mk.injEq, true_and] at h
          subst h
          rw [← chunkQueryProf_eq, ← chunkCollectionProf_eq, ← hp.1, ← hp.2, h3, h4]
          exact ⟨rfl, rfl⟩
        · rw [h4] at h
          simp at h
      · rw [h3] at h
        simp at h
    · rw [h2] at h
      simp at h
  · rw [h1] at h
    simp at h

/-- A run of chunks processed without error has run both accumulator loops
over all the records, in order. -/
theorem processAll_prof (cfg : Config) (lib : Lib) (chunks : List (Int × List String))
    (s s' : State) (h : processAll cfg lib chunks s = (none, s')) :
    chunkProf queryEvent (allRecords lib chunks) s.queryProf = (none, s'.queryProf) ∧
      chunkProf collectionEvent (allRecords lib chunks) s.collectionProf =
        (none, s'.collectionProf) := by
  induction chunks generalizing s with
  | nil =>
    simp only [processAll, Prod.mk.injEq, true_and] at h
    subst h
    exact ⟨rfl, rfl⟩
  | cons c rest ih =>
    obtain ⟨i, chunk⟩ := c
    unfold processAll at h
    rcases h1 : process cfg lib i chunk s with ⟨_ | err, s1⟩
    · rw [h1] at h
      simp only [] at h
      have hp := process_prof cfg lib i chunk s s1 h1
      have hr := ih s1 h
      simp only [allRecords, chunkProf_append, hp.1, hp.2]
      exact hr
    · rw [h1] at h
      simp at h

/-! ## Counts (C1) -/

/-- The count of an entry is the number of slow-query records of its key, and
the entry exists exactly when there is such a record. -/
theorem chunkProf_count (event : JMap → Except String (Option ProfEvent)) (key : JMap → String)
    (hsome : ∀ r e, event r = .ok (some e) → slowQuery r = true ∧ e = eventOf key r)
    (hnone : ∀ r, event r = .ok none → slowQuery r = false)
    (records : List JMap) (prof' : ProfMap)
    (h : chunkProf event records [] = (none, prof'))
    (hlen : (records.length : Int) < 9223372036854775808) (k : String) :
    (prof'.get? k ≠ none ↔
        1 ≤ records.countP (fun r => slowQuery r && decide (key r = k))) ∧
      ∀ stat, prof'.get? k = some stat →
        stat.count = (records.countP (fun r => slowQuery r && decide (key r = k)) : Int) := by
  have hfold := chunkProf_ok event key hsome hnone records [] prof' h
  have hcnt : ((records.filter slowQuery).map (eventOf key)).countP (fun e => decide (e.key = k))
      = records.countP (fun r => slowQuery r && decide (key r = k)) := by
    rw [List.countP_map, List.countP_filter]
    apply List.countP_congr
    intro r _
    simp [eventOf, Bool.and_comm]
  have hle : records.countP (fun r => slowQuery r && decide (key r = k)) ≤ records.length :=
    List.countP_le_length _
  have hget := get?_foldl_merge ((records.filter slowQuery).map (eventOf key)) [] k
  rw [← hfold] at hget
  have hfound : ProfMap.get? ([] : ProfMap) k = none := rfl
  rw [hfound] at hget
  have hinv := keyStat_count k ((records.filter slowQuery).map (eventOf key)) none 0
    (Or.inl ⟨rfl, rfl⟩) (by rw [hcnt]; omega)
  simp only [hcnt, zero_add] at hinv
  rw [← hget] at hinv
  rcases hinv with ⟨h0, hn⟩ | ⟨stat, hs, hc, hn⟩
  · refine ⟨⟨fun hne => absurd h0 hne, fun h1 => by omega⟩, ?_⟩
    intro stat hs
    rw [h0] at hs
    cases hs
  · refine ⟨⟨fun _ => by omega, fun _ => by rw [hs]; exact Option.some_ne_none _⟩, ?_⟩
    intro stat' hs'
    rw [hs] at hs'
    cases hs'
    exact hc

/-- C1: after a sequence of chunks that `process` handles without error, from
the initial state, the count of every entry of `queryProf` is the number of
"Slow query" records whose `queryHash` (empty when absent) is its key, the count
of every entry of `collectionProf` is the number of those whose `ns` is its
key, and a key is present exactly when that number is at least 1.  The count
is an `int64`; the run holds fewer than `2^63` records. -/
theorem processAll_count_eq_events (cfg : Config) (lib : Lib)
    (chunks : List (Int × List String)) (fs : FS) (s : State)
    (hrun : processAll cfg lib chunks (State.init fs) = (none, s))
    (hlen : ((allRecords lib chunks).length : Int) < 9223372036854775808) (key : String) :
    ((s.queryProf.get? key ≠ none ↔
        1 ≤ (allRecords lib chunks).countP
          (fun r => slowQuery r && decide (queryHashOf r = key))) ∧
      ∀ stat, s.queryProf.get? key = some stat →
        stat.count = ((allRecords lib chunks).countP
          (fun r => slowQuery r && decide (queryHashOf r = key)) : Int)) ∧
    ((s.collectionProf.get? key ≠ none ↔
        1 ≤ (allRecords lib chunks).countP
          (fun r => slowQuery r && decide (nsOf r = key))) ∧
      ∀ stat, s.collectionProf.get? key = some stat →
        stat.count = ((allRecords lib chunks).countP
          (fun r => slowQuery r && decide (nsOf r = key)) : Int)) := by
  have hp := processAll_prof cfg lib chunks (State.init fs) s hrun
  exact ⟨chunkProf_count queryEvent queryHashOf queryEvent_some queryEvent_none _ _ hp.1 hlen key,
    chunkProf_count collectionEvent nsOf collectionEvent_some collectionEvent_none _ _ hp.2
      hlen key⟩

/-- The count theorem at a run of two chunks holding two events of hash "H1". -/
theorem processAll_count_eq_events_witness :
    (processAll sampleConfig sampleLib [(0, ["a", "x", "c"]), (100, ["b"])]
        (State.init noFiles)).1 = none ∧
      ∀ stat,
        (processAll sampleConfig sampleLib [(0, ["a", "x", "c"]), (100, ["b"])]
          (State.init noFiles)).2.queryProf.get? "H1" = some stat →
        stat.count = 2 :=
  ⟨by decide, fun stat hs =>
    ((processAll_count_eq_events sampleConfig sampleLib [(0, ["a", "x", "c"]), (100, ["b"])]
      noFiles _ (Prod.ext (by decide) rfl) (by decide) "H1").1.2 stat hs).trans (by decide)⟩


/-! ## Bounds (C2) -/

theorem numberOf_ne_nan (record : JMap) (k : String) : numberOf record k ≠ .nan := by
  unfold numberOf
  split <;> simp [f64_zero]

/-- The entry of a merged record's key exists and bounds its raw duration. -/
theorem chunkProf_bounds (event : JMap → Except String (Option ProfEvent)) (key : JMap → String)
    (hsome : ∀ r e, event r = .ok (some e) → slowQuery r = true ∧ e = eventOf key r)
    (hnone : ∀ r, event r = .ok none → slowQuery r = false)
    (records : List JMap) (prof prof' : ProfMap)
    (hprof : ∀ k stat, prof.get? k = some stat → stat.min ≠ .nan ∧ stat.max ≠ .nan)
    (h : chunkProf event records prof = (none, prof'))
    (record : JMap) (hmem : record ∈ records) (hslow : slowQuery record = true) :
    ∃ stat, prof'.get? (key record) = some stat ∧
      stat.min ≤ durationMillisOf record ∧ durationMillisOf record ≤ stat.max := by
  have hfold := chunkProf_ok event key hsome hnone records prof prof' h
  have hget := get?_foldl_merge ((records.filter slowQuery).map (eventOf key)) prof (key record)
  rw [← hfold] at hget
  rw [hget]
  exact keyStat_bounds (key record) _ (prof.get? (key record)) (hprof (key record))
    (eventOf key record)
    (List.mem_map.2 ⟨record, List.mem_filter.2 ⟨hmem, hslow⟩, rfl⟩) rfl
    (numberOf_ne_nan record "durationMillis")

/-- C2: after any sequence of chunks processed without error, from any
accumulators that hold no NaN as `min` or `max` (the initial ones hold none,
and no update stores one), every "Slow query" record `r` merged by
`chunkQueryProf` (resp. `chunkCollectionProf`) finds the entry of its key
present with `min <= durationMillis r <= max` in the comparison of `float64`;
this includes the first update of a key, where `min` starts at
`math.MaxFloat64` and `max` at 0. -/
theorem processAll_min_le_duration_le_max (cfg : Config) (lib : Lib)
    (chunks : List (Int × List String)) (s0 s : State)
    (hrun : processAll cfg lib chunks s0 = (none, s))
    (hq : ∀ k stat, s0.queryProf.get? k = some stat → stat.min ≠ .nan ∧ stat.max ≠ .nan)
    (hc : ∀ k stat, s0.collectionProf.get? k = some stat → stat.min ≠ .nan ∧ stat.max ≠ .nan)
    (record : JMap) (hmem : record ∈ allRecords lib chunks) (hslow : slowQuery record = true) :
    (∃ stat, s.queryProf.get? (queryHashOf record) = some stat ∧
        stat.min ≤ durationMillisOf record ∧ durationMillisOf record ≤ stat.max) ∧
      (∃ stat, s.collectionProf.get? (nsOf record) = some stat ∧
        stat.min ≤ durationMillisOf record ∧ durationMillisOf record ≤ stat.max) := by
  have hp := processAll_prof cfg lib chunks s0 s hrun
  exact ⟨chunkProf_bounds queryEvent queryHashOf queryEvent_some queryEvent_none _ _ _ hq hp.1
      record hmem hslow,
    chunkProf_bounds collectionEvent nsOf collectionEvent_some collectionEvent_none _ _ _ hc hp.2
      record hmem hslow⟩

/-- The bounds at a run of two chunks, for the event of 600 ms merged second
into the key "H1". -/
theorem processAll_min_le_duration_le_max_witness :
    (processAll sampleConfig sampleLib [(0, ["a", "x", "c"]), (100, ["b"])]
        (State.init noFiles)).1 = none ∧
      sampleSlow "H1" 600 "shop.orders" ∈
        allRecords sampleLib [(0, ["a", "x", "c"]), (100, ["b"])] ∧
      slowQuery (sampleSlow "H1" 600 "shop.orders") = true ∧
      durationMillisOf (sampleSlow "H1" 600 "shop.orders") = .fin 600 ∧
      ∃ stat,
        (processAll sampleConfig sampleLib [(0, ["a", "x", "c"]), (100, ["b"])]
          (State.init noFiles)).2.queryProf.get?
            (queryHashOf (sampleSlow "H1" 600 "shop.orders")) = some stat ∧
        stat.min ≤ durationMillisOf (sampleSlow "H1" 600 "shop.orders") ∧
        durationMillisOf (sampleSlow "H1" 600 "shop.orders") ≤ stat.max :=
  have hmem : sampleSlow "H1" 600 "shop.orders" ∈
      allRecords sampleLib [(0, ["a", "x", "c"]), (100, ["b"])] := by
    simp [allRecords, parse, parseLoop, sampleLib]
  ⟨by decide, hmem, by decide, rfl,
    (processAll_min_le_duration_le_max sampleConfig sampleLib
      [(0, ["a", "x", "c"]), (100, ["b"])] (State.init noFiles) _
      (Prod.ext (by decide) rfl) (fun k stat h => by simp [State.init, ProfMap.get?] at h)
      (fun k stat h => by simp [State.init, ProfMap.get?] at h) _ hmem (by decide)).1⟩

/-! ## Cumulative duration (C3) -/

/-- The cumulative duration of an entry is the `float64` sum, from 0 and in
the order of the records, of the minute durations of the slow-query records of
its key. -/
theorem chunkProf_duration (event : JMap → Except String (Option ProfEvent))
    (key : JMap → String)
    (hsome : ∀ r e, event r = .ok (some e) → slowQuery r = true ∧ e = eventOf key r)
    (hnone : ∀ r, event r = .ok none → slowQuery r = false)
    (records : List JMap) (prof' : ProfMap)
    (h : chunkProf event records [] = (none, prof')) (k : String) (stat : profMeta)
    (hs : prof'.get? k = some stat) :
    stat.duration =
      ((records.filter (fun r => slowQuery r && decide (key r = k))).map
        (fun r => durationMillisOf r / 60000)).foldl (fun acc d => acc + d) 0 := by
  have hfold := chunkProf_ok event key hsome hnone records [] prof' h
  have hget := get?_foldl_merge ((records.filter slowQuery).map (eventOf key)) [] k
  rw [← hfold, hs] at hget
  have hd := keyStat_duration k ((records.filter slowQuery).map (eventOf key))
    (ProfMap.get? [] k)
  rw [← hget] at hd
  simp only [ProfMap.get?] at hd
  rw [hd, List.filter_map, List.map_map, List.filter_filter]
  have hpred : (fun a => ((fun e => decide (e.key = k)) ∘ eventOf key) a && slowQuery a)
      = (fun r => slowQuery r && decide (key r = k)) := by
    funext r
    simp [eventOf, Bool.and_comm]
  rw [hpred]
  rfl

/-- C3 (amended): the cumulative duration of every entry of `queryProf` is the
`float64` sum, accumulated from 0 in the order of the records, of the
`float64` quotients `durationMillis / 60000` of the "Slow query" records of its
key, every addition and division rounded as `float64` arithmetic rounds; and
two "Slow query" records with the same `queryHash` that pass validation give
exactly one entry, with count 2 and the duration
`(0 + d1 / 60000) + d2 / 60000`. -/
theorem processAll_duration_eq_sum (cfg : Config) (lib : Lib)
    (chunks : List (Int × List String)) (fs : FS) (s : State)
    (hrun : processAll cfg lib chunks (State.init fs) = (none, s))
    (key : String) (stat : profMeta) (hs : s.queryProf.get? key = some stat) :
    stat.duration =
        (((allRecords lib chunks).filter
          (fun r => slowQuery r && decide (queryHashOf r = key))).map
            (fun r => durationMillisOf r / 60000)).foldl (fun acc d => acc + d) 0 ∧
      ∀ r1 r2 : JMap, slowQuery r1 = true → slowQuery r2 = true →
        queryHashOf r1 = queryHashOf r2 → (chunkQueryProf [r1, r2] []).1 = none →
        ∃ stat2, (chunkQueryProf [r1, r2] []).2 = [(queryHashOf r1, stat2)] ∧
          stat2.count = 2 ∧
          stat2.duration = 0 + durationMillisOf r1 / 60000 + durationMillisOf r2 / 60000 := by
  have hp := processAll_prof cfg lib chunks (State.init fs) s hrun
  refine ⟨chunkProf_duration queryEvent queryHashOf queryEvent_some queryEvent_none _ _ hp.1
    key stat hs, ?_⟩
  intro r1 r2 h1 h2 hk herr
  have hfold := chunkProf_ok queryEvent queryHashOf queryEvent_some queryEvent_none [r1, r2] []
    (chunkQueryProf [r1, r2] []).2 (by rw [← chunkQueryProf_eq]; exact Prod.ext herr rfl)
  rw [hfold]
  simp only [List.filter, h1, h2, List.map, List.foldl, merge, ProfMap.get?, ProfMap.set,
    eventOf, hk, if_true]
  refine ⟨_, rfl, ?_, ?_⟩
  · simp only [mergeStat_count]
    decide
  · simp only [mergeStat_duration]

/-- The duration theorem at a run of two chunks holding two events of hash
"H1", of 1200 ms and 600 ms. -/
theorem processAll_duration_eq_sum_witness :
    (processAll sampleConfig sampleLib [(0, ["a", "x", "c"]), (100, ["b"])]
        (State.init noFiles)).1 = none ∧
      ∃ stat,
        (processAll sampleConfig sampleLib [(0, ["a", "x", "c"]), (100, ["b"])]
          (State.init noFiles)).2.queryProf.get? "H1" = some stat ∧
        stat.duration = 0 + Float64.fin 1200 / 60000 + Float64.fin 600 / 60000 := by
  have hrun : processAll sampleConfig sampleLib [(0, ["a", "x", "c"]), (100, ["b"])]
      (State.init noFiles) = (none, (processAll sampleConfig sampleLib
        [(0, ["a", "x", "c"]), (100, ["b"])] (State.init noFiles)).2) :=
    Prod.ext (by decide) rfl
  have hq := chunkProf_bounds queryEvent queryHashOf queryEvent_some queryEvent_none _ _ _
    (fun k stat h => by simp [State.init, ProfMap.get?] at h)
    (processAll_prof sampleConfig sampleLib _ _ _ hrun).1
    (sampleSlow "H1" 600 "shop.orders") (by simp [allRecords, parse, parseLoop, sampleLib])
    (by decide)
  obtain ⟨stat, hs, -, -⟩ := hq
  refine ⟨by decide, stat, hs, ?_⟩
  rw [(processAll_duration_eq_sum sampleConfig sampleLib [(0, ["a", "x", "c"]), (100, ["b"])]
    noFiles _ hrun "H1" stat hs).1]
  simp [allRecords, parse, parseLoop, sampleLib, slowQuery, queryHashOf, attrOf, lookup,
    sampleSlow, sampleOther, durationMillisOf, numberOf]

/-- The `float64` values of 0.1, 0.2 and 0.3, and the sum of the first two. -/
theorem f64_tenths :
    Float64.round (1 / 10) = .fin (3602879701896397 / 36028797018963968) ∧
      Float64.round (1 / 5) = .fin (3602879701896397 / 18014398509481984) ∧
      Float64.round (3 / 10) = .fin (5404319552844595 / 18014398509481984) ∧
      Float64.round (3602879701896397 / 36028797018963968)
        = .fin (3602879701896397 / 36028797018963968) ∧
      Float64.round (3602879701896397 / 36028797018963968 + 3602879701896397 / 18014398509481984)
        = .fin (1351079888211149 / 4503599627370496) := by
  refine ⟨?_, ?_, ?_, ?_, ?_⟩
  · rw [f64_round_pos (1 / 10) (-4) 7205759403792794 (by norm_num) (by norm_num) (by norm_num)
      (roundHalfEven_of_near _ _ (by norm_num [abs_lt])) (by norm_num)]
    norm_num
  · rw [f64_round_pos (1 / 5) (-3) 7205759403792794 (by norm_num) (by norm_num) (by norm_num)
      (roundHalfEven_of_near _ _ (by norm_num [abs_lt])) (by norm_num)]
    norm_num
  · rw [f64_round_pos (3 / 10) (-2) 5404319552844595 (by norm_num) (by norm_num) (by norm_num)
      (roundHalfEven_of_near _ _ (by norm_num [abs_lt])) (by norm_num)]
    norm_num
  · rw [f64_round_pos _ (-4) 7205759403792794 (by norm_num) (by norm_num) (by norm_num)
      (roundHalfEven_of_near _ _ (by norm_num [abs_lt])) (by norm_num)]
    norm_num
  · rw [f64_round_pos _ (-2) 5404319552844596 (by norm_num) (by norm_num) (by norm_num)
      ((roundHalfEven_of_tie _ 5404319552844595 (by norm_num)).trans (by decide)) (by norm_num)]
    norm_num

/-- C3 as stated fails where `float64` arithmetic rounds: two "Slow query"
records of the same `queryHash` with 6000 ms and 12000 ms give one entry with
count 2 whose duration is `0.1 + 0.2` in `float64`, that is
0.30000000000000004 (`1351079888211149 / 2^52`).  The sum of the two minute
durations in exact arithmetic is `6000 / 60000 + 12000 / 60000 = 3 / 10`, and
even the `float64` nearest to it, `5404319552844595 / 2^54`, is another
value. -/
theorem duration_sum_is_rounded :
    (chunkQueryProf [sampleSlow "H1" 6000 "shop.orders", sampleSlow "H1" 12000 "shop.orders"]
        []).1 = none ∧
      ∃ stat,
        (chunkQueryProf [sampleSlow "H1" 6000 "shop.orders",
          sampleSlow "H1" 12000 "shop.orders"] []).2 = [("H1", stat)] ∧
        stat.count = 2 ∧
        stat.duration = .fin (1351079888211149 / 4503599627370496) ∧
        ((6000 : ℚ) / 60000 + 12000 / 60000 = 3 / 10) ∧
        stat.duration ≠ .fin (3 / 10) ∧
        Float64.round (3 / 10) = .fin (5404319552844595 / 18014398509481984) ∧
        stat.duration ≠ Float64.round (3 / 10) := by
  have hprof : (chunkQueryProf [sampleSlow "H1" 6000 "shop.orders",
      sampleSlow "H1" 12000 "shop.orders"] []).2
      = [("H1", mergeStat (some (mergeStat none (eventOf queryHashOf
          (sampleSlow "H1" 6000 "shop.orders"))))
          (eventOf queryHashOf (sampleSlow "H1" 12000 "shop.orders")))] := by
    rfl
  have hd1 : durationMillisOf (sampleSlow "H1" 6000 "shop.orders") = .fin 6000 := rfl
  have hd2 : durationMillisOf (sampleSlow "H1" 12000 "shop.orders") = .fin 12000 := rfl
  obtain ⟨h01, h02, h03, hex, hsum⟩ := f64_tenths
  have hdur : (mergeStat (some (mergeStat none (eventOf queryHashOf
      (sampleSlow "H1" 6000 "shop.orders"))))
      (eventOf queryHashOf (sampleSlow "H1" 12000 "shop.orders"))).duration
      = .fin (1351079888211149 / 4503599627370496) := by
    simp only [mergeStat_duration, eventOf, hd1, hd2]
    have e1 : (Float64.fin 6000 / 60000 : Float64)
        = .fin (3602879701896397 / 36028797018963968) := by
      rw [f64_div, f64_ofNat]
      simp only [Float64.div]
      norm_num
      exact h01
    have e2 : (Float64.fin 12000 / 60000 : Float64)
        = .fin (3602879701896397 / 18014398509481984) := by
      rw [f64_div, f64_ofNat]
      simp only [Float64.div]
      norm_num
      exact h02
    rw [e1, e2, f64_add, f64_add, f64_zero]
    simp only [Float64.add, zero_add]
    rw [hex]
    simp only [Float64.add]
    exact hsum
  refine ⟨by decide, _, hprof, ?_, hdur, by norm_num, ?_, h03, ?_⟩
  · simp only [mergeStat_count]
    decide
  · rw [hdur]
    intro h
    injection h with h
    norm_num at h
  · rw [hdur, h03]
    intro h
    injection h with h
    norm_num at h

/-! ## The namespace split (C4) -/

/-- C4: on a qualifying event with `ns = "db.coll.sub"` the code yields
Database "db" and Collection "coll": `strings.Split` cuts at every dot and
`splitStr[1]` is the piece between the first and the second dot, so the text
after the second dot is lost, where the claim has Collection "coll.sub". -/
theorem commandOf_ns_with_two_dots :
    (commandOf sampleLib (sampleSlow "H1" 1200 "db.coll.sub")).map
        (fun found => found.map (fun c => (c.database, c.collection)))
      = .ok (some ("db", "coll")) := by
  rfl


/-! ## Records that are not slow-query events (C5) -/

theorem commandOf_other (lib : Lib) (record : JMap) (msg : String)
    (h : lookup record "msg" = some (.str msg)) (hne : msg ≠ "Slow query") :
    commandOf lib record = .ok none := by
  unfold commandOf
  simp [required, h, asString, bind, Except.bind, hne, pure, Except.pure]

theorem queryEvent_other (record : JMap) (msg : String)
    (h : lookup record "msg" = some (.str msg)) (hne : msg ≠ "Slow query") :
    queryEvent record = .ok none := by
  unfold queryEvent
  simp [required, h, asString, bind, Except.bind, hne, pure, Except.pure]

theorem collectionEvent_other (record : JMap) (msg : String)
    (h : lookup record "msg" = some (.str msg)) (hne : msg ≠ "Slow query") :
    collectionEvent record = .ok none := by
  unfold collectionEvent
  simp [required, h, asString, bind, Except.bind, hne, pure, Except.pure]

/-- C5, the claim as stated fails: a record with no `msg` key, and one whose
`msg` is a number, is not a "Slow query" event, yet `chunkCommands`,
`chunkQueryProf` and `chunkCollectionProf` each return an error on it. -/
theorem record_without_string_msg_is_error :
    slowQuery [("c", .str "NETWORK")] = false ∧
      slowQuery [("msg", .num 7)] = false ∧
      (chunkCommands sampleConfig sampleLib [[("c", .str "NETWORK")]] (State.init noFiles)).1
        = some "msg: invalid key" ∧
      (chunkQueryProf [[("c", .str "NETWORK")]] []).1 = some "msg: invalid key" ∧
      (chunkCollectionProf [[("c", .str "NETWORK")]] []).1 = some "msg: invalid key" ∧
      (chunkCommands sampleConfig sampleLib [[("msg", .num 7)]] (State.init noFiles)).1
        = some "msg: invalid string" ∧
      (chunkQueryProf [[("msg", .num 7)]] []).1 = some "msg: invalid string" ∧
      (chunkCollectionProf [[("msg", .num 7)]] []).1 = some "msg: invalid string" := by
  decide

/-- C5 as amended: on a chunk in which every record has a string `msg` other
than "Slow query", `chunkCommands`, `chunkQueryProf` and `chunkCollectionProf`
return no error and leave the whole state as it was: no row is buffered or
written and neither accumulator changes. -/
theorem chunk_of_other_messages_changes_nothing (cfg : Config) (lib : Lib)
    (records : List JMap) (s : State)
    (h : ∀ r ∈ records, ∃ msg, lookup r "msg" = some (.str msg) ∧ msg ≠ "Slow query") :
    chunkCommands cfg lib records s = (none, s) ∧
      chunkQueryProf records s.queryProf = (none, s.queryProf) ∧
      chunkCollectionProf records s.collectionProf = (none, s.collectionProf) := by
  induction records with
  | nil => exact ⟨rfl, rfl, rfl⟩
  | cons r rest ih =>
    obtain ⟨msg, hmsg, hne⟩ := h r (List.mem_cons_self _ _)
    have ih' := ih (fun r' hr' => h r' (List.mem_cons_of_mem _ hr'))
    unfold chunkCommands chunkQueryProf chunkCollectionProf
    simp only [commandOf_other lib r msg hmsg hne, queryEvent_other r msg hmsg hne,
      collectionEvent_other r msg hmsg hne]
    exact ih'

/-- The amended C5 at a chunk of two records that are not slow queries. -/
theorem chunk_of_other_messages_changes_nothing_witness :
    (∀ r ∈ [sampleOther, [("msg", .str "Slow query logged")]],
        ∃ msg, lookup r "msg" = some (.str msg) ∧ msg ≠ "Slow query") ∧
      chunkCommands sampleConfig sampleLib [sampleOther, [("msg", .str "Slow query logged")]]
        (State.init noFiles) = (none, State.init noFiles) :=
  have h : ∀ r ∈ [sampleOther, [("msg", .str "Slow query logged")]],
      ∃ msg, lookup r "msg" = some (.str msg) ∧ msg ≠ "Slow query" := by
    intro r hr
    simp only [List.mem_cons, List.mem_singleton, List.not_mem_nil, or_false] at hr
    rcases hr with rfl | rfl
    · exact ⟨"Connection accepted", rfl, by decide⟩
    · exact ⟨"Slow query logged", rfl, by decide⟩
  ⟨h, (chunk_of_other_messages_changes_nothing sampleConfig sampleLib _ _ h).1⟩

/-! ## Validation failures (C6, C7, C8) -/

theorem chunkCommands_cons (cfg : Config) (lib : Lib) (r : JMap) (rest : List JMap)
    (s : State) :
    chunkCommands cfg lib (r :: rest) s =
      match commandOf lib r with
      | .error err => (some err, s)
      | .ok none => chunkCommands cfg lib rest s
      | .ok (some c) =>
        match addCommand cfg (c.row lib) s with
        | (some err, s) => (some err, s)
        | (none, s) =>
          if c.planSummary = "COLLSCAN" then
            match addCollscan cfg (c.row lib) s with
            | (some err, s) => (some err, s)
            | (none, s) => chunkCommands cfg lib rest s
          else chunkCommands cfg lib rest s := by
  rw [chunkCommands]

/-- Processing `a ++ b` is processing `a` and, when that succeeds, `b`. -/
theorem chunkCommands_append (cfg : Config) (lib : Lib) (a b : List JMap) (s : State) :
    chunkCommands cfg lib (a ++ b) s =
      match chunkCommands cfg lib a s with
      | (some err, s') => (some err, s')
      | (none, s') => chunkCommands cfg lib b s' := by
  induction a generalizing s with
  | nil => simp [chunkCommands]
  | cons r rest ih =>
    simp only [List.cons_append]
    rw [chunkCommands_cons, chunkCommands_cons]
    cases hc : commandOf lib r with
    | error err => rfl
    | ok o =>
      cases o with
      | none => exact ih s
      | some c =>
        simp only []
        rcases ha : addCommand cfg (c.row lib) s with ⟨_ | err, s1⟩
        · simp only []
          split_ifs
          · rcases hb : addCollscan cfg (c.row lib) s1 with ⟨_ | err, s2⟩
            · exact ih s2
            · rfl
          · exact ih s1
        · rfl

/-- A record on which `commandOf` fails stops `chunkCommands`: the state is the
one the records before it have produced. -/
theorem chunkCommands_error_at (cfg : Config) (lib : Lib) (pre post : List JMap) (bad : JMap)
    (e0 : String) (hbad : commandOf lib bad = .error e0) (s : State) :
    ∃ err, chunkCommands cfg lib (pre ++ bad :: post) s =
      (some err, (chunkCommands cfg lib pre s).2) := by
  rw [chunkCommands_append]
  rcases h : chunkCommands cfg lib pre s with ⟨_ | err, s1⟩
  · refine ⟨e0, ?_⟩
    simp only []
    rw [chunkCommands_cons, hbad]
  · exact ⟨err, rfl⟩

/-- A record on which the extraction fails stops the accumulator loop: the
accumulator is the one the records before it have produced. -/
theorem chunkProf_error_at (event : JMap → Except String (Option ProfEvent))
    (pre post : List JMap) (bad : JMap) (e0 : String) (hbad : event bad = .error e0)
    (prof : ProfMap) :
    ∃ err, chunkProf event (pre ++ bad :: post) prof =
      (some err, (chunkProf event pre prof).2) := by
  rw [chunkProf_append]
  rcases h : chunkProf event pre prof with ⟨_ | err, p1⟩
  · refine ⟨e0, ?_⟩
    simp only []
    unfold chunkProf
    rw [hbad]
  · exact ⟨err, rfl⟩

/-- An error of `chunkConvert` leaves the file system as it was. -/
theorem chunkConvert_error (cfg : Config) (lib : Lib) (i : Int) (records : List JMap) (fs : FS)
    (err : String) (h : (chunkConvert cfg lib i records fs).1 = some err) :
    (chunkConvert cfg lib i records fs).2 = fs := by
  unfold chunkConvert at h ⊢
  simp only [] at h ⊢
  split_ifs at h ⊢ with h1 h2
  · rfl
  · cases hst : osStat fs (logsFile cfg (Int.tdiv i cfg.chunkSize)) <;>
      cases hop : osOpenFile fs (logsFile cfg (Int.tdiv i cfg.chunkSize)) <;>
      simp_all

/-- What a successful `commandOf` has checked: the record is a slow query and
its required fields are valid. -/
theorem commandOf_some (lib : Lib) (record : JMap) (c : Command)
    (h : commandOf lib record = .ok (some c)) :
    slowQuery record = true ∧ requiredFieldsValid record = true := by
  unfold commandOf at h
  simp only [bind_eq_ok, required_eq_ok, asString_eq_ok, asMap_eq_ok, asFloat64_eq_ok] at h
  obtain ⟨v, hv, msg, rfl, h⟩ := h
  split at h
  · rename_i hmsg
    simp only [bind_eq_ok, required_eq_ok, asString_eq_ok, asMap_eq_ok, asFloat64_eq_ok] at h
    obtain ⟨_, ht, t, rfl, _, hdate, date, rfl, ts, -, _, hattr, attr, rfl, hash, -,
      _, hd, d, ⟨q, rfl, rfl⟩, _, hcmd, cmd, rfl, bytes, -, _, htype, typeStr, rfl, sort, -,
      app, -, remote, -, plan, -, _, hns, ns, rfl, -⟩ := h
    subst hmsg
    refine ⟨by simp [slowQuery, hv], ?_⟩
    simp [requiredFieldsValid, ht, hdate, hattr, hd, hcmd, htype, hns]
  · simp [pure, Except.pure] at h

theorem commandOf_none (lib : Lib) (record : JMap) (h : commandOf lib record = .ok none) :
    slowQuery record = false := by
  unfold commandOf at h
  simp only [bind_eq_ok, required_eq_ok, asString_eq_ok, asMap_eq_ok, asFloat64_eq_ok] at h
  obtain ⟨v, hv, msg, rfl, h⟩ := h
  split at h
  · simp [bind_eq_ok, pure, Except.pure] at h
  · rename_i hmsg
    simp [slowQuery, hv, hmsg]

/-- A slow-query record with an invalid required field makes `commandOf` fail. -/
theorem commandOf_error_of_invalid (lib : Lib) (record : JMap)
    (hslow : slowQuery record = true) (hbad : requiredFieldsValid record = false) :
    ∃ err, commandOf lib record = .error err := by
  cases h : commandOf lib record with
  | error err => exact ⟨err, rfl⟩
  | ok o =>
    cases o with
    | none => simp [commandOf_none lib record h] at hslow
    | some c => simp [(commandOf_some lib record c h).2] at hbad

/-- A chunk holding a record on which `commandOf` fails: `process` returns an
error, both accumulators are untouched, and the state is the one left by the
transcript write and by the records before the failing one. -/
theorem process_of_commandOf_error (cfg : Config) (lib : Lib) (i : Int) (chunk : List String)
    (s : State) (pre post : List JMap) (bad : JMap) (e0 : String)
    (hparse : (parse lib chunk).1 = pre ++ bad :: post)
    (hbad : commandOf lib bad = .error e0) :
    (∃ err, (process cfg lib i chunk s).1 = some err) ∧
      (process cfg lib i chunk s).2.queryProf = s.queryProf ∧
      (process cfg lib i chunk s).2.collectionProf = s.collectionProf ∧
      ((chunkConvert cfg lib i (pre ++ bad :: post) s.fs).1 = none →
        (process cfg lib i chunk s).2 =
          (chunkCommands cfg lib pre
            { s with fs := (chunkConvert cfg lib i (pre ++ bad :: post) s.fs).2 }).2) ∧
      ((chunkConvert cfg lib i (pre ++ bad :: post) s.fs).1 ≠ none →
        (process cfg lib i chunk s).2 = s) := by
  simp only [parse] at hparse
  unfold process
  simp only [parse, hparse]
  rcases h1 : chunkConvert cfg lib i (pre ++ bad :: post) s.fs with ⟨_ | err, fs1⟩
  · simp only []
    obtain ⟨err, h2⟩ := chunkCommands_error_at cfg lib pre post bad e0 hbad { s with fs := fs1 }
    have hp := chunkCommands_prof cfg lib pre { s with fs := fs1 }
    rw [h2]
    simp [hp.1, hp.2]
  · simp only []
    have hfs := chunkConvert_error cfg lib i (pre ++ bad :: post) s.fs err (by rw [h1])
    rw [h1] at hfs
    simp only [] at hfs
    subst hfs
    simp

/-- C6, the claim as stated fails: in the chunk of the lines "d" (a "Slow query"
record without the required field `t`) and "c", `process` returns the error,
yet the record after the failing one has contributed a row to the transcript
file, which holds one row less when the chunk ends at the failing record. -/
theorem record_after_failing_one_reaches_transcript :
    slowQuery sampleNoT = true ∧ requiredFieldsValid sampleNoT = false ∧
      (parse sampleLib ["d", "c"]).1 = [sampleNoT, sampleOther] ∧
      (process sampleConfig sampleLib 0 ["d", "c"] (State.init noFiles)).1
        = some "t: invalid key" ∧
      (process sampleConfig sampleLib 0 ["d", "c"] (State.init noFiles)).2.fs
          "out/mongod_logs_0.csv"
        = some (.file [logsHeader, logsRow sampleLib sampleNoT, logsRow sampleLib sampleOther]) ∧
      (process sampleConfig sampleLib 0 ["d"] (State.init noFiles)).2.fs
          "out/mongod_logs_0.csv"
        = some (.file [logsHeader, logsRow sampleLib sampleNoT]) := by
  refine ⟨by decide, by decide, rfl, by decide, by decide, by decide⟩

/-- C6 as amended: when a chunk holds a "Slow query" record with a required
field missing or of the wrong type, `process` returns an error, and the
records from the failing one on contribute nothing to the commands and
collscans buffers, counters and files nor to the accumulators: the state is
the one left by the transcript write (which `chunkConvert` has done for all
records of the chunk before any validation) followed by the rows of the
records before the failing one, and `queryProf` and `collectionProf` are as
before the chunk. -/
theorem process_error_on_invalid_required_field (cfg : Config) (lib : Lib) (i : Int)
    (chunk : List String) (s : State) (pre post : List JMap) (bad : JMap)
    (hparse : (parse lib chunk).1 = pre ++ bad :: post)
    (hslow : slowQuery bad = true) (hbad : requiredFieldsValid bad = false) :
    (∃ err, (process cfg lib i chunk s).1 = some err) ∧
      (process cfg lib i chunk s).2.queryProf = s.queryProf ∧
      (process cfg lib i chunk s).2.collectionProf = s.collectionProf ∧
      ((chunkConvert cfg lib i (pre ++ bad :: post) s.fs).1 = none →
        (process cfg lib i chunk s).2 =
          (chunkCommands cfg lib pre
            { s with fs := (chunkConvert cfg lib i (pre ++ bad :: post) s.fs).2 }).2) ∧
      ((chunkConvert cfg lib i (pre ++ bad :: post) s.fs).1 ≠ none →
        (process cfg lib i chunk s).2 = s) := by
  obtain ⟨e0, he0⟩ := commandOf_error_of_invalid lib bad hslow hbad
  exact process_of_commandOf_error cfg lib i chunk s pre post bad e0 hparse he0

/-- The amended C6 at the chunk "a", "d", "c": a valid event, the event without
`t`, another record. -/
theorem process_error_on_invalid_required_field_witness :
    (parse sampleLib ["a", "d", "c"]).1
        = [sampleSlow "H1" 1200 "shop.orders"] ++ sampleNoT :: [sampleOther] ∧
      slowQuery sampleNoT = true ∧ requiredFieldsValid sampleNoT = false ∧
      (∃ err, (process sampleConfig sampleLib 0 ["a", "d", "c"] (State.init noFiles)).1
        = some err) ∧
      (process sampleConfig sampleLib 0 ["a", "d", "c"] (State.init noFiles)).2.queryProf = [] :=
  have h := process_error_on_invalid_required_field sampleConfig sampleLib 0 ["a", "d", "c"]
    (State.init noFiles) [sampleSlow "H1" 1200 "shop.orders"] [sampleOther] sampleNoT rfl
    (by decide) (by decide)
  ⟨rfl, by decide, by decide, h.1, h.2.1⟩

/-- Whatever `chunkCommands` and `chunkQueryProf` accept, `chunkCollectionProf`
accepts: its checks are among theirs. -/
theorem collectionEvent_ok_of (lib : Lib) (record : JMap) (o : Option Command)
    (o' : Option ProfEvent) (hc : commandOf lib record = .ok o)
    (hq : queryEvent record = .ok o') :
    ∃ o'', collectionEvent record = .ok o'' := by
  unfold commandOf at hc
  unfold queryEvent at hq
  simp only [bind_eq_ok, required_eq_ok, asString_eq_ok, asMap_eq_ok, asFloat64_eq_ok] at hc hq
  obtain ⟨v, hv, msg, rfl, hc⟩ := hc
  obtain ⟨v', hv', msg', hmsg', hq⟩ := hq
  rw [hv] at hv'
  cases hv'
  cases hmsg'
  by_cases hmsg : msg = "Slow query"
  · simp only [hmsg, if_true, bind_eq_ok, required_eq_ok, asString_eq_ok, asMap_eq_ok,
      asFloat64_eq_ok] at hc hq
    obtain ⟨_, ht, t, rfl, _, hdate, date, rfl, ts, -, _, hattr, attr, rfl, hash, -,
      _, hd, d, ⟨q, rfl, rfl⟩, _, hcmd, cmd, rfl, bytes, -, _, htype, typeStr, rfl, sort, -,
      app, -, remote, -, plan, -, _, hns, ns, rfl, -⟩ := hc
    obtain ⟨_, hattr', attr', hattr'', hash', -, _, hd', d', -, x, hx, y, hy, z, hz, -⟩ := hq
    rw [hattr] at hattr'
    cases hattr'
    cases hattr''
    unfold collectionEvent
    simp only [bind, Except.bind, required, hv, asString, hmsg, if_true, hattr, asMap, hd,
      asFloat64, hns, hx, hy, hz, pure, Except.pure]
    exact ⟨_, rfl⟩
  · exact ⟨none, collectionEvent_other record msg hv hmsg⟩

/-- A chunk holding a record on which `queryEvent` fails: `process` returns an
error, `collectionProf` is untouched and `queryProf` holds at most the updates
of the records before the failing one. -/
theorem process_of_queryEvent_error (cfg : Config) (lib : Lib) (i : Int) (chunk : List String)
    (s : State) (pre post : List JMap) (bad : JMap) (e0 : String)
    (hparse : (parse lib chunk).1 = pre ++ bad :: post)
    (hbad : queryEvent bad = .error e0) :
    (∃ err, (process cfg lib i chunk s).1 = some err) ∧
      (process cfg lib i chunk s).2.collectionProf = s.collectionProf ∧
      ((process cfg lib i chunk s).2.queryProf = s.queryProf ∨
        (process cfg lib i chunk s).2.queryProf = (chunkQueryProf pre s.queryProf).2) := by
  simp only [parse] at hparse
  unfold process
  simp only [parse, hparse]
  rcases h1 : chunkConvert cfg lib i (pre ++ bad :: post) s.fs with ⟨_ | err, fs1⟩
  · simp only []
    have hp := chunkCommands_prof cfg lib (pre ++ bad :: post) { s with fs := fs1 }
    rcases h2 : chunkCommands cfg lib (pre ++ bad :: post) { s with fs := fs1 }
      with ⟨_ | err, s2⟩
    · rw [h2] at hp
      simp only [] at hp ⊢
      obtain ⟨err, h3⟩ := chunkProf_error_at queryEvent pre post bad e0 hbad s2.queryProf
      rw [chunkQueryProf_eq, h3, chunkQueryProf_eq]
      simp [hp.1, hp.2]
    · rw [h2] at hp
      simp only [] at hp ⊢
      exact ⟨⟨err, rfl⟩, hp.2, Or.inl hp.1⟩
  · simp

/-- C7, the claim as stated fails: the "Slow query" record of line "e" has valid
required fields and a `docsExamined` of the wrong type; `process` returns the
validation error of `chunkQueryProf`, and the row of that record is in the
`commands` buffer, added by `chunkCommands` before. -/
theorem record_with_bad_docsExamined_leaves_row :
    slowQuery sampleBadDocs = true ∧
      (parse sampleLib ["e"]).1 = [sampleBadDocs] ∧
      (process sampleConfig sampleLib 0 ["e"] (State.init noFiles)).1
        = some "docsExamined: invalid float64" ∧
      (process sampleConfig sampleLib 0 ["e"] (State.init noFiles)).2.commands
        = [["", "0.00", "2024-05-01T10:00:00Z", "", "", "shop", "orders", "command", "false",
            "", "cmd"]] := by
  refine ⟨by decide, rfl, by decide, by decide⟩

/-- C7 as amended: when field validation fails on a record of the chunk (in
particular on a "Slow query" record with a required field missing or mistyped,
or an optional field present with the wrong type), `process` returns an error
and that record updates neither `queryProf` nor `collectionProf`:
`collectionProf` is as before the chunk and `queryProf` holds at most the
updates of the records before the failing one.  When the failure is one of the
checks of `chunkCommands` (required fields, `queryHash`, `hasSortStage`,
`appName`, `remote`, `planSummary`), it adds no row either: the state is the
one left by the transcript write and the rows of the records before it. -/
theorem failing_record_updates_no_accumulator (cfg : Config) (lib : Lib) (i : Int)
    (chunk : List String) (s : State) (pre post : List JMap) (bad : JMap)
    (hparse : (parse lib chunk).1 = pre ++ bad :: post)
    (hfail : (∃ e, commandOf lib bad = .error e) ∨ (∃ e, queryEvent bad = .error e) ∨
      (∃ e, collectionEvent bad = .error e)) :
    (∃ err, (process cfg lib i chunk s).1 = some err) ∧
      (process cfg lib i chunk s).2.collectionProf = s.collectionProf ∧
      ((process cfg lib i chunk s).2.queryProf = s.queryProf ∨
        (process cfg lib i chunk s).2.queryProf = (chunkQueryProf pre s.queryProf).2) ∧
      ((∃ e, commandOf lib bad = .error e) →
        (chunkConvert cfg lib i (pre ++ bad :: post) s.fs).1 = none →
        (process cfg lib i chunk s).2 =
          (chunkCommands cfg lib pre
            { s with fs := (chunkConvert cfg lib i (pre ++ bad :: post) s.fs).2 }).2) := by
  have hA : ∀ e, commandOf lib bad = .error e →
      (∃ err, (process cfg lib i chunk s).1 = some err) ∧
      (process cfg lib i chunk s).2.collectionProf = s.collectionProf ∧
      ((process cfg lib i chunk s).2.queryProf = s.queryProf ∨
        (process cfg lib i chunk s).2.queryProf = (chunkQueryProf pre s.queryProf).2) := by
    intro e he
    have h := process_of_commandOf_error cfg lib i chunk s pre post bad e hparse he
    exact ⟨h.1, h.2.2.1, Or.inl h.2.1⟩
  have hlast : (∃ e, commandOf lib bad = .error e) →
      (chunkConvert cfg lib i (pre ++ bad :: post) s.fs).1 = none →
      (process cfg lib i chunk s).2 =
        (chunkCommands cfg lib pre
          { s with fs := (chunkConvert cfg lib i (pre ++ bad :: post) s.fs).2 }).2 := by
    rintro ⟨e, he⟩ hconv
    exact (process_of_commandOf_error cfg lib i chunk s pre post bad e hparse he).2.2.2.1 hconv
  have hB : ∀ e, queryEvent bad = .error e →
      (∃ err, (process cfg lib i chunk s).1 = some err) ∧
      (process cfg lib i chunk s).2.collectionProf = s.collectionProf ∧
      ((process cfg lib i chunk s).2.queryProf = s.queryProf ∨
        (process cfg lib i chunk s).2.queryProf = (chunkQueryProf pre s.queryProf).2) :=
    fun e he => process_of_queryEvent_error cfg lib i chunk s pre post bad e hparse he
  rcases hfail with ⟨e, he⟩ | ⟨e, he⟩ | ⟨e, he⟩
  · exact ⟨(hA e he).1, (hA e he).2.1, (hA e he).2.2, hlast⟩
  · exact ⟨(hB e he).1, (hB e he).2.1, (hB e he).2.2, hlast⟩
  · have hcd : (∃ e1, commandOf lib bad = .error e1) ∨ ∃ o, commandOf lib bad = .ok o := by
      cases commandOf lib bad <;> simp
    have hqd : (∃ e2, queryEvent bad = .error e2) ∨ ∃ o, queryEvent bad = .ok o := by
      cases queryEvent bad <;> simp
    rcases hcd with ⟨e1, hc⟩ | ⟨o, hc⟩
    · exact ⟨(hA e1 hc).1, (hA e1 hc).2.1, (hA e1 hc).2.2, hlast⟩
    · rcases hqd with ⟨e2, hq⟩ | ⟨o', hq⟩
      · exact ⟨(hB e2 hq).1, (hB e2 hq).2.1, (hB e2 hq).2.2, hlast⟩
      · obtain ⟨o'', ho⟩ := collectionEvent_ok_of lib bad o o' hc hq
        rw [ho] at he
        cases he

/-- The amended C7 at the chunk "a", "e", "c": a valid event, the event with the
mistyped `docsExamined`, another record. -/
theorem failing_record_updates_no_accumulator_witness :
    (parse sampleLib ["a", "e", "c"]).1
        = [sampleSlow "H1" 1200 "shop.orders"] ++ sampleBadDocs :: [sampleOther] ∧
      queryEvent sampleBadDocs = .error "docsExamined: invalid float64" ∧
      (∃ err, (process sampleConfig sampleLib 0 ["a", "e", "c"] (State.init noFiles)).1
        = some err) ∧
      (process sampleConfig sampleLib 0 ["a", "e", "c"] (State.init noFiles)).2.collectionProf
        = [] :=
  have h := failing_record_updates_no_accumulator sampleConfig sampleLib 0 ["a", "e", "c"]
    (State.init noFiles) [sampleSlow "H1" 1200 "shop.orders"] [sampleOther] sampleBadDocs rfl
    (Or.inr (Or.inl ⟨_, rfl⟩))
  ⟨rfl, rfl, h.1, h.2.1⟩

/-! ## Optional fields (C8) -/

theorem optString_of_not_mistyped (record attr : JMap) (k : String)
    (hattr : lookup record "attr" = some (.obj attr))
    (h : mistyped record k JVal.isString = false) :
    optString attr k = .ok (stringOf record k) := by
  unfold mistyped attrOf at h
  unfold stringOf attrOf optString
  rw [hattr] at h ⊢
  simp only [] at h ⊢
  cases hl : lookup attr k with
  | none => rfl
  | some v =>
    rw [hl] at h
    cases v <;> simp [JVal.isString, asString] at h ⊢

theorem optBool_of_not_mistyped (record attr : JMap) (k : String)
    (hattr : lookup record "attr" = some (.obj attr))
    (h : mistyped record k JVal.isBool = false) :
    optBool attr k = .ok (boolOf record k) := by
  unfold mistyped attrOf at h
  unfold boolOf attrOf optBool
  rw [hattr] at h ⊢
  simp only [] at h ⊢
  cases hl : lookup attr k with
  | none => rfl
  | some v =>
    rw [hl] at h
    cases v <;> simp [JVal.isBool, asBool] at h ⊢

theorem optFloat64_of_not_mistyped (record attr : JMap) (k : String)
    (hattr : lookup record "attr" = some (.obj attr))
    (h : mistyped record k JVal.isNumber = false) :
    optFloat64 attr k = .ok (numberOf record k) := by
  unfold mistyped attrOf at h
  unfold numberOf attrOf optFloat64
  rw [hattr] at h ⊢
  simp only [] at h ⊢
  cases hl : lookup attr k with
  | none => rfl
  | some v =>
    rw [hl] at h
    cases v <;> simp [JVal.isNumber, asFloat64] at h ⊢

theorem optString_of_mistyped (record attr : JMap) (k : String)
    (hattr : lookup record "attr" = some (.obj attr))
    (h : mistyped record k JVal.isString = true) :
    optString attr k = .error (k ++ ": invalid string") := by
  unfold mistyped attrOf at h
  unfold optString
  rw [hattr] at h
  simp only [] at h
  cases hl : lookup attr k with
  | none => simp [hl] at h
  | some v =>
    rw [hl] at h
    cases v <;> simp [JVal.isString, asString] at h ⊢

theorem optBool_of_mistyped (record attr : JMap) (k : String)
    (hattr : lookup record "attr" = some (.obj attr))
    (h : mistyped record k JVal.isBool = true) :
    optBool attr k = .error (k ++ ": invalid bool") := by
  unfold mistyped attrOf at h
  unfold optBool
  rw [hattr] at h
  simp only [] at h
  cases hl : lookup attr k with
  | none => simp [hl] at h
  | some v =>
    rw [hl] at h
    cases v <;> simp [JVal.isBool, asBool] at h ⊢

theorem optFloat64_of_mistyped (record attr : JMap) (k : String)
    (hattr : lookup record "attr" = some (.obj attr))
    (h : mistyped record k JVal.isNumber = true) :
    optFloat64 attr k = .error (k ++ ": invalid float64") := by
  unfold mistyped attrOf at h
  unfold optFloat64
  rw [hattr] at h
  simp only [] at h
  cases hl : lookup attr k with
  | none => simp [hl] at h
  | some v =>
    rw [hl] at h
    cases v <;> simp [JVal.isNumber, asFloat64] at h ⊢

theorem slowQuery_eq_true (record : JMap) (h : slowQuery record = true) :
    lookup record "msg" = some (.str "Slow query") := by
  unfold slowQuery at h
  split at h
  · rename_i msg hl
    simp only [decide_eq_true_eq] at h
    rw [hl, h]
  · simp at h

theorem attrOf_eq (record attr : JMap) (hattr : lookup record "attr" = some (.obj attr)) :
    attrOf record = attr := by
  unfold attrOf
  rw [hattr]

theorem mergeStat_docsExamined (found : Option profMeta) (e : ProfEvent) :
    (mergeStat found e).docsExamined =
      (match found with | some stat => stat.docsExamined | none => 0) + e.docsExamined := by
  unfold mergeStat
  cases found <;> simp only [] <;> split_ifs <;> rfl

theorem mergeStat_nreturned (found : Option profMeta) (e : ProfEvent) :
    (mergeStat found e).nreturned =
      (match found with | some stat => stat.nreturned | none => 0) + e.nreturned := by
  unfold mergeStat
  cases found <;> simp only [] <;> split_ifs <;> rfl

theorem mergeStat_reslen (found : Option profMeta) (e : ProfEvent) :
    (mergeStat found e).reslen =
      (match found with | some stat => stat.reslen | none => 0) + e.reslen / 1048576 := by
  unfold mergeStat
  cases found <;> simp only [] <;> split_ifs <;> rfl

/-- On a slow-query record with valid required fields, a date that parses, a
command that serialises and well-typed optional fields, `commandOf` succeeds
with the values read from the record. -/
theorem commandOf_valid (lib : Lib) (record t attr cmd : JMap) (date ts bytes typeStr ns : String)
    (d : ℚ) (hslow : slowQuery record = true)
    (ht : lookup record "t" = some (.obj t)) (hdate : lookup t "$date" = some (.str date))
    (hts : lib.timeParse date = .ok ts)
    (hattr : lookup record "attr" = some (.obj attr))
    (hd : lookup attr "durationMillis" = some (.num d))
    (hcmd : lookup attr "command" = some (.obj cmd))
    (hbytes : lib.jsonMarshal (strippedKeys.foldl delete cmd) = .ok bytes)
    (htype : lookup attr "type" = some (.str typeStr))
    (hns : lookup attr "ns" = some (.str ns))
    (h1 : mistyped record "queryHash" JVal.isString = false)
    (h2 : mistyped record "hasSortStage" JVal.isBool = false)
    (h3 : mistyped record "appName" JVal.isString = false)
    (h4 : mistyped record "remote" JVal.isString = false)
    (h5 : mistyped record "planSummary" JVal.isString = false) :
    ∃ c, commandOf lib record = .ok (some c) ∧
      c.queryHash = stringOf record "queryHash" ∧ c.appName = stringOf record "appName" ∧
      c.remote = stringOf record "remote" ∧ c.planSummary = stringOf record "planSummary" ∧
      c.sort = boolOf record "hasSortStage" := by
  unfold commandOf
  simp only [bind, Except.bind, required, slowQuery_eq_true record hslow, asString, if_true,
    ht, asMap, hdate, hts, hattr, hd, asFloat64, hcmd, hbytes, htype, hns,
    optString_of_not_mistyped record attr _ hattr h1,
    optBool_of_not_mistyped record attr _ hattr h2,
    optString_of_not_mistyped record attr _ hattr h3,
    optString_of_not_mistyped record attr _ hattr h4,
    optString_of_not_mistyped record attr _ hattr h5, pure, Except.pure]
  exact ⟨_, rfl, rfl, rfl, rfl, rfl, rfl⟩

/-- On a slow-query record with a numeric `durationMillis` and well-typed
optional fields, `queryEvent` succeeds. -/
theorem queryEvent_valid (record attr : JMap) (d : ℚ) (hslow : slowQuery record = true)
    (hattr : lookup record "attr" = some (.obj attr))
    (hd : lookup attr "durationMillis" = some (.num d))
    (h1 : mistyped record "queryHash" JVal.isString = false)
    (h6 : mistyped record "docsExamined" JVal.isNumber = false)
    (h7 : mistyped record "nreturned" JVal.isNumber = false)
    (h8 : mistyped record "reslen" JVal.isNumber = false) :
    ∃ e, queryEvent record = .ok (some e) ∧ e.docsExamined = numberOf record "docsExamined" ∧
      e.nreturned = numberOf record "nreturned" ∧ e.reslen = numberOf record "reslen" := by
  unfold queryEvent
  simp only [bind, Except.bind, required, slowQuery_eq_true record hslow, asString, if_true,
    asMap, hattr, hd, asFloat64,
    optString_of_not_mistyped record attr _ hattr h1,
    optFloat64_of_not_mistyped record attr _ hattr h6,
    optFloat64_of_not_mistyped record attr _ hattr h7,
    optFloat64_of_not_mistyped record attr _ hattr h8, pure, Except.pure]
  exact ⟨_, rfl, rfl, rfl, rfl⟩

/-- The same for `collectionEvent`, which also needs a string `ns`. -/
theorem collectionEvent_valid (record attr : JMap) (d : ℚ) (ns : String)
    (hslow : slowQuery record = true)
    (hattr : lookup record "attr" = some (.obj attr))
    (hd : lookup attr "durationMillis" = some (.num d))
    (hns : lookup attr "ns" = some (.str ns))
    (h6 : mistyped record "docsExamined" JVal.isNumber = false)
    (h7 : mistyped record "nreturned" JVal.isNumber = false)
    (h8 : mistyped record "reslen" JVal.isNumber = false) :
    ∃ e, collectionEvent record = .ok (some e) ∧
      e.docsExamined = numberOf record "docsExamined" ∧
      e.nreturned = numberOf record "nreturned" ∧ e.reslen = numberOf record "reslen" := by
  unfold collectionEvent
  simp only [bind, Except.bind, required, slowQuery_eq_true record hslow, asString, if_true,
    asMap, hattr, hd, hns, asFloat64,
    optFloat64_of_not_mistyped record attr _ hattr h6,
    optFloat64_of_not_mistyped record attr _ hattr h7,
    optFloat64_of_not_mistyped record attr _ hattr h8, pure, Except.pure]
  exact ⟨_, rfl, rfl, rfl, rfl⟩

/-- A slow-query record with a valid `attr` and an optional
field of the wrong type fails in `commandOf` or in `queryEvent`. -/
theorem error_of_optionalFieldMistyped (lib : Lib) (record attr : JMap)
    (hslow : slowQuery record = true)
    (hattr : lookup record "attr" = some (.obj attr))
    (hopt : optionalFieldMistyped record = true) :
    (∃ e, commandOf lib record = .error e) ∨ (∃ e, queryEvent record = .error e) := by
  by_contra hcon
  push_neg at hcon
  obtain ⟨hc, hq⟩ := hcon
  have hcd : ∃ o, commandOf lib record = .ok o := by
    cases h : commandOf lib record with
    | error e => exact absurd h (hc e)
    | ok o => exact ⟨o, rfl⟩
  have hqd : ∃ o, queryEvent record = .ok o := by
    cases h : queryEvent record with
    | error e => exact absurd h (hq e)
    | ok o => exact ⟨o, rfl⟩
  obtain ⟨o, ho⟩ := hcd
  obtain ⟨o', ho'⟩ := hqd
  unfold commandOf at ho
  unfold queryEvent at ho'
  simp only [bind_eq_ok, required_eq_ok, asString_eq_ok, asMap_eq_ok, asFloat64_eq_ok,
    slowQuery_eq_true record hslow, Option.some.injEq, exists_eq_left', JVal.str.injEq,
    if_true] at ho ho'
  obtain ⟨_, ht, t, rfl, _, hdate, date, rfl, ts, -, _, hattr', attr', hattr'', hash, hhash,
      _, -, _, -, _, hcmd, cmd, rfl, bytes, -, _, htype, typeStr, rfl, sort, hsort,
      app, happ, remote, hremote, plan, hplan, -⟩ := ho
  obtain ⟨_, hattr2, attr2, hattr3, hash', -, _, -, _, -, x, hx, y, hy, z, hz, -⟩ := ho'
  rw [hattr] at hattr' hattr2
  cases hattr'
  cases hattr''
  cases hattr2
  cases hattr3
  unfold optionalFieldMistyped at hopt
  simp only [Bool.or_eq_true] at hopt
  rcases hopt with ((((((h | h) | h) | h) | h) | h) | h) | h
  · rw [optString_of_mistyped record attr _ hattr h] at hhash
    cases hhash
  · rw [optString_of_mistyped record attr _ hattr h] at happ
    cases happ
  · rw [optString_of_mistyped record attr _ hattr h] at hremote
    cases hremote
  · rw [optString_of_mistyped record attr _ hattr h] at hplan
    cases hplan
  · rw [optBool_of_mistyped record attr _ hattr h] at hsort
    cases hsort
  · rw [optFloat64_of_mistyped record attr _ hattr h] at hx
    cases hx
  · rw [optFloat64_of_mistyped record attr _ hattr h] at hy
    cases hy
  · rw [optFloat64_of_mistyped record attr _ hattr h] at hz
    cases hz

/-- C8: on a "Slow query" record whose required fields are valid (the date
parses and the command serialises), when no optional field is mistyped the
three extractions succeed and every absent optional field takes its default:
the row carries the empty string for an absent `queryHash`, `appName`,
`remote` or `planSummary` and "false" for an absent `hasSortStage`, and both
accumulators add 0 for an absent `docsExamined`, `nreturned` or `reslen`, which
leaves every value a `float64` holds as it is; when an optional field is
present with a value of the wrong type, `process` returns an error on every
chunk that holds the record. -/
theorem optional_fields_default_or_error (cfg : Config) (lib : Lib)
    (record t attr cmd : JMap) (date ts bytes typeStr ns : String) (d : ℚ)
    (hslow : slowQuery record = true)
    (ht : lookup record "t" = some (.obj t)) (hdate : lookup t "$date" = some (.str date))
    (hts : lib.timeParse date = .ok ts)
    (hattr : lookup record "attr" = some (.obj attr))
    (hd : lookup attr "durationMillis" = some (.num d))
    (hcmd : lookup attr "command" = some (.obj cmd))
    (hbytes : lib.jsonMarshal (strippedKeys.foldl delete cmd) = .ok bytes)
    (htype : lookup attr "type" = some (.str typeStr))
    (hns : lookup attr "ns" = some (.str ns)) :
    (optionalFieldMistyped record = false →
      ∃ c e e', commandOf lib record = .ok (some c) ∧ queryEvent record = .ok (some e) ∧
        collectionEvent record = .ok (some e') ∧
        (lookup attr "queryHash" = none → (c.row lib)[0]? = some "") ∧
        (lookup attr "appName" = none → (c.row lib)[3]? = some "") ∧
        (lookup attr "remote" = none → (c.row lib)[4]? = some "") ∧
        (lookup attr "planSummary" = none → (c.row lib)[9]? = some "") ∧
        (lookup attr "hasSortStage" = none → (c.row lib)[8]? = some "false") ∧
        (lookup attr "docsExamined" = none → ∀ stat,
          (mergeStat (some stat) e).docsExamined = stat.docsExamined + 0 ∧
          (mergeStat (some stat) e').docsExamined = stat.docsExamined + 0 ∧
          (mergeStat none e).docsExamined = 0 ∧ (mergeStat none e').docsExamined = 0) ∧
        (lookup attr "nreturned" = none → ∀ stat,
          (mergeStat (some stat) e).nreturned = stat.nreturned + 0 ∧
          (mergeStat (some stat) e').nreturned = stat.nreturned + 0 ∧
          (mergeStat none e).nreturned = 0 ∧ (mergeStat none e').nreturned = 0) ∧
        (lookup attr "reslen" = none → ∀ stat,
          (mergeStat (some stat) e).reslen = stat.reslen + 0 ∧
          (mergeStat (some stat) e').reslen = stat.reslen + 0 ∧
          (mergeStat none e).reslen = 0 ∧ (mergeStat none e').reslen = 0)) ∧
    (∀ x : Float64, x.Exact → x + 0 = x) ∧
    (optionalFieldMistyped record = true →
      ∀ (i : Int) (chunk : List String) (s : State), record ∈ (parse lib chunk).1 →
        ∃ err, (process cfg lib i chunk s).1 = some err) := by
  refine ⟨?_, fun x hx => f64_add_zero hx, ?_⟩
  · intro hopt
    unfold optionalFieldMistyped at hopt
    simp only [Bool.or_eq_false_iff] at hopt
    obtain ⟨⟨⟨⟨⟨⟨⟨h1, h3⟩, h4⟩, h5⟩, h2⟩, h6⟩, h7⟩, h8⟩ := hopt
    obtain ⟨c, hc, c1, c3, c4, c5, c2⟩ := commandOf_valid lib record t attr cmd date ts bytes
      typeStr ns d hslow ht hdate hts hattr hd hcmd hbytes htype hns h1 h2 h3 h4 h5
    obtain ⟨e, he, e6, e7, e8⟩ := queryEvent_valid record attr d hslow hattr hd h1 h6 h7 h8
    obtain ⟨e', he', e6', e7', e8'⟩ :=
      collectionEvent_valid record attr d ns hslow hattr hd hns h6 h7 h8
    have hstr : ∀ k, lookup attr k = none → stringOf record k = "" := by
      intro k hk
      simp [stringOf, attrOf_eq record attr hattr, hk]
    have hnum : ∀ k, lookup attr k = none → numberOf record k = 0 := by
      intro k hk
      simp [numberOf, attrOf_eq record attr hattr, hk]
    have hbool : ∀ k, lookup attr k = none → boolOf record k = false := by
      intro k hk
      simp [boolOf, attrOf_eq record attr hattr, hk]
    refine ⟨c, e, e', hc, he, he', ?_, ?_, ?_, ?_, ?_, ?_, ?_, ?_⟩
    · intro hk
      simp [Command.row, c1, hstr _ hk]
    · intro hk
      simp [Command.row, c3, hstr _ hk]
    · intro hk
      simp [Command.row, c4, hstr _ hk]
    · intro hk
      simp [Command.row, c5, hstr _ hk]
    · intro hk
      simp only [Command.row, c2, hbool _ hk]
      rfl
    · intro hk stat
      simp [mergeStat_docsExamined, e6, e6', hnum _ hk, f64_zero_add_zero]
    · intro hk stat
      simp [mergeStat_nreturned, e7, e7', hnum _ hk, f64_zero_add_zero]
    · intro hk stat
      simp [mergeStat_reslen, e8, e8', hnum _ hk, f64_zero_add_zero,
        f64_zero_div 1048576 (by norm_num)]
  · intro hopt i chunk s hmem
    obtain ⟨pre, post, hsplit⟩ := List.append_of_mem hmem
    rcases error_of_optionalFieldMistyped lib record attr hslow hattr hopt with ⟨e, he⟩ | ⟨e, he⟩
    · exact (process_of_commandOf_error cfg lib i chunk s pre post record e hsplit he).1
    · exact (process_of_queryEvent_error cfg lib i chunk s pre post record e hsplit he).1

/-- C8 at the well-formed sample record, which has none of the optional fields
but `queryHash`. -/
theorem optional_fields_default_or_error_witness :
    slowQuery (sampleSlow "H1" 1200 "shop.orders") = true ∧
      optionalFieldMistyped (sampleSlow "H1" 1200 "shop.orders") = false ∧
      ∃ c e e', commandOf sampleLib (sampleSlow "H1" 1200 "shop.orders") = .ok (some c) ∧
        queryEvent (sampleSlow "H1" 1200 "shop.orders") = .ok (some e) ∧
        collectionEvent (sampleSlow "H1" 1200 "shop.orders") = .ok (some e') ∧
        (c.row sampleLib)[3]? = some "" ∧ (c.row sampleLib)[8]? = some "false" ∧
        (mergeStat none e).docsExamined = 0 :=
  have h := (optional_fields_default_or_error sampleConfig sampleLib
    (sampleSlow "H1" 1200 "shop.orders") [("$date", .str "2024-05-01T10:00:00Z")]
    [("type", .str "command"), ("ns", .str "shop.orders"), ("queryHash", .str "H1"),
      ("durationMillis", .num 1200),
      ("command", .obj [("find", .str "orders"), ("$db", .str "shop")])]
    [("find", .str "orders"), ("$db", .str "shop")] "2024-05-01T10:00:00Z"
    "2024-05-01T10:00:00Z" "cmd" "command" "shop.orders" 1200 (by decide) rfl rfl rfl rfl rfl
    rfl rfl rfl rfl).1 (by decide)
  ⟨by decide, by decide,
    h.elim fun c hc => hc.elim fun e he => he.elim fun e' h' =>
      ⟨c, e, e', h'.1, h'.2.1, h'.2.2.1, h'.2.2.2.2.1 rfl, h'.2.2.2.2.2.2.2.1 rfl,
        (h'.2.2.2.2.2.2.2.2.1 rfl profMeta.zero).2.2.1⟩⟩

/-! ## Header logic (C10) -/

/-- Saving to a name that does not exist creates the file with the header and
the rows; every other name is untouched. -/
theorem saveCommands_new (rows : List Row) (fileName : String) (fs : FS)
    (h : fs fileName = none) :
    saveCommands rows fileName fs =
      (none, fun name => if name = fileName then some (.file (commandsHeader :: rows))
        else fs name) := by
  simp only [saveCommands, osStat, osOpenFile, h, if_true]
  congr 1

/-- Saving to an existing file appends the rows after the rows it holds. -/
theorem saveCommands_existing (rows old : List Row) (fileName : String) (fs : FS)
    (h : fs fileName = some (.file old)) :
    saveCommands rows fileName fs =
      (none, fun name => if name = fileName then some (.file (old ++ rows)) else fs name) := by
  simp only [saveCommands, osStat, osOpenFile, h]
  congr 1

theorem chunkConvert_new (cfg : Config) (lib : Lib) (i : Int) (records : List JMap) (fs : FS)
    (hne : records ≠ []) (hsize : cfg.chunkSize ≠ 0)
    (h : fs (logsFile cfg (Int.tdiv i cfg.chunkSize)) = none) :
    chunkConvert cfg lib i records fs =
      (none, fun name => if name = logsFile cfg (Int.tdiv i cfg.chunkSize)
        then some (.file (logsHeader :: records.map (logsRow lib))) else fs name) := by
  have hlen : ¬ (records.map (logsRow lib)).length < 1 := by
    cases records with
    | nil => exact absurd rfl hne
    | cons r rest => simp
  simp only [chunkConvert, if_neg hlen, if_neg hsize, osStat, osOpenFile, h, if_true]
  congr 1

theorem chunkConvert_existing (cfg : Config) (lib : Lib) (i : Int) (records : List JMap)
    (fs : FS) (old : List Row) (hne : records ≠ []) (hsize : cfg.chunkSize ≠ 0)
    (h : fs (logsFile cfg (Int.tdiv i cfg.chunkSize)) = some (.file old)) :
    chunkConvert cfg lib i records fs =
      (none, fun name => if name = logsFile cfg (Int.tdiv i cfg.chunkSize)
        then some (.file (old ++ records.map (logsRow lib))) else fs name) := by
  have hlen : ¬ (records.map (logsRow lib)).length < 1 := by
    cases records with
    | nil => exact absurd rfl hne
    | cons r rest => simp
  simp only [chunkConvert, if_neg hlen, if_neg hsize, osStat, osOpenFile, h, if_true]
  congr 1

/-- C10: over the file system as a map from file name to rows, `saveCommands`
on a name that does not exist creates the file with exactly one header row
followed by the given rows, and on an existing file keeps its rows as a prefix
and appends only the given rows, with no header; the write of `chunkConvert`
(made when the chunk has a record, to the transcript file of index
`i / chunkSize`) does the same with the transcript header.  No other file
changes and no error is returned. -/
theorem header_written_once (cfg : Config) (lib : Lib) (i : Int) (records : List JMap)
    (rows : List Row) (fileName : String) (fs : FS) (old : List Row) :
    (fs fileName = none →
      (saveCommands rows fileName fs).1 = none ∧
      (saveCommands rows fileName fs).2 fileName = some (.file (commandsHeader :: rows)) ∧
      ∀ name, name ≠ fileName → (saveCommands rows fileName fs).2 name = fs name) ∧
    (fs fileName = some (.file old) →
      (saveCommands rows fileName fs).1 = none ∧
      (saveCommands rows fileName fs).2 fileName = some (.file (old ++ rows)) ∧
      ∀ name, name ≠ fileName → (saveCommands rows fileName fs).2 name = fs name) ∧
    (records ≠ [] → cfg.chunkSize ≠ 0 →
      fs (logsFile cfg (Int.tdiv i cfg.chunkSize)) = none →
      (chunkConvert cfg lib i records fs).1 = none ∧
      (chunkConvert cfg lib i records fs).2 (logsFile cfg (Int.tdiv i cfg.chunkSize))
        = some (.file (logsHeader :: records.map (logsRow lib))) ∧
      ∀ name, name ≠ logsFile cfg (Int.tdiv i cfg.chunkSize) →
        (chunkConvert cfg lib i records fs).2 name = fs name) ∧
    (records ≠ [] → cfg.chunkSize ≠ 0 →
      fs (logsFile cfg (Int.tdiv i cfg.chunkSize)) = some (.file old) →
      (chunkConvert cfg lib i records fs).1 = none ∧
      (chunkConvert cfg lib i records fs).2 (logsFile cfg (Int.tdiv i cfg.chunkSize))
        = some (.file (old ++ records.map (logsRow lib))) ∧
      ∀ name, name ≠ logsFile cfg (Int.tdiv i cfg.chunkSize) →
        (chunkConvert cfg lib i records fs).2 name = fs name) := by
  refine ⟨?_, ?_, ?_, ?_⟩
  · intro h
    rw [saveCommands_new rows fileName fs h]
    exact ⟨rfl, by simp, fun name hn => by simp [hn]⟩
  · intro h
    rw [saveCommands_existing rows old fileName fs h]
    exact ⟨rfl, by simp, fun name hn => by simp [hn]⟩
  · intro hne hsize h
    rw [chunkConvert_new cfg lib i records fs hne hsize h]
    exact ⟨rfl, by simp, fun name hn => by simp [hn]⟩
  · intro hne hsize h
    rw [chunkConvert_existing cfg lib i records fs old hne hsize h]
    exact ⟨rfl, by simp, fun name hn => by simp [hn]⟩

/-- C10 at a first save of one row to a new file followed by a second save to
the same file: one header, then the rows in order. -/
theorem header_written_once_witness :
    noFiles "out/mongod_commands_0.csv" = none ∧
      (saveCommands [["r1"]] "out/mongod_commands_0.csv" noFiles).2 "out/mongod_commands_0.csv"
        = some (.file (commandsHeader :: [["r1"]])) ∧
      (saveCommands [["r2"]] "out/mongod_commands_0.csv"
          (saveCommands [["r1"]] "out/mongod_commands_0.csv" noFiles).2).2
          "out/mongod_commands_0.csv"
        = some (.file ((commandsHeader :: [["r1"]]) ++ [["r2"]])) :=
  have h1 := (header_written_once sampleConfig sampleLib 0 [] [["r1"]]
    "out/mongod_commands_0.csv" noFiles []).1 rfl
  ⟨rfl, h1.2.1,
    ((header_written_once sampleConfig sampleLib 0 [] [["r2"]] "out/mongod_commands_0.csv"
      (saveCommands [["r1"]] "out/mongod_commands_0.csv" noFiles).2
      (commandsHeader :: [["r1"]])).2.1 h1.2.1).2.1⟩

/-! ## File names -/

/-- Reading a decimal numeral back. -/
theorem digitChar_toNat (k : Nat) (h : k < 10) : (Nat.digitChar k).toNat - 48 = k := by
  interval_cases k <;> rfl

theorem foldl_toDigitsCore (fuel n : Nat) (ds : List Char) (h : n < fuel) :
    (Nat.toDigitsCore 10 fuel n ds).foldl (fun acc c => acc * 10 + (c.toNat - 48)) 0 =
      ds.foldl (fun acc c => acc * 10 + (c.toNat - 48)) n := by
  induction fuel generalizing n ds with
  | zero => omega
  | succ fuel ih =>
    unfold Nat.toDigitsCore
    simp only []
    split_ifs with h0
    · have hn : n < 10 := by omega
      simp only [List.foldl_cons, zero_mul, zero_add]
      rw [digitChar_toNat _ (Nat.mod_lt _ (by norm_num)), Nat.mod_eq_of_lt hn]
    · rw [ih (n / 10) _ (by omega)]
      simp only [List.foldl_cons]
      rw [digitChar_toNat _ (Nat.mod_lt _ (by norm_num))]
      congr 1
      omega

theorem natRepr_injective (a b : Nat) (h : Nat.repr a = Nat.repr b) : a = b := by
  have hv : ∀ n : Nat,
      (Nat.repr n).data.foldl (fun acc c => acc * 10 + (c.toNat - 48)) 0 = n := by
    intro n
    simp only [Nat.repr, Nat.toDigits, List.asString]
    rw [foldl_toDigitsCore _ _ _ (Nat.lt_succ_self n)]
    rfl
  rw [← hv a, ← hv b, h]

theorem toString_natCast_injective (a b : Nat)
    (h : toString ((a : Nat) : Int) = toString ((b : Nat) : Int)) : a = b :=
  natRepr_injective a b h

theorem string_append_right_cancel (a b c : String) (h : a ++ c = b ++ c) : a = b := by
  have := congrArg String.data h
  simp only [String.data_append] at this
  exact String.ext (List.append_cancel_right this)

theorem string_append_left_cancel (a b c : String) (h : a ++ b = a ++ c) : b = c := by
  have := congrArg String.data h
  simp only [String.data_append] at this
  exact String.ext (List.append_cancel_left this)

/-- Distinct indices give distinct commands files. -/
theorem commandsFile_injective (cfg : Config) (a b : Nat)
    (h : commandsFile cfg (a : Int) = commandsFile cfg (b : Int)) : a = b := by
  unfold commandsFile at h
  exact toString_natCast_injective a b
    (string_append_left_cancel _ _ _ (string_append_right_cancel _ _ _ h))

/-- Distinct indices give distinct collscans files. -/
theorem collscansFile_injective (cfg : Config) (a b : Nat)
    (h : collscansFile cfg (a : Int) = collscansFile cfg (b : Int)) : a = b := by
  unfold collscansFile at h
  exact toString_natCast_injective a b
    (string_append_left_cancel _ _ _ (string_append_right_cancel _ _ _ h))

/-- Distinct indices give distinct transcript files. -/
theorem logsFile_injective (cfg : Config) (a b : Nat)
    (h : logsFile cfg (a : Int) = logsFile cfg (b : Int)) : a = b := by
  unfold logsFile at h
  exact toString_natCast_injective a b
    (string_append_left_cancel _ _ _ (string_append_right_cancel _ _ _ h))

/-- A commands file is never a collscans file. -/
theorem commandsFile_ne_collscansFile (cfg : Config) (a b : Int) :
    commandsFile cfg a ≠ collscansFile cfg b := by
  intro h
  unfold commandsFile collscansFile at h
  have := congrArg String.data h
  simp only [String.data_append, List.append_assoc] at this
  have h2 := List.append_cancel_left this
  have h3 := List.append_cancel_left (List.append_cancel_left h2)
  simp at h3

/-- A commands file is never a transcript file. -/
theorem commandsFile_ne_logsFile (cfg : Config) (a b : Int) :
    commandsFile cfg a ≠ logsFile cfg b := by
  intro h
  unfold commandsFile logsFile at h
  have := congrArg String.data h
  simp only [String.data_append, List.append_assoc] at this
  have h2 := List.append_cancel_left this
  have h3 := List.append_cancel_left (List.append_cancel_left h2)
  simp at h3

/-- A collscans file is never a transcript file. -/
theorem collscansFile_ne_logsFile (cfg : Config) (a b : Int) :
    collscansFile cfg a ≠ logsFile cfg b := by
  intro h
  unfold collscansFile logsFile at h
  have := congrArg String.data h
  simp only [String.data_append, List.append_assoc] at this
  have h2 := List.append_cancel_left this
  have h3 := List.append_cancel_left (List.append_cancel_left h2)
  simp at h3

/-! ## Rotation -/

theorem length_le_length_flatten (chunkSize : Int) (hN : 1 ≤ chunkSize) (blocks : List (List Row))
    (h : ∀ b ∈ blocks, (b.length : Int) = chunkSize) :
    blocks.length ≤ blocks.flatten.length := by
  induction blocks with
  | nil => simp
  | cons b rest ih =>
    have hb := h b (List.mem_cons_self _ _)
    have := ih (fun b' hb' => h b' (List.mem_cons_of_mem _ hb'))
    simp only [List.flatten_cons, List.length_append, List.length_cons]
    omega

/-- One call of `addCommand` keeps the layout of the commands sink, returns no
error and touches nothing but the buffer, the counter and the commands files. -/
theorem addCommand_rotated (cfg : Config) (row : Row) (s : State) (rows : List Row)
    (h : Rotated cfg.chunkSize (commandsFile cfg) rows s.commands s.commandsCounter s.fs)
    (hN : 1 ≤ cfg.chunkSize) (hlen : (rows.length : Int) + 1 < 9223372036854775808) :
    ∃ s', addCommand cfg row s = (none, s') ∧
      Rotated cfg.chunkSize (commandsFile cfg) (rows ++ [row]) s'.commands s'.commandsCounter
        s'.fs ∧
      s'.collscans = s.collscans ∧ s'.collscansCounter = s.collscansCounter ∧
      (∀ name, (∀ k : Nat, name ≠ commandsFile cfg (k : Int)) → s'.fs name = s.fs name) := by
  obtain ⟨blocks, hrows, hblocks, hbuf, hcounter, hfiles, hnone⟩ := h
  unfold addCommand
  simp only []
  by_cases hlt : ((s.commands ++ [row]).length : Int) < cfg.chunkSize
  · rw [if_pos hlt]
    refine ⟨_, rfl, ⟨blocks, ?_, hblocks, hlt, hcounter, hfiles, hnone⟩, rfl, rfl, fun _ _ => rfl⟩
    simp [hrows]
  · rw [if_neg hlt]
    have hfull : ((s.commands ++ [row]).length : Int) = cfg.chunkSize := by
      simp only [List.length_append, List.length_singleton] at hlt ⊢
      push_cast at hlt ⊢
      omega
    have hfree : s.fs (commandsFile cfg s.commandsCounter) = none := by
      rw [hcounter]
      exact hnone blocks.length (le_refl _)
    rw [saveCommands_new _ _ _ hfree]
    simp only []
    have hle := length_le_length_flatten cfg.chunkSize hN blocks hblocks
    have hrl : blocks.flatten.length ≤ rows.length := by
      rw [hrows]
      simp
    have hwrap : wrapInt64 (s.commandsCounter + 1) = ((blocks.length + 1 : Nat) : Int) := by
      rw [hcounter, wrapInt64_of_lt _ (by omega) (by omega)]
      push_cast
      rfl
    refine ⟨_, rfl, ⟨blocks ++ [s.commands ++ [row]], ?_, ?_, ?_, ?_, ?_, ?_⟩, rfl, rfl, ?_⟩
    · simp [hrows]
    · intro b hb
      rcases List.mem_append.1 hb with hb | hb
      · exact hblocks b hb
      · rw [List.mem_singleton.1 hb]
        exact hfull
    · simp only [List.length_nil]
      omega
    · simp only [List.length_append, List.length_singleton]
      exact hwrap
    · intro k b hk
      simp only []
      by_cases hkl : k < blocks.length
      · rw [List.getElem?_append_left hkl] at hk
        have hne : commandsFile cfg (k : Int) ≠ commandsFile cfg s.commandsCounter := by
          rw [hcounter]
          intro heq
          have := commandsFile_injective cfg _ _ heq
          omega
        rw [if_neg hne]
        exact hfiles k b hk
      · have hk' : k = blocks.length := by
          by_contra hne
          have : blocks.length + 1 ≤ k := by omega
          rw [List.getElem?_eq_none (by simp; omega)] at hk
          cases hk
        subst hk'
        rw [List.getElem?_append_right (le_refl _)] at hk
        simp only [Nat.sub_self, List.getElem?_cons_zero, Option.some.injEq] at hk
        subst hk
        rw [hcounter, if_pos rfl]
    · intro k hk
      simp only [List.length_append, List.length_singleton] at hk
      simp only []
      have hne : commandsFile cfg (k : Int) ≠ commandsFile cfg s.commandsCounter := by
        rw [hcounter]
        intro heq
        have := commandsFile_injective cfg _ _ heq
        omega
      rw [if_neg hne]
      exact hnone k (by omega)
    · intro name hname
      simp only []
      have hne : name ≠ commandsFile cfg s.commandsCounter := by
        rw [hcounter]
        exact hname blocks.length
      rw [if_neg hne]

/-- `saveCommands` changes no file but the one it is given. -/
theorem saveCommands_frame (rows : List Row) (fileName : String) (fs : FS) (name : String)
    (h : name ≠ fileName) : (saveCommands rows fileName fs).2 name = fs name := by
  unfold saveCommands
  cases hst : osStat fs fileName <;> cases hop : osOpenFile fs fileName <;>
    simp [writeAll, h]

/-- Over regular files `saveCommands` returns no error and leaves regular files. -/
theorem saveCommands_allFiles (rows : List Row) (fileName : String) (fs : FS)
    (h : AllFiles fs) :
    (saveCommands rows fileName fs).1 = none ∧ AllFiles (saveCommands rows fileName fs).2 := by
  have hn := h fileName
  cases hf : fs fileName with
  | none =>
    rw [saveCommands_new rows fileName fs hf]
    refine ⟨rfl, fun name => ?_⟩
    by_cases hname : name = fileName
    · simp [hname]
    · simpa [hname] using h name
  | some node =>
    cases node with
    | file old =>
      rw [saveCommands_existing rows old fileName fs hf]
      refine ⟨rfl, fun name => ?_⟩
      by_cases hname : name = fileName
      · simp [hname]
      · simpa [hname] using h name
    | denied => exact absurd hf hn.1
    | dir => exact absurd hf hn.2

/-- `chunkConvert` changes no file but the transcript file of its index. -/
theorem chunkConvert_frame (cfg : Config) (lib : Lib) (i : Int) (records : List JMap) (fs : FS)
    (name : String) (h : name ≠ logsFile cfg (Int.tdiv i cfg.chunkSize)) :
    (chunkConvert cfg lib i records fs).2 name = fs name := by
  unfold chunkConvert
  simp only []
  split_ifs
  · rfl
  · rfl
  · cases hst : osStat fs (logsFile cfg (Int.tdiv i cfg.chunkSize)) <;>
      cases hop : osOpenFile fs (logsFile cfg (Int.tdiv i cfg.chunkSize)) <;>
      simp [writeAll, h]

/-- `chunkConvert` leaves regular files. -/
theorem chunkConvert_allFiles (cfg : Config) (lib : Lib) (i : Int) (records : List JMap)
    (fs : FS) (h : AllFiles fs) : AllFiles (chunkConvert cfg lib i records fs).2 := by
  intro name
  by_cases hname : name = logsFile cfg (Int.tdiv i cfg.chunkSize)
  · subst hname
    unfold chunkConvert
    simp only []
    split_ifs
    · exact h _
    · exact h _
    · cases hst : osStat fs (logsFile cfg (Int.tdiv i cfg.chunkSize)) <;>
        cases hop : osOpenFile fs (logsFile cfg (Int.tdiv i cfg.chunkSize)) <;>
        simp [writeAll, h _]
  · rw [chunkConvert_frame cfg lib i records fs name hname]
    exact h name

/-- `addCollscan` leaves the commands sink alone: the buffer, the counter and
every file that is not a collscans file. -/
theorem addCollscan_frame (cfg : Config) (row : Row) (s : State) :
    (addCollscan cfg row s).2.commands = s.commands ∧
      (addCollscan cfg row s).2.commandsCounter = s.commandsCounter ∧
      (∀ name, (∀ k : Int, name ≠ collscansFile cfg k) →
        (addCollscan cfg row s).2.fs name = s.fs name) ∧
      (AllFiles s.fs → AllFiles (addCollscan cfg row s).2.fs) := by
  unfold addCollscan
  simp only []
  split_ifs
  · exact ⟨rfl, rfl, fun _ _ => rfl, fun h => h⟩
  · have hframe := saveCommands_frame (s.collscans ++ [row])
      (collscansFile cfg s.collscansCounter) s.fs
    have hall := saveCommands_allFiles (s.collscans ++ [row])
      (collscansFile cfg s.collscansCounter) s.fs
    rcases hs : saveCommands (s.collscans ++ [row]) (collscansFile cfg s.collscansCounter) s.fs
      with ⟨_ | err, fs1⟩
    · rw [hs] at hframe hall
      exact ⟨rfl, rfl, fun name hname => hframe name (hname _), fun h => (hall h).2⟩
    · rw [hs] at hframe hall
      exact ⟨rfl, rfl, fun name hname => hframe name (hname _), fun h => (hall h).2⟩

theorem addCommand_allFiles (cfg : Config) (row : Row) (s : State) (h : AllFiles s.fs) :
    AllFiles (addCommand cfg row s).2.fs := by
  unfold addCommand
  simp only []
  split_ifs
  · exact h
  · have hall := saveCommands_allFiles (s.commands ++ [row])
      (commandsFile cfg s.commandsCounter) s.fs h
    rcases hs : saveCommands (s.commands ++ [row]) (commandsFile cfg s.commandsCounter) s.fs
      with ⟨_ | err, fs1⟩
    · rw [hs] at hall
      exact hall.2
    · rw [hs] at hall
      exact hall.2

/-- The layout of the commands sink does not depend on the collscans buffer,
the accumulators or any file that is not a commands file. -/
theorem Rotated.frame (cfg : Config) (rows buf : List Row) (counter : Int) (fs fs' : FS)
    (h : Rotated cfg.chunkSize (commandsFile cfg) rows buf counter fs)
    (hfs : ∀ k : Nat, fs' (commandsFile cfg (k : Int)) = fs (commandsFile cfg (k : Int))) :
    Rotated cfg.chunkSize (commandsFile cfg) rows buf counter fs' := by
  obtain ⟨blocks, h1, h2, h3, h4, h5, h6⟩ := h
  exact ⟨blocks, h1, h2, h3, h4, fun k b hk => by rw [hfs]; exact h5 k b hk,
    fun k hk => by rw [hfs]; exact h6 k hk⟩

/-- A pass of `chunkCommands` that returns no error has added the rows of the
records, in order, to the commands sink, whose layout it keeps. -/
theorem chunkCommands_rotated (cfg : Config) (lib : Lib) (records : List JMap) (s s' : State)
    (rows : List Row)
    (h : Rotated cfg.chunkSize (commandsFile cfg) rows s.commands s.commandsCounter s.fs)
    (hN : 1 ≤ cfg.chunkSize)
    (hlen : (rows.length : Int) + records.length < 9223372036854775808)
    (hall : AllFiles s.fs)
    (hrun : chunkCommands cfg lib records s = (none, s')) :
    Rotated cfg.chunkSize (commandsFile cfg) (rows ++ commandRows lib records) s'.commands
        s'.commandsCounter s'.fs ∧ AllFiles s'.fs := by
  induction records generalizing s rows with
  | nil =>
    simp only [chunkCommands, Prod.mk.injEq, true_and] at hrun
    subst hrun
    simpa [commandRows] using ⟨h, hall⟩
  | cons r rest ih =>
    rw [chunkCommands_cons] at hrun
    simp only [List.length_cons] at hlen
    push_cast at hlen
    cases hc : commandOf lib r with
    | error err => simp [hc] at hrun
    | ok o =>
      cases o with
      | none =>
        simp only [hc] at hrun
        have := ih s rows h (by omega) hall hrun
        simpa [commandRows, hc] using this
      | some c =>
        simp only [hc] at hrun
        obtain ⟨s1, h1, hrot1, -, -, -⟩ :=
          addCommand_rotated cfg (c.row lib) s rows h hN (by omega)
        have hall1 : AllFiles s1.fs := by
          have := addCommand_allFiles cfg (c.row lib) s hall
          rwa [h1] at this
        rw [h1] at hrun
        simp only [] at hrun
        have hrows : rows ++ commandRows lib (r :: rest)
            = (rows ++ [c.row lib]) ++ commandRows lib rest := by
          simp [commandRows, hc]
        rw [hrows]
        have hlen' : (((rows ++ [c.row lib]).length : Nat) : Int) + rest.length
            < 9223372036854775808 := by
          simp only [List.length_append, List.length_singleton]
          push_cast
          omega
        split_ifs at hrun
        · have hf := addCollscan_frame cfg (c.row lib) s1
          rcases h2 : addCollscan cfg (c.row lib) s1 with ⟨_ | err, s2⟩
          · rw [h2] at hrun hf
            simp only [] at hrun hf
            refine ih s2 (rows ++ [c.row lib]) ?_ hlen' (hf.2.2.2 hall1) hrun
            rw [hf.1, hf.2.1]
            exact Rotated.frame cfg _ _ _ _ _ hrot1 (fun k =>
              hf.2.2.1 _ (fun j => commandsFile_ne_collscansFile cfg _ _))
          · rw [h2] at hrun
            simp at hrun
        · exact ih s1 (rows ++ [c.row lib]) hrot1 hlen' hall1 hrun

/-- A chunk processed without error has added the rows of its records to the
commands sink, whose layout it keeps. -/
theorem process_rotated (cfg : Config) (lib : Lib) (i : Int) (chunk : List String)
    (s s' : State) (rows : List Row)
    (h : Rotated cfg.chunkSize (commandsFile cfg) rows s.commands s.commandsCounter s.fs)
    (hN : 1 ≤ cfg.chunkSize)
    (hlen : (rows.length : Int) + (parse lib chunk).1.length < 9223372036854775808)
    (hall : AllFiles s.fs)
    (hrun : process cfg lib i chunk s = (none, s')) :
    Rotated cfg.chunkSize (commandsFile cfg) (rows ++ commandRows lib (parse lib chunk).1)
        s'.commands s'.commandsCounter s'.fs ∧ AllFiles s'.fs := by
  unfold process at hrun
  simp only [parse] at hrun hlen ⊢
  have hframe := chunkConvert_frame cfg lib i (parseLoop lib [] chunk) s.fs
  have hall1 := chunkConvert_allFiles cfg lib i (parseLoop lib [] chunk) s.fs hall
  rcases h1 : chunkConvert cfg lib i (parseLoop lib [] chunk) s.fs with ⟨_ | err, fs1⟩
  · rw [h1] at hrun hframe hall1
    simp only [] at hrun hframe hall1
    have hrot1 : Rotated cfg.chunkSize (commandsFile cfg) rows s.commands s.commandsCounter
        fs1 :=
      Rotated.frame cfg _ _ _ _ _ h (fun k => hframe _ (commandsFile_ne_logsFile cfg _ _))
    rcases h2 : chunkCommands cfg lib (parseLoop lib [] chunk) { s with fs := fs1 }
      with ⟨_ | err, s2⟩
    · rw [h2] at hrun
      simp only [] at hrun
      have hrot2 := chunkCommands_rotated cfg lib (parseLoop lib [] chunk)
        { s with fs := fs1 } s2 rows hrot1 hN hlen hall1 h2
      rcases h3 : chunkQueryProf (parseLoop lib [] chunk) s2.queryProf with ⟨_ | err, qp⟩
      · rw [h3] at hrun
        simp only [] at hrun
        rcases h4 : chunkCollectionProf (parseLoop lib [] chunk) s2.collectionProf
          with ⟨_ | err, cp⟩
        · rw [h4] at hrun
          simp only [Prod.mk.injEq, true_and] at hrun
          subst hrun
          exact hrot2
        · rw [h4] at hrun
          simp at hrun
      · rw [h3] at hrun
        simp at hrun
    · rw [h2] at hrun
      simp at hrun
  · rw [h1] at hrun
    simp at hrun

theorem commandRows_append (lib : Lib) (a b : List JMap) :
    commandRows lib (a ++ b) = commandRows lib a ++ commandRows lib b := by
  simp [commandRows, List.filterMap_append]

theorem commandRows_length_le (lib : Lib) (records : List JMap) :
    (commandRows lib records).length ≤ records.length :=
  List.length_filterMap_le _ _

/-- A run of chunks processed without error has added the rows of all its
records, in order, to the commands sink, whose layout it keeps. -/
theorem processAll_rotated (cfg : Config) (lib : Lib) (chunks : List (Int × List String))
    (s s' : State) (rows : List Row)
    (h : Rotated cfg.chunkSize (commandsFile cfg) rows s.commands s.commandsCounter s.fs)
    (hN : 1 ≤ cfg.chunkSize)
    (hlen : (rows.length : Int) + (allRecords lib chunks).length < 9223372036854775808)
    (hall : AllFiles s.fs)
    (hrun : processAll cfg lib chunks s = (none, s')) :
    Rotated cfg.chunkSize (commandsFile cfg) (rows ++ commandRows lib (allRecords lib chunks))
        s'.commands s'.commandsCounter s'.fs ∧ AllFiles s'.fs := by
  induction chunks generalizing s rows with
  | nil =>
    simp only [processAll, Prod.mk.injEq, true_and] at hrun
    subst hrun
    simpa [allRecords, commandRows] using ⟨h, hall⟩
  | cons c rest ih =>
    obtain ⟨i, chunk⟩ := c
    unfold processAll at hrun
    simp only [allRecords, List.length_append] at hlen
    push_cast at hlen
    rcases h1 : process cfg lib i chunk s with ⟨_ | err, s1⟩
    · rw [h1] at hrun
      simp only [] at hrun
      obtain ⟨hrot1, hall1⟩ := process_rotated cfg lib i chunk s s1 rows h hN (by omega) hall h1
      have hle := commandRows_length_le lib (parse lib chunk).1
      have := ih s1 (rows ++ commandRows lib (parse lib chunk).1) hrot1
        (by simp only [List.length_append]; push_cast; omega) hall1 hrun
      simpa [allRecords, commandRows_append, List.append_assoc] using this
    · rw [h1] at hrun
      simp at hrun

/-- The initial state over an empty output directory has the layout of a sink
to which no row has been added. -/
theorem rotated_init (cfg : Config) (fs : FS) (hN : 1 ≤ cfg.chunkSize)
    (hfs : ∀ name, fs name = none) :
    Rotated cfg.chunkSize (commandsFile cfg) [] (State.init fs).commands
      (State.init fs).commandsCounter (State.init fs).fs ∧ AllFiles (State.init fs).fs := by
  refine ⟨⟨[], by simp [State.init], by simp, by simp [State.init]; omega, by simp [State.init],
    by simp, fun k _ => hfs _⟩, fun name => by simp [State.init, hfs name]⟩

theorem length_flatten_of_blocks (N : Nat) (blocks : List (List Row))
    (h : ∀ b ∈ blocks, b.length = N) : blocks.flatten.length = blocks.length * N := by
  induction blocks with
  | nil => simp
  | cons b rest ih =>
    have hb := h b (List.mem_cons_self _ _)
    have := ih (fun b' hb' => h b' (List.mem_cons_of_mem _ hb'))
    simp only [List.flatten_cons, List.length_append, List.length_cons, hb, this]
    ring

/-- The end of `main` over regular files: no error, the buffers and counters
stay, a non-empty commands buffer goes to the file of the current index, and
no other commands file changes. -/
theorem flushRemaining_spec (cfg : Config) (s : State) (c : Nat) (hall : AllFiles s.fs)
    (hc : s.commandsCounter = (c : Int)) :
    ∃ s', flushRemaining cfg s = (none, s') ∧ s'.commandsCounter = s.commandsCounter ∧
      s'.commands = s.commands ∧
      (∀ k : Nat, k ≠ c ∨ s.commands = [] →
        s'.fs (commandsFile cfg (k : Int)) = s.fs (commandsFile cfg (k : Int))) ∧
      (s.commands ≠ [] → s.fs (commandsFile cfg (c : Int)) = none →
        s'.fs (commandsFile cfg (c : Int)) = some (.file (commandsHeader :: s.commands))) := by
  -- the commands flush
  have h1 : ∃ fs1, (if s.commands.length > 0 then
        saveCommands s.commands (commandsFile cfg s.commandsCounter) s.fs
      else (none, s.fs)) = (none, fs1) ∧ AllFiles fs1 ∧
      (∀ k : Nat, k ≠ c ∨ s.commands = [] →
        fs1 (commandsFile cfg (k : Int)) = s.fs (commandsFile cfg (k : Int))) ∧
      (s.commands ≠ [] → s.fs (commandsFile cfg (c : Int)) = none →
        fs1 (commandsFile cfg (c : Int)) = some (.file (commandsHeader :: s.commands))) := by
    by_cases hlen : s.commands.length > 0
    · rw [if_pos hlen]
      have hne : s.commands ≠ [] := fun h => by simp [h] at hlen
      have hs := saveCommands_allFiles s.commands (commandsFile cfg s.commandsCounter) s.fs hall
      refine ⟨(saveCommands s.commands (commandsFile cfg s.commandsCounter) s.fs).2,
        Prod.ext hs.1 rfl, hs.2, ?_, ?_⟩
      · intro k hk
        rcases hk with hk | hk
        · apply saveCommands_frame
          rw [hc]
          intro heq
          exact hk (commandsFile_injective cfg _ _ heq)
        · exact absurd hk hne
      · intro _ hfree
        rw [hc, saveCommands_new _ _ _ hfree]
        simp
    · rw [if_neg hlen]
      have he : s.commands = [] := by
        cases hs : s.commands with
        | nil => rfl
        | cons a l => simp [hs] at hlen
      exact ⟨s.fs, rfl, hall, fun _ _ => rfl, fun hne => absurd he hne⟩
  obtain ⟨fs1, hfs1, hall1, hframe1, hnew1⟩ := h1
  -- the collscans flush
  have h2 : ∃ fs2, (if s.collscans.length > 0 then
        saveCommands s.collscans (collscansFile cfg s.collscansCounter) fs1
      else (none, fs1)) = (none, fs2) ∧
      ∀ k : Int, fs2 (commandsFile cfg k) = fs1 (commandsFile cfg k) := by
    by_cases hlen : s.collscans.length > 0
    · rw [if_pos hlen]
      have hs := saveCommands_allFiles s.collscans (collscansFile cfg s.collscansCounter) fs1
        hall1
      exact ⟨_, Prod.ext hs.1 rfl, fun k =>
        saveCommands_frame _ _ _ _ (commandsFile_ne_collscansFile cfg _ _)⟩
    · rw [if_neg hlen]
      exact ⟨fs1, rfl, fun _ => rfl⟩
  obtain ⟨fs2, hfs2, hframe2⟩ := h2
  refine ⟨{ s with fs := fs2 }, ?_, rfl, rfl, ?_, ?_⟩
  · unfold flushRemaining
    rw [hfs1]
    simp only []
    rw [hfs2]
  · intro k hk
    simp only []
    rw [hframe2, hframe1 k hk]
  · intro hne hfree
    simp only []
    rw [hframe2, hnew1 hne hfree]

/-- C9 (amended), rotation boundary: for every chunk size `N ≥ 1` and every run
whose chunks are all processed without error, from the initial state over an
empty output directory, with `rows` the command rows the run adds and `M` their number: the
counter ends at `M / N`; if `M ≥ N` the file of index 0 holds exactly one
header row followed by exactly the first `N` rows, also after the end of
`main`; and if `M mod N = r > 0` the last `r` rows are in no file before the
end of `main`, which returns no error, writes them once, after one header, to
the file of index `M / N`, and leaves the counter at `M / N`. -/
theorem rotation_boundary (cfg : Config) (lib : Lib) (chunks : List (Int × List String))
    (fs : FS) (s : State) (N : Nat) (rows : List Row)
    (hN : 1 ≤ N) (hsize : cfg.chunkSize = (N : Int))
    (hfs : ∀ name, fs name = none)
    (hrun : processAll cfg lib chunks (State.init fs) = (none, s))
    (hrows : rows = commandRows lib (allRecords lib chunks))
    (hlen : ((allRecords lib chunks).length : Int) < 9223372036854775808) :
    ∃ s', flushRemaining cfg s = (none, s') ∧
      s.commandsCounter = ((rows.length / N : Nat) : Int) ∧
      s'.commandsCounter = ((rows.length / N : Nat) : Int) ∧
      (N ≤ rows.length →
        s.fs (commandsFile cfg 0) = some (.file (commandsHeader :: rows.take N)) ∧
        s'.fs (commandsFile cfg 0) = some (.file (commandsHeader :: rows.take N))) ∧
      (0 < rows.length % N →
        s.fs (commandsFile cfg ((rows.length / N : Nat) : Int)) = none ∧
        s'.fs (commandsFile cfg ((rows.length / N : Nat) : Int))
          = some (.file (commandsHeader :: rows.drop (rows.length - rows.length % N)))) := by
  have hN' : (1 : Int) ≤ cfg.chunkSize := by rw [hsize]; exact_mod_cast hN
  obtain ⟨hinit, hall0⟩ := rotated_init cfg fs hN' hfs
  obtain ⟨hrot, hall⟩ := processAll_rotated cfg lib chunks (State.init fs) s [] hinit hN'
    (by simpa using hlen) hall0 hrun
  rw [List.nil_append, ← hrows] at hrot
  obtain ⟨blocks, hr, hblocks, hbuf, hcounter, hfiles, hnone⟩ := hrot
  have hblocks' : ∀ b ∈ blocks, b.length = N := fun b hb => by
    have := hblocks b hb
    rw [hsize] at this
    exact_mod_cast this
  have hbuf' : s.commands.length < N := by
    rw [hsize] at hbuf
    exact_mod_cast hbuf
  have hflat := length_flatten_of_blocks N blocks hblocks'
  have hM : rows.length = N * blocks.length + s.commands.length := by
    rw [hr, List.length_append, hflat, Nat.mul_comm]
  have hdiv : rows.length / N = blocks.length := by
    rw [hM, Nat.mul_add_div (by omega), Nat.div_eq_of_lt hbuf', Nat.add_zero]
  have hmod : rows.length % N = s.commands.length := by
    rw [hM, Nat.mul_add_mod, Nat.mod_eq_of_lt hbuf']
  obtain ⟨s', hflush, hc', -, hframe, hnew⟩ :=
    flushRemaining_spec cfg s blocks.length hall hcounter
  refine ⟨s', hflush, by rw [hcounter, hdiv], by rw [hc', hcounter, hdiv], ?_, ?_⟩
  · intro hge
    cases hb : blocks with
    | nil =>
      rw [hb] at hM
      simp only [List.length_nil, Nat.mul_zero, Nat.zero_add] at hM
      omega
    | cons b0 rest =>
      have hb0 : b0.length = N := hblocks' b0 (by rw [hb]; exact List.mem_cons_self _ _)
      have htake : rows.take N = b0 := by
        rw [hr, hb, List.flatten_cons, List.append_assoc, ← hb0, List.take_left']
        rfl
      have h0 : s.fs (commandsFile cfg ((0 : Nat) : Int)) = some (.file (commandsHeader :: b0)) :=
        hfiles 0 b0 (by rw [hb]; simp)
      have h0' := hframe 0 (Or.inl (by rw [hb]; simp))
      rw [htake]
      exact ⟨h0, h0'.trans h0⟩
  · intro hpos
    rw [hmod] at hpos
    have hne : s.commands ≠ [] := fun h => by simp [h] at hpos
    have hfree := hnone blocks.length (le_refl _)
    have hdrop : rows.drop (rows.length - rows.length % N) = s.commands := by
      rw [hmod, hM, Nat.add_sub_cancel, hr, Nat.mul_comm, ← hflat, List.drop_left']
      rfl
    rw [hdiv, hdrop]
    exact ⟨hfree, hnew hne hfree⟩

/-- C9 (amended) at chunk size 2 and a run of three chunks that add three
command rows:
file 0 holds the header and the first two rows, the third row is flushed at
the end to file 1. -/
theorem rotation_boundary_witness :
    (processAll { sampleConfig with chunkSize := 2 } sampleLib
        [(0, ["a", "c"]), (2, ["b", "x"]), (4, ["a"])] (State.init noFiles)).1 = none ∧
      (commandRows sampleLib
        (allRecords sampleLib [(0, ["a", "c"]), (2, ["b", "x"]), (4, ["a"])])).length = 3 ∧
      ∃ s', flushRemaining { sampleConfig with chunkSize := 2 }
          (processAll { sampleConfig with chunkSize := 2 } sampleLib
            [(0, ["a", "c"]), (2, ["b", "x"]), (4, ["a"])] (State.init noFiles)).2
          = (none, s') ∧
        s'.commandsCounter = 1 ∧
        s'.fs "out/mongod_commands_0.csv" = some (.file (commandsHeader ::
          (commandRows sampleLib
            (allRecords sampleLib [(0, ["a", "c"]), (2, ["b", "x"]), (4, ["a"])])).take 2)) ∧
        s'.fs "out/mongod_commands_1.csv" = some (.file (commandsHeader ::
          (commandRows sampleLib
            (allRecords sampleLib [(0, ["a", "c"]), (2, ["b", "x"]), (4, ["a"])])).drop 2)) :=
  have h := rotation_boundary { sampleConfig with chunkSize := 2 } sampleLib
    [(0, ["a", "c"]), (2, ["b", "x"]), (4, ["a"])] noFiles _ 2 _ (by decide) rfl
    (fun _ => rfl) (Prod.ext (by decide) rfl) rfl (by decide)
  have hlen : (commandRows sampleLib
      (allRecords sampleLib [(0, ["a", "c"]), (2, ["b", "x"]), (4, ["a"])])).length = 3 := by
    decide
  ⟨by decide, hlen,
    h.elim fun s' hs' =>
      ⟨s', hs'.1, hs'.2.2.1.trans (by rw [hlen]; rfl),
        (hs'.2.2.2.1 (by rw [hlen]; decide)).2,
        by
          have h2 := (hs'.2.2.2.2 (by rw [hlen]; decide)).2
          rw [hlen] at h2
          exact h2⟩⟩

set_option maxRecDepth 100000 in
theorem stopped_run_fs :
    (main sampleConfig sampleLib ["a", "d"] noFiles).2.fs = fun name =>
      if name = logsFile sampleConfig 0 then
        some (.file [logsHeader, logsRow sampleLib (sampleSlow "H1" 1200 "shop.orders"),
          logsRow sampleLib sampleNoT])
      else none := by
  rfl

/-- C9 as stated fails on a run that stops at an error: at chunk size 100, on
the two lines "a" (a valid "Slow query" record) and "d" (one without the
required field `t`), over an empty output directory, `chunkCommands` adds the
row of the first record to the buffer and returns the error of the second;
`main` exits there, before its last flush.  One row was added (`M = 1`,
`M mod 100 = 1 > 0`), it is still in the buffer, and no commands file exists:
the remaining row is never flushed. -/
theorem stopped_run_never_flushes :
    (∀ name, noFiles name = none) ∧
      (main sampleConfig sampleLib ["a", "d"] noFiles).1 = some "t: invalid key" ∧
      (main sampleConfig sampleLib ["a", "d"] noFiles).2.commands
        = commandRows sampleLib [sampleSlow "H1" 1200 "shop.orders"] ∧
      (main sampleConfig sampleLib ["a", "d"] noFiles).2.commands.length = 1 ∧
      (main sampleConfig sampleLib ["a", "d"] noFiles).2.commandsCounter = 0 ∧
      ∀ k : Int, (main sampleConfig sampleLib ["a", "d"] noFiles).2.fs
        (commandsFile sampleConfig k) = none := by
  refine ⟨fun _ => rfl, by decide, by decide, by decide, by decide, ?_⟩
  intro k
  rw [stopped_run_fs]
  simp only [if_neg (commandsFile_ne_logsFile sampleConfig k 0)]

/-! ## Parsing (C12) -/

theorem parseLoop_eq (lib : Lib) (records : List JMap) (lines : List String) :
    parseLoop lib records lines = records ++ lines.filterMap lib.jsonUnmarshal := by
  induction lines generalizing records with
  | nil => simp [parseLoop]
  | cons line rest ih =>
    unfold parseLoop
    cases h : lib.jsonUnmarshal line with
    | none => simp [ih, List.filterMap_cons, h]
    | some record => simp [ih, List.filterMap_cons, h]

/-- C12: for every list of lines `parse` returns no error and exactly the
records of the lines the decoder accepts, in input order: the result is the
order-preserving filter-map of the decoder over the lines, so it is no longer
than the list of lines, and a line that fails to decode is dropped without
effect on the records of the other lines. -/
theorem parse_eq_filterMap (lib : Lib) (lines : List String) :
    (parse lib lines).2 = none ∧
      (parse lib lines).1 = lines.filterMap lib.jsonUnmarshal ∧
      (parse lib lines).1.length ≤ lines.length ∧
      ∀ (before after : List String) (line : String), lib.jsonUnmarshal line = none →
        (parse lib (before ++ line :: after)).1 = (parse lib (before ++ after)).1 := by
  refine ⟨rfl, ?_, ?_, ?_⟩
  · simp [parse, parseLoop_eq]
  · simp only [parse, parseLoop_eq, List.nil_append]
    exact List.length_filterMap_le _ _
  · intro before after line h
    simp [parse, parseLoop_eq, List.filterMap_append, List.filterMap_cons, h]



/-! ## The reports (C13, C14) -/

theorem collect_eq (prof : ProfMap) :
    collect prof =
      (prof.map (fun kv => ({ key := kv.1, value := kv.2 } : profElement)),
        prof.foldl (fun total kv => total + kv.2.duration) 0) := by
  have h : ∀ (l : ProfMap) (acc : List profElement × Float64),
      l.foldl (fun acc kv =>
          (acc.1 ++ [({ key := kv.1, value := kv.2 } : profElement)], acc.2 + kv.2.duration)) acc
        = (acc.1 ++ l.map (fun kv => ({ key := kv.1, value := kv.2 } : profElement)),
            l.foldl (fun total kv => total + kv.2.duration) acc.2) := by
    intro l
    induction l with
    | nil => intro acc; simp
    | cons kv rest ih =>
      intro acc
      simp only [List.foldl_cons, ih, List.map_cons, List.append_assoc,
        List.singleton_append]
  simpa [collect] using h prof ([], 0)

theorem save_allFiles (cfg : Config) (fileName : String) (rows : List Row) (fs : FS)
    (h : AllFiles fs) :
    save cfg fileName rows fs =
      (none, fun name => if name = cfg.outputDir ++ "/" ++ fileName then some (.file rows)
        else fs name) := by
  have hn := h (cfg.outputDir ++ "/" ++ fileName)
  unfold save osCreate
  cases hf : fs (cfg.outputDir ++ "/" ++ fileName) with
  | none => rfl
  | some node =>
    cases node with
    | file old => rfl
    | denied => exact absurd hf hn.1
    | dir => exact absurd hf hn.2

/-- C13, ratio guard: for every accumulator entry whose cumulative `nreturned`
is 0, whatever its `docsExamined`, the ratio `saveQueryProf` and
`saveCollectionProf` compute is `math.MaxFloat64`, and for every entry with
`nreturned` different from 0 it is `docsExamined / nreturned`; it is the value
formatted into the ratio column of the entry's row, the rows written are the
header and one such row per sorted element, and over regular files neither
report returns an error. -/
theorem ratio_guard (cfg : Config) (lib : Lib) (s : State) (total : Float64)
    (element : profElement) :
    (element.value.nreturned = 0 → ratio element.value = maxFloat64) ∧
      (element.value.nreturned ≠ 0 →
        ratio element.value = element.value.docsExamined / element.value.nreturned) ∧
      (profRow lib total element)[9]? = some (lib.sprintF2 (ratio element.value)) ∧
      (AllFiles s.fs → s.queryProf ≠ [] →
        (saveQueryProf cfg lib s).1 = none ∧
        (saveQueryProf cfg lib s).2 (cfg.outputDir ++ "/" ++ (cfg.outputPrefix ++ "_query_prof.csv"))
          = some (.file (queryProfHeader ::
              (profSorted s.queryProf).map (profRow lib (collect s.queryProf).2)))) ∧
      (AllFiles s.fs → s.collectionProf ≠ [] →
        (saveCollectionProf cfg lib s).1 = none ∧
        (saveCollectionProf cfg lib s).2
            (cfg.outputDir ++ "/" ++ (cfg.outputPrefix ++ "_collection_prof.csv"))
          = some (.file (collectionProfHeader ::
              (profSorted s.collectionProf).map (profRow lib (collect s.collectionProf).2)))) := by
  refine ⟨fun h => by simp [ratio, h], fun h => by simp [ratio, h], rfl, ?_, ?_⟩
  · intro hall hne
    have hlen : ¬ s.queryProf.length < 1 := by
      cases hq : s.queryProf with
      | nil => exact absurd hq hne
      | cons a l => simp
    unfold saveQueryProf
    rw [if_neg hlen, save_allFiles cfg _ _ _ hall]
    simp [profRows]
  · intro hall hne
    have hlen : ¬ s.collectionProf.length < 1 := by
      cases hq : s.collectionProf with
      | nil => exact absurd hq hne
      | cons a l => simp
    unfold saveCollectionProf
    rw [if_neg hlen, save_allFiles cfg _ _ _ hall]
    simp [profRows]

/-- C13 at an entry that has examined 5 documents and returned none. -/
theorem ratio_guard_witness :
    ratio { docsExamined := 5, nreturned := 0, reslen := 0, duration := 1, count := 1,
            min := 1, max := 1 } = maxFloat64 :=
  (ratio_guard sampleConfig sampleLib (State.init noFiles) 1
    { key := "H1",
      value :=
        { docsExamined := 5, nreturned := 0, reslen := 0, duration := 1, count := 1,
          min := 1, max := 1 } }).1 rfl

theorem profSorted_perm (prof : ProfMap) :
    (profSorted prof).Perm (prof.map (fun kv => ({ key := kv.1, value := kv.2 } : profElement))) := by
  unfold profSorted sortSlice
  rw [collect_eq]
  exact List.perm_insertionSort _ _

theorem orderedInsert_chain {α : Type} (r : α → α → Prop) [DecidableRel r]
    (htot : ∀ a b, r a b ∨ r b a) (a : α) (l : List α) (h : l.Chain' r) :
    (l.orderedInsert r a).Chain' r := by
  induction l with
  | nil => simp
  | cons b l ih =>
    rw [List.orderedInsert]
    split_ifs with hab
    · exact List.Chain'.cons hab h
    · have hba : r b a := (htot a b).resolve_left hab
      have hl : l.Chain' r := h.tail
      have ih' := ih hl
      cases l with
      | nil => simpa using hba
      | cons c l' =>
        have hbc : r b c := by
          rw [List.chain'_cons] at h
          exact h.1
        rw [List.orderedInsert] at ih' ⊢
        split_ifs at ih' ⊢ with hac
        · exact List.Chain'.cons hba ih'
        · exact List.Chain'.cons hbc ih'

theorem insertionSort_chain {α : Type} (r : α → α → Prop) [DecidableRel r]
    (htot : ∀ a b, r a b ∨ r b a) (l : List α) : (l.insertionSort r).Chain' r := by
  induction l with
  | nil => simp
  | cons a l ih => exact orderedInsert_chain r htot a _ ih

theorem pairwise_of_chain {α : Type} (r : α → α → Prop) (P : α → Prop)
    (htrans : ∀ a b c, P a → P b → P c → r a b → r b c → r a c)
    (l : List α) (hP : ∀ a ∈ l, P a) (h : l.Chain' r) : l.Pairwise r := by
  induction l with
  | nil => simp
  | cons a l ih =>
    have hl : l.Pairwise r := ih (fun b hb => hP b (List.mem_cons_of_mem _ hb)) h.tail
    rw [List.pairwise_cons]
    refine ⟨?_, hl⟩
    cases l with
    | nil => simp
    | cons c l' =>
      have hac : r a c := by
        rw [List.chain'_cons] at h
        exact h.1
      intro b hb
      rcases List.mem_cons.1 hb with rfl | hb'
      · exact hac
      · have hcb : r c b := (List.pairwise_cons.1 hl).1 b hb'
        exact htrans a c b (hP a (List.mem_cons_self _ _))
          (hP c (List.mem_cons_of_mem _ (List.mem_cons_self _ _)))
          (hP b (List.mem_cons_of_mem _ hb)) hac hcb

/-- No row of a report has a duration greater than that of the row before it,
in the comparison `sort.Slice` is given. -/
theorem profSorted_chain (prof : ProfMap) :
    (profSorted prof).Chain' (fun a b => ¬ (b.value.duration > a.value.duration)) := by
  unfold profSorted sortSlice
  apply insertionSort_chain
  intro a b
  by_cases h : b.value.duration > a.value.duration
  · exact Or.inr (f64_lt_asymm h)
  · exact Or.inl h

/-- When no duration is NaN, the durations do not increase from a row to any
later row. -/
theorem profSorted_sorted (prof : ProfMap) (hnan : ∀ kv ∈ prof, kv.2.duration ≠ .nan) :
    (profSorted prof).Pairwise (fun a b => b.value.duration ≤ a.value.duration) := by
  have hP : ∀ a ∈ profSorted prof, a.value.duration ≠ .nan := by
    intro a ha
    have := (profSorted_perm prof).mem_iff.1 ha
    rw [List.mem_map] at this
    obtain ⟨kv, hkv, rfl⟩ := this
    exact hnan kv hkv
  have h := pairwise_of_chain (fun a b : profElement => ¬ (b.value.duration > a.value.duration))
    (fun a => a.value.duration ≠ .nan)
    (fun a b c ha hb hc hab hbc =>
      f64_not_lt_of_le (f64_le_trans (f64_le_of_not_lt hb hc hbc) (f64_le_of_not_lt ha hb hab)))
    (profSorted prof) hP (profSorted_chain prof)
  refine List.Pairwise.imp_of_mem ?_ h
  intro a b ha hb hab
  exact f64_le_of_not_lt (hP a ha) (hP b hb) hab

/-- The columns of a row that identify its entry: the key, the count and the
cumulative duration, in a row of 12 columns. -/
theorem profRow_columns (lib : Lib) (total : Float64) (e : profElement) :
    (profRow lib total e).length = 12 ∧ (profRow lib total e)[0]? = some e.key ∧
      (profRow lib total e)[1]? = some (toString e.value.count) ∧
      (profRow lib total e)[2]? = some (lib.sprintF2 e.value.duration) :=
  ⟨rfl, rfl, rfl, rfl⟩

/-- The cells of a row that divide by zero: for an entry of cumulative duration
0 in a report whose total is 0, the percentage `0 / 0 * 100` is NaN, and the
throughput of a positive response size, `reslen / (0 * 60)`, is `+Inf`. -/
theorem profRow_zero_duration (lib : Lib) (e : profElement) (r : ℚ) (hr : 0 < r)
    (hd : e.value.duration = 0) (hres : e.value.reslen = .fin r) :
    (profRow lib 0 e)[3]? = some (lib.sprintF2 .nan) ∧
      (profRow lib 0 e)[11]? = some (lib.sprintF2 (.inf false)) := by
  have h1 : (0 : Float64) / 0 * 100 = .nan := by
    rw [f64_mul, f64_div, f64_zero]
    simp [Float64.div, Float64.mul]
  have h2 : Float64.fin r / ((0 : Float64) * 60) = .inf false := by
    rw [f64_div, f64_mul, f64_zero, f64_ofNat]
    simp [Float64.div, Float64.mul, f64_round_zero, ne_of_gt hr, not_lt.2 hr.le]
  simp only [profRow, hd, hres, h1, h2]
  exact ⟨rfl, rfl⟩

/-- What both reports write for a non-empty map with one entry per key. -/
theorem profRows_spec (lib : Lib) (header : Row) (prof : ProfMap)
    (hkeys : (prof.map Prod.fst).Nodup) :
    ∃ sorted : List profElement,
      profRows lib header prof = header :: sorted.map (profRow lib (collect prof).2) ∧
      sorted.Perm (prof.map (fun kv => ({ key := kv.1, value := kv.2 } : profElement))) ∧
      (sorted.map (fun e => e.key)).Nodup ∧
      sorted.length = prof.length ∧
      (sorted.map (profRow lib (collect prof).2)).map (fun row => row[0]?)
        = sorted.map (fun e => some e.key) ∧
      sorted.Chain' (fun a b => ¬ (b.value.duration > a.value.duration)) ∧
      ((∀ kv ∈ prof, kv.2.duration ≠ .nan) →
        sorted.Pairwise (fun a b => b.value.duration ≤ a.value.duration)) := by
  refine ⟨profSorted prof, rfl, profSorted_perm prof, ?_, ?_, ?_, profSorted_chain prof,
    profSorted_sorted prof⟩
  · have hp := (profSorted_perm prof).map (fun e => e.key)
    rw [List.map_map] at hp
    exact (hp.nodup_iff).2 (by simpa [Function.comp] using hkeys)
  · simpa using (profSorted_perm prof).length_eq
  · rw [List.map_map]
    apply List.map_congr_left
    intro e _
    rfl

/-- C14: for every non-empty accumulator (one entry per key) over regular
files, `saveQueryProf` and `saveCollectionProf` write one header of 12 columns
followed by the rows of a list of elements that is a permutation of the
accumulator's entries, exactly one row per key: every row has 12 columns, of
which the first is the key of its element, the second its count and the third
its cumulative duration, and the first column of the data rows lists the keys
without repetition.  No row has a duration greater than that of the row
before it, and when no duration is NaN (a sum of finite minute durations is
finite or infinite) the durations do not increase from a row to any later
row. -/
theorem report_rows_sorted_permutation (cfg : Config) (lib : Lib) (s : State)
    (hall : AllFiles s.fs) :
    (s.queryProf ≠ [] → (s.queryProf.map Prod.fst).Nodup →
      ∃ sorted : List profElement,
        saveQueryProf cfg lib s =
          (none, fun name =>
            if name = cfg.outputDir ++ "/" ++ (cfg.outputPrefix ++ "_query_prof.csv") then
              some (.file (queryProfHeader :: sorted.map (profRow lib (collect s.queryProf).2)))
            else s.fs name) ∧
        queryProfHeader.length = 12 ∧
        sorted.Perm
          (s.queryProf.map (fun kv => ({ key := kv.1, value := kv.2 } : profElement))) ∧
        (sorted.map (fun e => e.key)).Nodup ∧ sorted.length = s.queryProf.length ∧
        (sorted.map (profRow lib (collect s.queryProf).2)).map (fun row => row[0]?)
          = sorted.map (fun e => some e.key) ∧
        sorted.Chain' (fun a b => ¬ (b.value.duration > a.value.duration)) ∧
        ((∀ kv ∈ s.queryProf, kv.2.duration ≠ .nan) →
          sorted.Pairwise (fun a b => b.value.duration ≤ a.value.duration))) ∧
    (s.collectionProf ≠ [] → (s.collectionProf.map Prod.fst).Nodup →
      ∃ sorted : List profElement,
        saveCollectionProf cfg lib s =
          (none, fun name =>
            if name = cfg.outputDir ++ "/" ++ (cfg.outputPrefix ++ "_collection_prof.csv") then
              some (.file (collectionProfHeader ::
                sorted.map (profRow lib (collect s.collectionProf).2)))
            else s.fs name) ∧
        collectionProfHeader.length = 12 ∧
        sorted.Perm
          (s.collectionProf.map (fun kv => ({ key := kv.1, value := kv.2 } : profElement))) ∧
        (sorted.map (fun e => e.key)).Nodup ∧ sorted.length = s.collectionProf.length ∧
        (sorted.map (profRow lib (collect s.collectionProf).2)).map (fun row => row[0]?)
          = sorted.map (fun e => some e.key) ∧
        sorted.Chain' (fun a b => ¬ (b.value.duration > a.value.duration)) ∧
        ((∀ kv ∈ s.collectionProf, kv.2.duration ≠ .nan) →
          sorted.Pairwise (fun a b => b.value.duration ≤ a.value.duration))) ∧
    ∀ (total : Float64) (e : profElement),
      (profRow lib total e).length = 12 ∧ (profRow lib total e)[0]? = some e.key ∧
      (profRow lib total e)[1]? = some (toString e.value.count) ∧
      (profRow lib total e)[2]? = some (lib.sprintF2 e.value.duration) := by
  refine ⟨?_, ?_, profRow_columns lib⟩
  · intro hne hkeys
    obtain ⟨sorted, hrows, hperm, hnodup, hlen, hcol, hchain, hsorted⟩ :=
      profRows_spec lib queryProfHeader s.queryProf hkeys
    have hl : ¬ s.queryProf.length < 1 := by
      cases hq : s.queryProf with
      | nil => exact absurd hq hne
      | cons a l => simp
    refine ⟨sorted, ?_, rfl, hperm, hnodup, hlen, hcol, hchain, hsorted⟩
    unfold saveQueryProf
    rw [if_neg hl, save_allFiles cfg _ _ _ hall, hrows]
  · intro hne hkeys
    obtain ⟨sorted, hrows, hperm, hnodup, hlen, hcol, hchain, hsorted⟩ :=
      profRows_spec lib collectionProfHeader s.collectionProf hkeys
    have hl : ¬ s.collectionProf.length < 1 := by
      cases hq : s.collectionProf with
      | nil => exact absurd hq hne
      | cons a l => simp
    refine ⟨sorted, ?_, rfl, hperm, hnodup, hlen, hcol, hchain, hsorted⟩
    unfold saveCollectionProf
    rw [if_neg hl, save_allFiles cfg _ _ _ hall, hrows]

theorem allFiles_noFiles : AllFiles noFiles := fun _ => by simp [noFiles]

theorem sampleProf_sorted :
    (profSorted sampleProf).map (fun e => e.key) = ["H2", "H1"] := by
  have h13 : (1 : Float64) < 3 := by
    rw [f64_ofNat, f64_ofNat, f64_fin_lt_fin]
    norm_num
  simp [profSorted, sortSlice, collect, sampleProf, List.insertionSort, List.orderedInsert, h13]

/-- C14 at an accumulator of two keys over the empty output directory: the
report has the header and two rows, the row of "H2" (3 minutes) before that of
"H1" (1 minute). -/
theorem report_rows_sorted_permutation_witness :
    AllFiles noFiles ∧
      ∃ sorted : List profElement,
        (saveQueryProf sampleConfig sampleLib
            { State.init noFiles with queryProf := sampleProf }).2 "out/mongod_query_prof.csv"
          = some (.file (queryProfHeader ::
              sorted.map (profRow sampleLib (collect sampleProf).2))) ∧
        sorted.Perm (sampleProf.map (fun kv => ({ key := kv.1, value := kv.2 } : profElement))) ∧
        (sorted.map (profRow sampleLib (collect sampleProf).2)).map (fun row => row[0]?)
          = [some "H2", some "H1"] ∧
        sorted.Pairwise (fun a b => b.value.duration ≤ a.value.duration) :=
  ⟨allFiles_noFiles,
    ((report_rows_sorted_permutation sampleConfig sampleLib
        { State.init noFiles with queryProf := sampleProf } allFiles_noFiles).1
      (List.cons_ne_nil _ _) (by decide)).elim
      fun sorted h => ⟨sorted, by rw [h.1]; rfl, h.2.2.1,
        by
          have hfile : (saveQueryProf sampleConfig sampleLib
              { State.init noFiles with queryProf := sampleProf }).2 "out/mongod_query_prof.csv"
              = some (.file (queryProfHeader ::
                  (profSorted sampleProf).map (profRow sampleLib (collect sampleProf).2))) := rfl
          have h1 := congrArg (fun r => r.2 "out/mongod_query_prof.csv") h.1
          simp only [hfile] at h1
          have h2 : (profSorted sampleProf).map (profRow sampleLib (collect sampleProf).2)
              = sorted.map (profRow sampleLib (collect sampleProf).2) := by
            have h3 : ("out/mongod_query_prof.csv" : String)
                = sampleConfig.outputDir ++ "/" ++ (sampleConfig.outputPrefix ++ "_query_prof.csv") := by
              decide
            simp only [h3, if_true, Option.some.injEq, Node.file.injEq, List.cons.injEq,
              true_and] at h1
            exact h1
          have h4 : ((profSorted sampleProf).map (profRow sampleLib (collect sampleProf).2)).map
              (fun row => row[0]?) = ((profSorted sampleProf).map (fun e => e.key)).map some := by
            rw [List.map_map, List.map_map]
            apply List.map_congr_left
            intro e _
            rfl
          rw [← h2, h4, sampleProf_sorted]
          rfl,
        h.2.2.2.2.2.2.2 (by simp [sampleProf, f64_ofNat])⟩⟩

/-! ## The command document (C17) -/

theorem lookup_filter (m : JMap) (p : String → Bool) (k : String) :
    lookup (m.filter (fun kv => p kv.1)) k = if p k then lookup m k else none := by
  induction m with
  | nil => simp [lookup]
  | cons kv rest ih =>
    obtain ⟨k', v⟩ := kv
    by_cases hp : p k' = true
    · simp only [List.filter_cons, hp, if_true, lookup]
      by_cases hk : k' = k
      · subst hk
        simp [hp]
      · simp [hk, ih]
    · simp only [List.filter_cons, hp, lookup]
      by_cases hk : k' = k
      · subst hk
        simp [ih, hp]
      · simp [hk, ih]

theorem lookup_delete (m : JMap) (k k' : String) :
    lookup (delete m k) k' = if k' = k then none else lookup m k' := by
  unfold delete
  rw [lookup_filter m (fun key => decide (key ≠ k)) k']
  by_cases h : k' = k <;> simp [h]

theorem lookup_foldl_delete (keys : List String) (m : JMap) (k : String) :
    lookup (keys.foldl delete m) k = if k ∈ keys then none else lookup m k := by
  induction keys generalizing m with
  | nil => simp
  | cons key rest ih =>
    simp only [List.foldl_cons, ih, lookup_delete, List.mem_cons]
    by_cases h1 : k ∈ rest
    · simp [h1]
    · by_cases h2 : k = key <;> simp [h1, h2]

/-- C17: for every qualifying event that yields a row, the Command column is
the serialisation of the event's command document after the deletions: that
document has none of the keys `$clusterTime`, `$db`, `$readPreference`, `lsid`,
`readConcern`, `writeConcern`, `txnNumber`, `flowControl` at top level, and
every other top-level key of the command sub-document with its value
unchanged. -/
theorem command_column_strips_protocol_keys (lib : Lib) (record : JMap) (c : Command)
    (h : commandOf lib record = .ok (some c)) :
    ∃ command stripped : JMap,
      lookup (attrOf record) "command" = some (.obj command) ∧
      lib.jsonMarshal stripped = .ok c.commandBytes ∧
      (c.row lib)[10]? = some c.commandBytes ∧
      (∀ k ∈ ["$clusterTime", "$db", "$readPreference", "lsid", "readConcern",
          "writeConcern", "txnNumber", "flowControl"], lookup stripped k = none) ∧
      (∀ k ∉ ["$clusterTime", "$db", "$readPreference", "lsid", "readConcern",
          "writeConcern", "txnNumber", "flowControl"], lookup stripped k = lookup command k) := by
  unfold commandOf at h
  simp only [bind_eq_ok, required_eq_ok, asString_eq_ok, asMap_eq_ok, asFloat64_eq_ok] at h
  obtain ⟨v, hv, msg, rfl, h⟩ := h
  split at h
  · simp only [bind_eq_ok, required_eq_ok, asString_eq_ok, asMap_eq_ok, asFloat64_eq_ok] at h
    obtain ⟨_, ht, t, rfl, _, hdate, date, rfl, ts, -, _, hattr, attr, rfl, hash, -,
      _, hd, d, ⟨q, rfl, rfl⟩, _, hcmd, cmd, rfl, bytes, hbytes, _, htype, typeStr, rfl, sort, -,
      app, -, remote, -, plan, -, _, hns, ns, rfl, hc⟩ := h
    simp only [pure, Except.pure, Except.ok.injEq, Option.some.injEq] at hc
    subst hc
    refine ⟨cmd, strippedKeys.foldl delete cmd, ?_, hbytes, rfl, ?_, ?_⟩
    · rw [attrOf_eq record attr hattr, hcmd]
    · intro k hk
      rw [lookup_foldl_delete]
      exact if_pos hk
    · intro k hk
      rw [lookup_foldl_delete]
      exact if_neg hk
  · simp [pure, Except.pure] at h

/-- C17 at the well-formed sample record, whose command has the keys `find`
and `$db`. -/
theorem command_column_strips_protocol_keys_witness :
    ∃ c, commandOf sampleLib (sampleSlow "H1" 1200 "shop.orders") = .ok (some c) ∧
      ∃ command stripped : JMap,
        lookup (attrOf (sampleSlow "H1" 1200 "shop.orders")) "command" = some (.obj command) ∧
        sampleLib.jsonMarshal stripped = .ok c.commandBytes ∧
        lookup stripped "$db" = none ∧ lookup stripped "find" = lookup command "find" := by
  obtain ⟨c, hc, -⟩ := commandOf_valid sampleLib (sampleSlow "H1" 1200 "shop.orders")
    [("$date", .str "2024-05-01T10:00:00Z")]
    [("type", .str "command"), ("ns", .str "shop.orders"), ("queryHash", .str "H1"),
      ("durationMillis", .num 1200),
      ("command", .obj [("find", .str "orders"), ("$db", .str "shop")])]
    [("find", .str "orders"), ("$db", .str "shop")] "2024-05-01T10:00:00Z"
    "2024-05-01T10:00:00Z" "cmd" "command" "shop.orders" 1200 (by decide) rfl rfl rfl rfl rfl
    rfl rfl rfl rfl (by decide) (by decide) (by decide) (by decide) (by decide)
  obtain ⟨command, stripped, h1, h2, -, h4, h5⟩ :=
    command_column_strips_protocol_keys sampleLib _ c hc
  exact ⟨c, hc, command, stripped, h1, h2, h4 "$db" (by decide), h5 "find" (by decide)⟩

/-! ## The parts of a successful `process` -/

/-- A chunk processed without error: each of the four consumers has returned
no error, in order. -/
theorem process_ok_parts (cfg : Config) (lib : Lib) (i : Int) (chunk : List String)
    (s s' : State) (h : process cfg lib i chunk s = (none, s')) :
    ∃ fs1 s2,
      chunkConvert cfg lib i (parse lib chunk).1 s.fs = (none, fs1) ∧
      chunkCommands cfg lib (parse lib chunk).1 { s with fs := fs1 } = (none, s2) ∧
      chunkQueryProf (parse lib chunk).1 s2.queryProf = (none, s'.queryProf) ∧
      chunkCollectionProf (parse lib chunk).1 s2.collectionProf = (none, s'.collectionProf) ∧
      s'.commands = s2.commands ∧ s'.commandsCounter = s2.commandsCounter ∧
      s'.collscans = s2.collscans ∧ s'.collscansCounter = s2.collscansCounter ∧
      s'.fs = s2.fs := by
  unfold process at h
  simp only [parse] at h ⊢
  rcases h1 : chunkConvert cfg lib i (parseLoop lib [] chunk) s.fs with ⟨_ | err, fs1⟩
  · rw [h1] at h
    simp only [] at h
    rcases h2 : chunkCommands cfg lib (parseLoop lib [] chunk) { s with fs := fs1 }
      with ⟨_ | err, s2⟩
    · rw [h2] at h
      simp only [] at h
      rcases h3 : chunkQueryProf (parseLoop lib [] chunk) s2.queryProf with ⟨_ | err, qp⟩
      · rw [h3] at h
        simp only [] at h
        rcases h4 : chunkCollectionProf (parseLoop lib [] chunk) s2.collectionProf
          with ⟨_ | err, cp⟩
        · rw [h4] at h
          simp only [Prod.mk.injEq, true_and] at h
          subst h
          exact ⟨fs1, s2, rfl, h2, h3, h4, rfl, rfl, rfl, rfl, rfl⟩
        · rw [h4] at h
          simp at h
      · rw [h3] at h
        simp at h
    · rw [h2] at h
      simp at h
  · rw [h1] at h
    simp at h

/-- A pass of `chunkCommands` that returns no error has extracted every record. -/
theorem chunkCommands_ok_all (cfg : Config) (lib : Lib) (records : List JMap) (s s' : State)
    (h : chunkCommands cfg lib records s = (none, s')) :
    ∀ r ∈ records, ∃ o, commandOf lib r = .ok o := by
  induction records generalizing s with
  | nil => intro r hr; cases hr
  | cons r0 rest ih =>
    rw [chunkCommands_cons] at h
    cases hc : commandOf lib r0 with
    | error err => simp [hc] at h
    | ok o =>
      have hrest : ∃ s1, chunkCommands cfg lib rest s1 = (none, s') := by
        cases o with
        | none =>
          simp only [hc] at h
          exact ⟨s, h⟩
        | some c =>
          simp only [hc] at h
          rcases ha : addCommand cfg (c.row lib) s with ⟨_ | err, s1⟩
          · rw [ha] at h
            simp only [] at h
            split_ifs at h
            · rcases hb : addCollscan cfg (c.row lib) s1 with ⟨_ | err, s2⟩
              · rw [hb] at h
                exact ⟨s2, h⟩
              · rw [hb] at h
                simp at h
            · exact ⟨s1, h⟩
          · rw [ha] at h
            simp at h
      obtain ⟨s1, h1⟩ := hrest
      intro r hr
      rcases List.mem_cons.1 hr with rfl | hr
      · exact ⟨o, hc⟩
      · exact ih s1 h1 r hr

/-- A run processed without error has extracted every record of every chunk. -/
theorem processAll_ok_all (cfg : Config) (lib : Lib) (chunks : List (Int × List String))
    (s s' : State) (h : processAll cfg lib chunks s = (none, s')) :
    ∀ r ∈ allRecords lib chunks, ∃ o, commandOf lib r = .ok o := by
  induction chunks generalizing s with
  | nil => intro r hr; simp [allRecords] at hr
  | cons c rest ih =>
    obtain ⟨i, chunk⟩ := c
    unfold processAll at h
    rcases h1 : process cfg lib i chunk s with ⟨_ | err, s1⟩
    · rw [h1] at h
      simp only [] at h
      obtain ⟨fs1, s2, -, hc, -⟩ := process_ok_parts cfg lib i chunk s s1 h1
      intro r hr
      simp only [allRecords, List.mem_append] at hr
      rcases hr with hr | hr
      · exact chunkCommands_ok_all cfg lib _ _ _ hc r hr
      · exact ih s1 h r hr
    · rw [h1] at h
      simp at h

/-- When every record is extracted, the rows are those of the slow queries. -/
theorem commandRows_length (lib : Lib) (records : List JMap)
    (h : ∀ r ∈ records, ∃ o, commandOf lib r = .ok o) :
    (commandRows lib records).length = records.countP slowQuery := by
  induction records with
  | nil => rfl
  | cons r rest ih =>
    have ih' := ih (fun r' hr' => h r' (List.mem_cons_of_mem _ hr'))
    obtain ⟨o, ho⟩ := h r (List.mem_cons_self _ _)
    cases o with
    | none =>
      have hs := commandOf_none lib r ho
      simp only [commandRows, List.filterMap_cons, ho] at ih' ⊢
      rw [List.countP_cons_of_neg _ _ (by simp [hs])]
      exact ih'
    | some c =>
      have hs := (commandOf_some lib r c ho).1
      simp only [commandRows, List.filterMap_cons, ho, List.length_cons] at ih' ⊢
      rw [List.countP_cons_of_pos _ _ hs, ih']

/-! ## Sum of the counts (C18) -/

theorem sum_count_set (prof : ProfMap) (k : String) (v : profMeta) :
    ((prof.set k v).map (fun kv => kv.2.count)).sum =
      (prof.map (fun kv => kv.2.count)).sum
        - (match prof.get? k with | some stat => stat.count | none => 0) + v.count := by
  induction prof with
  | nil => simp [ProfMap.set, ProfMap.get?]
  | cons kv rest ih =>
    obtain ⟨k', v'⟩ := kv
    by_cases hk : k' = k
    · simp only [ProfMap.set, ProfMap.get?, hk, if_true, List.map_cons, List.sum_cons]
      ring
    · simp only [ProfMap.set, ProfMap.get?, hk, if_false, List.map_cons, List.sum_cons, ih]
      ring

theorem mem_set (prof : ProfMap) (k : String) (v : profMeta) (kv : String × profMeta)
    (h : kv ∈ prof.set k v) : kv ∈ prof ∨ kv = (k, v) := by
  induction prof with
  | nil =>
    simp only [ProfMap.set, List.mem_singleton] at h
    exact Or.inr h
  | cons kv0 rest ih =>
    obtain ⟨k', v'⟩ := kv0
    by_cases hk : k' = k
    · simp only [ProfMap.set, hk, if_true, List.mem_cons] at h
      rcases h with h | h
      · exact Or.inr h
      · exact Or.inl (List.mem_cons_of_mem _ h)
    · simp only [ProfMap.set, hk, if_false, List.mem_cons] at h
      rcases h with h | h
      · exact Or.inl (h ▸ List.mem_cons_self _ _)
      · rcases ih h with h | h
        · exact Or.inl (List.mem_cons_of_mem _ h)
        · exact Or.inr h

theorem get?_mem (prof : ProfMap) (k : String) (stat : profMeta)
    (h : prof.get? k = some stat) : (k, stat) ∈ prof := by
  induction prof with
  | nil => simp [ProfMap.get?] at h
  | cons kv rest ih =>
    obtain ⟨k', v'⟩ := kv
    by_cases hk : k' = k
    · simp only [ProfMap.get?, hk, if_true, Option.some.injEq] at h
      subst h
      subst hk
      exact List.mem_cons_self _ _
    · simp only [ProfMap.get?, hk, if_false] at h
      exact List.mem_cons_of_mem _ (ih h)

theorem count_le_sum (prof : ProfMap) (hpos : ∀ kv ∈ prof, 0 ≤ kv.2.count)
    (kv : String × profMeta) (h : kv ∈ prof) :
    kv.2.count ≤ (prof.map (fun kv => kv.2.count)).sum := by
  induction prof with
  | nil => cases h
  | cons kv0 rest ih =>
    have h0 := hpos kv0 (List.mem_cons_self _ _)
    have hrest : ∀ kv ∈ rest, 0 ≤ kv.2.count := fun kv hkv => hpos kv (List.mem_cons_of_mem _ hkv)
    have hsum : 0 ≤ (rest.map (fun kv => kv.2.count)).sum :=
      List.sum_nonneg (by
        intro x hx
        obtain ⟨kv, hkv, rfl⟩ := List.mem_map.1 hx
        exact hrest kv hkv)
    simp only [List.map_cons, List.sum_cons]
    rcases List.mem_cons.1 h with rfl | h
    · omega
    · have := ih hrest h
      omega

/-- Merging events adds one to the sum of the counts per event. -/
theorem sum_count_foldl_merge (events : List ProfEvent) (prof : ProfMap)
    (hpos : ∀ kv ∈ prof, 0 ≤ kv.2.count)
    (hlt : (prof.map (fun kv => kv.2.count)).sum + (events.length : Int)
      < 9223372036854775808) :
    ((events.foldl merge prof).map (fun kv => kv.2.count)).sum =
      (prof.map (fun kv => kv.2.count)).sum + (events.length : Int) := by
  induction events generalizing prof with
  | nil => simp
  | cons e rest ih =>
    simp only [List.foldl_cons, List.length_cons] at hlt ⊢
    push_cast at hlt ⊢
    have hsumpos : 0 ≤ (prof.map (fun kv => kv.2.count)).sum :=
      List.sum_nonneg (by
        intro x hx
        obtain ⟨kv, hkv, rfl⟩ := List.mem_map.1 hx
        exact hpos kv hkv)
    have hkey : ∃ c0 : Int, 0 ≤ c0 ∧ c0 ≤ (prof.map (fun kv => kv.2.count)).sum ∧
        (mergeStat (prof.get? e.key) e).count = wrapInt64 (c0 + 1) ∧
        ((merge prof e).map (fun kv => kv.2.count)).sum
          = (prof.map (fun kv => kv.2.count)).sum - c0
            + (mergeStat (prof.get? e.key) e).count := by
      unfold merge
      rw [sum_count_set, mergeStat_count]
      cases hg : prof.get? e.key with
      | none => exact ⟨0, le_refl _, hsumpos, rfl, rfl⟩
      | some stat =>
        have hm := get?_mem prof e.key stat hg
        exact ⟨stat.count, hpos _ hm, count_le_sum prof hpos _ hm, rfl, rfl⟩
    obtain ⟨c0, h0, hle, hc1, hs1⟩ := hkey
    have hc : (mergeStat (prof.get? e.key) e).count = c0 + 1 := by
      rw [hc1]
      exact wrapInt64_of_lt _ (by omega) (by omega)
    have hsum : ((merge prof e).map (fun kv => kv.2.count)).sum
        = (prof.map (fun kv => kv.2.count)).sum + 1 := by
      rw [hs1, hc]
      ring
    have hpos' : ∀ kv ∈ merge prof e, 0 ≤ kv.2.count := by
      intro kv hkv
      rcases mem_set prof _ _ kv hkv with h | h
      · exact hpos kv h
      · rw [h]
        show 0 ≤ (mergeStat (prof.get? e.key) e).count
        rw [hc]
        omega
    rw [ih (merge prof e) hpos' (by rw [hsum]; omega), hsum]
    ring

theorem chunkProf_sum_count (event : JMap → Except String (Option ProfEvent))
    (key : JMap → String)
    (hsome : ∀ r e, event r = .ok (some e) → slowQuery r = true ∧ e = eventOf key r)
    (hnone : ∀ r, event r = .ok none → slowQuery r = false)
    (records : List JMap) (prof' : ProfMap)
    (h : chunkProf event records [] = (none, prof'))
    (hlen : (records.length : Int) < 9223372036854775808) :
    (prof'.map (fun kv => kv.2.count)).sum = (records.countP slowQuery : Int) := by
  have hfold := chunkProf_ok event key hsome hnone records [] prof' h
  have hle : records.countP slowQuery ≤ records.length := List.countP_le_length _
  have hl : ((records.filter slowQuery).map (eventOf key)).length = records.countP slowQuery := by
    rw [List.length_map, List.countP_eq_length_filter]
  rw [hfold, sum_count_foldl_merge _ [] (by intro kv hkv; cases hkv)
    (by simp only [List.map_nil, List.sum_nil, zero_add, hl]; omega), hl]
  simp

/-- C18: the same event updates both accumulators.  After every sequence of
chunks that `process` handles without error from the initial state, the sum
of `count` over the keys of `queryProf` equals the sum of `count` over the
keys of `collectionProf`, and both equal the number of records with `msg`
equal to "Slow query" in those chunks, which is also the number of command
rows added.  The counts are `int64`; the run holds fewer than `2^63` records. -/
theorem both_accumulators_count_every_event (cfg : Config) (lib : Lib)
    (chunks : List (Int × List String)) (fs : FS) (s : State)
    (hrun : processAll cfg lib chunks (State.init fs) = (none, s))
    (hlen : ((allRecords lib chunks).length : Int) < 9223372036854775808) :
    (s.queryProf.map (fun kv => kv.2.count)).sum
        = (s.collectionProf.map (fun kv => kv.2.count)).sum ∧
      (s.queryProf.map (fun kv => kv.2.count)).sum
        = ((allRecords lib chunks).countP slowQuery : Int) ∧
      (commandRows lib (allRecords lib chunks)).length
        = (allRecords lib chunks).countP slowQuery := by
  have hp := processAll_prof cfg lib chunks (State.init fs) s hrun
  have hq := chunkProf_sum_count queryEvent queryHashOf queryEvent_some queryEvent_none _ _
    hp.1 hlen
  have hc := chunkProf_sum_count collectionEvent nsOf collectionEvent_some collectionEvent_none
    _ _ hp.2 hlen
  exact ⟨hq.trans hc.symm, hq,
    commandRows_length lib _ (processAll_ok_all cfg lib chunks _ s hrun)⟩

/-- C18 at a run of two chunks holding two slow-query events. -/
theorem both_accumulators_count_every_event_witness :
    (processAll sampleConfig sampleLib [(0, ["a", "x", "c"]), (100, ["b"])]
        (State.init noFiles)).1 = none ∧
      ((processAll sampleConfig sampleLib [(0, ["a", "x", "c"]), (100, ["b"])]
        (State.init noFiles)).2.queryProf.map (fun kv => kv.2.count)).sum = 2 ∧
      ((processAll sampleConfig sampleLib [(0, ["a", "x", "c"]), (100, ["b"])]
        (State.init noFiles)).2.collectionProf.map (fun kv => kv.2.count)).sum = 2 :=
  have h := both_accumulators_count_every_event sampleConfig sampleLib
    [(0, ["a", "x", "c"]), (100, ["b"])] noFiles _ (Prod.ext (by decide) rfl) (by decide)
  ⟨by decide, h.2.1.trans (by decide), (h.1.symm.trans h.2.1).trans (by decide)⟩

/-! ## Rotation loses nothing (C20) -/

/-- A sequence of calls of `addCommand` returns no error and keeps the layout
of the commands sink. -/
theorem addCommands_rotated (cfg : Config) (rows : List Row) (s : State) (added : List Row)
    (h : Rotated cfg.chunkSize (commandsFile cfg) added s.commands s.commandsCounter s.fs)
    (hN : 1 ≤ cfg.chunkSize)
    (hlen : (added.length : Int) + rows.length < 9223372036854775808) :
    ∃ s', addCommands cfg rows s = (none, s') ∧
      Rotated cfg.chunkSize (commandsFile cfg) (added ++ rows) s'.commands s'.commandsCounter
        s'.fs := by
  induction rows generalizing s added with
  | nil => exact ⟨s, rfl, by simpa using h⟩
  | cons row rest ih =>
    simp only [List.length_cons] at hlen
    push_cast at hlen
    obtain ⟨s1, h1, hrot1, -⟩ := addCommand_rotated cfg row s added h hN (by omega)
    obtain ⟨s2, h2, hrot2⟩ := ih s1 (added ++ [row]) hrot1
      (by simp only [List.length_append, List.length_singleton]; push_cast; omega)
    refine ⟨s2, ?_, by simpa using hrot2⟩
    unfold addCommands
    rw [h1]
    exact h2

/-- C20: for every chunk size `N ≥ 1` and every sequence of rows passed to
`addCommand` from an empty buffer, counter 0 and no pre-existing files, after
each call (after the first `n` rows, for every `n`) no error has been
returned, the buffer holds fewer than `N` rows, `commandsCounter` is the number
of files written so far, the files of index 0, 1, ..., `commandsCounter - 1`
hold one header and exactly `N` data rows each and no file of a later index
exists, and the data rows of those files in index order followed by the
buffer are the rows added so far. -/
theorem rotation_loses_nothing (cfg : Config) (N : Nat) (fs : FS) (rows : List Row) (n : Nat)
    (hN : 1 ≤ N) (hsize : cfg.chunkSize = (N : Int)) (hfs : ∀ name, fs name = none)
    (hlen : (rows.length : Int) < 9223372036854775808) :
    ∃ (s : State) (blocks : List (List Row)),
      addCommands cfg (rows.take n) (State.init fs) = (none, s) ∧
      s.commands.length < N ∧
      s.commandsCounter = (blocks.length : Int) ∧
      (∀ b ∈ blocks, b.length = N) ∧
      (∀ (k : Nat) (b : List Row), blocks[k]? = some b →
        s.fs (commandsFile cfg (k : Int)) = some (.file (commandsHeader :: b))) ∧
      (∀ k : Nat, blocks.length ≤ k → s.fs (commandsFile cfg (k : Int)) = none) ∧
      blocks.flatten ++ s.commands = rows.take n := by
  have hN' : (1 : Int) ≤ cfg.chunkSize := by rw [hsize]; exact_mod_cast hN
  obtain ⟨hinit, -⟩ := rotated_init cfg fs hN' hfs
  have hle : (rows.take n).length ≤ rows.length := by
    rw [List.length_take]
    exact Nat.min_le_right _ _
  obtain ⟨s, hs, blocks, hr, hblocks, hbuf, hcounter, hfiles, hnone⟩ :=
    addCommands_rotated cfg (rows.take n) (State.init fs) [] hinit hN'
      (by simp only [List.length_nil]; push_cast; omega)
  refine ⟨s, blocks, hs, ?_, hcounter, ?_, hfiles, hnone, ?_⟩
  · rw [hsize] at hbuf
    exact_mod_cast hbuf
  · intro b hb
    have := hblocks b hb
    rw [hsize] at this
    exact_mod_cast this
  · simpa using hr.symm

/-- C20 at chunk size 2 after five rows: two files of two rows, one row in the
buffer. -/
theorem rotation_loses_nothing_witness :
    ∃ (s : State) (blocks : List (List Row)),
      addCommands { sampleConfig with chunkSize := 2 }
        ([["r1"], ["r2"], ["r3"], ["r4"], ["r5"], ["r6"]].take 5) (State.init noFiles)
          = (none, s) ∧
      s.commands.length < 2 ∧ s.commandsCounter = (blocks.length : Int) ∧
      blocks.flatten ++ s.commands = [["r1"], ["r2"], ["r3"], ["r4"], ["r5"]] :=
  (rotation_loses_nothing { sampleConfig with chunkSize := 2 } 2 noFiles
    [["r1"], ["r2"], ["r3"], ["r4"], ["r5"], ["r6"]] 5 (by decide) rfl (fun _ => rfl)
    (by decide)).elim fun s h => h.elim fun blocks hb =>
      ⟨s, blocks, hb.1, hb.2.1, hb.2.2.1, hb.2.2.2.2.2.2⟩

/-! ## The collscans sink (C15) -/

/-- One call of `addCollscan` keeps the layout of the collscans sink, returns no
error and touches nothing but the buffer, the counter and the collscans files. -/
theorem addCollscan_rotated (cfg : Config) (row : Row) (s : State) (rows : List Row)
    (h : Rotated cfg.chunkSize (collscansFile cfg) rows s.collscans s.collscansCounter s.fs)
    (hN : 1 ≤ cfg.chunkSize) (hlen : (rows.length : Int) + 1 < 9223372036854775808) :
    ∃ s', addCollscan cfg row s = (none, s') ∧
      Rotated cfg.chunkSize (collscansFile cfg) (rows ++ [row]) s'.collscans s'.collscansCounter
        s'.fs ∧
      s'.commands = s.commands ∧ s'.commandsCounter = s.commandsCounter ∧
      (∀ name, (∀ k : Nat, name ≠ collscansFile cfg (k : Int)) → s'.fs name = s.fs name) := by
  obtain ⟨blocks, hrows, hblocks, hbuf, hcounter, hfiles, hnone⟩ := h
  unfold addCollscan
  simp only []
  by_cases hlt : ((s.collscans ++ [row]).length : Int) < cfg.chunkSize
  · rw [if_pos hlt]
    refine ⟨_, rfl, ⟨blocks, ?_, hblocks, hlt, hcounter, hfiles, hnone⟩, rfl, rfl, fun _ _ => rfl⟩
    simp [hrows]
  · rw [if_neg hlt]
    have hfull : ((s.collscans ++ [row]).length : Int) = cfg.chunkSize := by
      simp only [List.length_append, List.length_singleton] at hlt ⊢
      push_cast at hlt ⊢
      omega
    have hfree : s.fs (collscansFile cfg s.collscansCounter) = none := by
      rw [hcounter]
      exact hnone blocks.length (le_refl _)
    rw [saveCommands_new _ _ _ hfree]
    simp only []
    have hle := length_le_length_flatten cfg.chunkSize hN blocks hblocks
    have hrl : blocks.flatten.length ≤ rows.length := by
      rw [hrows]
      simp
    have hwrap : wrapInt64 (s.collscansCounter + 1) = ((blocks.length + 1 : Nat) : Int) := by
      rw [hcounter, wrapInt64_of_lt _ (by omega) (by omega)]
      push_cast
      rfl
    refine ⟨_, rfl, ⟨blocks ++ [s.collscans ++ [row]], ?_, ?_, ?_, ?_, ?_, ?_⟩, rfl, rfl, ?_⟩
    · simp [hrows]
    · intro b hb
      rcases List.mem_append.1 hb with hb | hb
      · exact hblocks b hb
      · rw [List.mem_singleton.1 hb]
        exact hfull
    · simp only [List.length_nil]
      omega
    · simp only [List.length_append, List.length_singleton]
      exact hwrap
    · intro k b hk
      simp only []
      by_cases hkl : k < blocks.length
      · rw [List.getElem?_append_left hkl] at hk
        have hne : collscansFile cfg (k : Int) ≠ collscansFile cfg s.collscansCounter := by
          rw [hcounter]
          intro heq
          have := collscansFile_injective cfg _ _ heq
          omega
        rw [if_neg hne]
        exact hfiles k b hk
      · have hk' : k = blocks.length := by
          by_contra hne
          have : blocks.length + 1 ≤ k := by omega
          rw [List.getElem?_eq_none (by simp; omega)] at hk
          cases hk
        subst hk'
        rw [List.getElem?_append_right (le_refl _)] at hk
        simp only [Nat.sub_self, List.getElem?_cons_zero, Option.some.injEq] at hk
        subst hk
        rw [hcounter, if_pos rfl]
    · intro k hk
      simp only [List.length_append, List.length_singleton] at hk
      simp only []
      have hne : collscansFile cfg (k : Int) ≠ collscansFile cfg s.collscansCounter := by
        rw [hcounter]
        intro heq
        have := collscansFile_injective cfg _ _ heq
        omega
      rw [if_neg hne]
      exact hnone k (by omega)
    · intro name hname
      simp only []
      have hne : name ≠ collscansFile cfg s.collscansCounter := by
        rw [hcounter]
        exact hname blocks.length
      rw [if_neg hne]

/-- `addCommand` leaves the collscans sink alone: the buffer, the counter and
every file that is not a commands file. -/
theorem addCommand_frame (cfg : Config) (row : Row) (s : State) :
    (addCommand cfg row s).2.collscans = s.collscans ∧
      (addCommand cfg row s).2.collscansCounter = s.collscansCounter ∧
      (∀ name, (∀ k : Int, name ≠ commandsFile cfg k) →
        (addCommand cfg row s).2.fs name = s.fs name) := by
  unfold addCommand
  simp only []
  split_ifs
  · exact ⟨rfl, rfl, fun _ _ => rfl⟩
  · have hframe := saveCommands_frame (s.commands ++ [row])
      (commandsFile cfg s.commandsCounter) s.fs
    rcases hs : saveCommands (s.commands ++ [row]) (commandsFile cfg s.commandsCounter) s.fs
      with ⟨_ | err, fs1⟩
    · rw [hs] at hframe
      exact ⟨rfl, rfl, fun name hname => hframe name (hname _)⟩
    · rw [hs] at hframe
      exact ⟨rfl, rfl, fun name hname => hframe name (hname _)⟩

/-- The layout of a sink depends on its own files only. -/
theorem Rotated.frame_of (chunkSize : Int) (file : Int → String) (rows buf : List Row)
    (counter : Int) (fs fs' : FS) (h : Rotated chunkSize file rows buf counter fs)
    (hfs : ∀ k : Nat, fs' (file (k : Int)) = fs (file (k : Int))) :
    Rotated chunkSize file rows buf counter fs' := by
  obtain ⟨blocks, h1, h2, h3, h4, h5, h6⟩ := h
  exact ⟨blocks, h1, h2, h3, h4, fun k b hk => by rw [hfs]; exact h5 k b hk,
    fun k hk => by rw [hfs]; exact h6 k hk⟩

/-- A pass of `chunkCommands` that returns no error has added the COLLSCAN rows
of the records, in order, to the collscans sink, whose layout it keeps. -/
theorem chunkCommands_rotated_coll (cfg : Config) (lib : Lib) (records : List JMap)
    (s s' : State) (rows : List Row)
    (h : Rotated cfg.chunkSize (collscansFile cfg) rows s.collscans s.collscansCounter s.fs)
    (hN : 1 ≤ cfg.chunkSize)
    (hlen : (rows.length : Int) + records.length < 9223372036854775808)
    (hrun : chunkCommands cfg lib records s = (none, s')) :
    Rotated cfg.chunkSize (collscansFile cfg) (rows ++ collscanRows lib records) s'.collscans
      s'.collscansCounter s'.fs := by
  induction records generalizing s rows with
  | nil =>
    simp only [chunkCommands, Prod.mk.injEq, true_and] at hrun
    subst hrun
    simpa [collscanRows] using h
  | cons r rest ih =>
    rw [chunkCommands_cons] at hrun
    simp only [List.length_cons] at hlen
    push_cast at hlen
    cases hc : commandOf lib r with
    | error err => simp [hc] at hrun
    | ok o =>
      cases o with
      | none =>
        simp only [hc] at hrun
        have := ih s rows h (by omega) hrun
        simpa [collscanRows, hc] using this
      | some c =>
        simp only [hc] at hrun
        have hf := addCommand_frame cfg (c.row lib) s
        rcases h1 : addCommand cfg (c.row lib) s with ⟨_ | err, s1⟩
        · rw [h1] at hrun hf
          simp only [] at hrun hf
          have hrot1 : Rotated cfg.chunkSize (collscansFile cfg) rows s1.collscans
              s1.collscansCounter s1.fs := by
            rw [hf.1, hf.2.1]
            exact Rotated.frame_of _ _ _ _ _ _ _ h (fun k =>
              hf.2.2 _ (fun j heq => commandsFile_ne_collscansFile cfg _ _ heq.symm))
          by_cases hplan : c.planSummary = "COLLSCAN"
          · rw [if_pos hplan] at hrun
            obtain ⟨s2, h2, hrot2, -⟩ :=
              addCollscan_rotated cfg (c.row lib) s1 rows hrot1 hN (by omega)
            rw [h2] at hrun
            simp only [] at hrun
            have hrows : rows ++ collscanRows lib (r :: rest)
                = (rows ++ [c.row lib]) ++ collscanRows lib rest := by
              simp [collscanRows, hc, hplan]
            rw [hrows]
            exact ih s2 (rows ++ [c.row lib]) hrot2
              (by simp only [List.length_append, List.length_singleton]; push_cast; omega) hrun
          · rw [if_neg hplan] at hrun
            have hrows : rows ++ collscanRows lib (r :: rest)
                = rows ++ collscanRows lib rest := by
              simp [collscanRows, hc, hplan]
            rw [hrows]
            exact ih s1 rows hrot1 (by omega) hrun
        · rw [h1] at hrun
          simp at hrun

theorem collscanRows_append (lib : Lib) (a b : List JMap) :
    collscanRows lib (a ++ b) = collscanRows lib a ++ collscanRows lib b := by
  simp [collscanRows, List.filterMap_append]

theorem collscanRows_length_le (lib : Lib) (records : List JMap) :
    (collscanRows lib records).length ≤ records.length :=
  List.length_filterMap_le _ _

/-- The collscans rows are the commands rows whose Plan column is "COLLSCAN". -/
theorem collscanRows_eq_filter (lib : Lib) (records : List JMap) :
    collscanRows lib records =
      (commandRows lib records).filter (fun row => decide (row[9]? = some "COLLSCAN")) := by
  induction records with
  | nil => rfl
  | cons r rest ih =>
    unfold collscanRows commandRows at ih ⊢
    simp only [List.filterMap_cons]
    cases hc : commandOf lib r with
    | error err => simpa using ih
    | ok o =>
      cases o with
      | none => simpa using ih
      | some c =>
        by_cases hplan : c.planSummary = "COLLSCAN"
        · simp only [hplan, if_true, List.filter_cons]
          have : decide ((c.row lib)[9]? = some "COLLSCAN") = true := by
            simp [Command.row, hplan]
          rw [this, if_pos rfl, ih]
        · simp only [hplan, if_false, List.filter_cons]
          have : decide ((c.row lib)[9]? = some "COLLSCAN") = false := by
            simp [Command.row, hplan]
          rw [this]
          simpa using ih

/-- A run of chunks processed without error has added the COLLSCAN rows of all
its records, in order, to the collscans sink, whose layout it keeps. -/
theorem processAll_rotated_coll (cfg : Config) (lib : Lib) (chunks : List (Int × List String))
    (s s' : State) (rows : List Row)
    (h : Rotated cfg.chunkSize (collscansFile cfg) rows s.collscans s.collscansCounter s.fs)
    (hN : 1 ≤ cfg.chunkSize)
    (hlen : (rows.length : Int) + (allRecords lib chunks).length < 9223372036854775808)
    (hrun : processAll cfg lib chunks s = (none, s')) :
    Rotated cfg.chunkSize (collscansFile cfg) (rows ++ collscanRows lib (allRecords lib chunks))
      s'.collscans s'.collscansCounter s'.fs := by
  induction chunks generalizing s rows with
  | nil =>
    simp only [processAll, Prod.mk.injEq, true_and] at hrun
    subst hrun
    simpa [allRecords, collscanRows] using h
  | cons c rest ih =>
    obtain ⟨i, chunk⟩ := c
    unfold processAll at hrun
    simp only [allRecords, List.length_append] at hlen
    push_cast at hlen
    rcases h1 : process cfg lib i chunk s with ⟨_ | err, s1⟩
    · rw [h1] at hrun
      simp only [] at hrun
      obtain ⟨fs1, s2, hconv, hcmd, -, -, -, -, e3, e4, e5⟩ :=
        process_ok_parts cfg lib i chunk s s1 h1
      have hframe := chunkConvert_frame cfg lib i (parse lib chunk).1 s.fs
      rw [hconv] at hframe
      simp only [] at hframe
      have hrot0 : Rotated cfg.chunkSize (collscansFile cfg) rows s.collscans
          s.collscansCounter fs1 :=
        Rotated.frame_of _ _ _ _ _ _ _ h
          (fun k => hframe _ (collscansFile_ne_logsFile cfg _ _))
      have hrot2 := chunkCommands_rotated_coll cfg lib (parse lib chunk).1
        { s with fs := fs1 } s2 rows hrot0 hN (by omega) hcmd
      rw [← e3, ← e4, ← e5] at hrot2
      have hle := collscanRows_length_le lib (parse lib chunk).1
      have := ih s1 (rows ++ collscanRows lib (parse lib chunk).1) hrot2
        (by simp only [List.length_append]; push_cast; omega) hrun
      simpa [allRecords, collscanRows_append, List.append_assoc] using this
    · rw [h1] at hrun
      simp at hrun

/-- The end of `main` over regular files, seen from the collscans sink: a
non-empty collscans buffer goes to the file of the current index, and no other
collscans file changes. -/
theorem flushRemaining_spec_coll (cfg : Config) (s : State) (c : Nat) (hall : AllFiles s.fs)
    (hc : s.collscansCounter = (c : Int)) :
    ∃ s', flushRemaining cfg s = (none, s') ∧
      (∀ k : Nat, k ≠ c ∨ s.collscans = [] →
        s'.fs (collscansFile cfg (k : Int)) = s.fs (collscansFile cfg (k : Int))) ∧
      (s.collscans ≠ [] → s.fs (collscansFile cfg (c : Int)) = none →
        s'.fs (collscansFile cfg (c : Int)) = some (.file (commandsHeader :: s.collscans))) := by
  have h1 : ∃ fs1, (if s.commands.length > 0 then
        saveCommands s.commands (commandsFile cfg s.commandsCounter) s.fs
      else (none, s.fs)) = (none, fs1) ∧ AllFiles fs1 ∧
      ∀ k : Int, fs1 (collscansFile cfg k) = s.fs (collscansFile cfg k) := by
    by_cases hlen : s.commands.length > 0
    · rw [if_pos hlen]
      have hs := saveCommands_allFiles s.commands (commandsFile cfg s.commandsCounter) s.fs hall
      exact ⟨_, Prod.ext hs.1 rfl, hs.2, fun k =>
        saveCommands_frame _ _ _ _ (fun heq => commandsFile_ne_collscansFile cfg _ _ heq.symm)⟩
    · rw [if_neg hlen]
      exact ⟨s.fs, rfl, hall, fun _ => rfl⟩
  obtain ⟨fs1, hfs1, hall1, hframe1⟩ := h1
  have h2 : ∃ fs2, (if s.collscans.length > 0 then
        saveCommands s.collscans (collscansFile cfg s.collscansCounter) fs1
      else (none, fs1)) = (none, fs2) ∧
      (∀ k : Nat, k ≠ c ∨ s.collscans = [] →
        fs2 (collscansFile cfg (k : Int)) = fs1 (collscansFile cfg (k : Int))) ∧
      (s.collscans ≠ [] → fs1 (collscansFile cfg (c : Int)) = none →
        fs2 (collscansFile cfg (c : Int)) = some (.file (commandsHeader :: s.collscans))) := by
    by_cases hlen : s.collscans.length > 0
    · rw [if_pos hlen]
      have hne : s.collscans ≠ [] := fun h => by simp [h] at hlen
      have hs := saveCommands_allFiles s.collscans (collscansFile cfg s.collscansCounter) fs1
        hall1
      refine ⟨_, Prod.ext hs.1 rfl, ?_, ?_⟩
      · intro k hk
        rcases hk with hk | hk
        · apply saveCommands_frame
          rw [hc]
          intro heq
          exact hk (collscansFile_injective cfg _ _ heq)
        · exact absurd hk hne
      · intro _ hfree
        rw [hc, saveCommands_new _ _ _ hfree]
        simp
    · rw [if_neg hlen]
      have he : s.collscans = [] := by
        cases hs : s.collscans with
        | nil => rfl
        | cons a l => simp [hs] at hlen
      exact ⟨fs1, rfl, fun _ _ => rfl, fun hne => absurd he hne⟩
  obtain ⟨fs2, hfs2, hframe2, hnew2⟩ := h2
  refine ⟨{ s with fs := fs2 }, ?_, ?_, ?_⟩
  · unfold flushRemaining
    rw [hfs1]
    simp only []
    rw [hfs2]
  · intro k hk
    simp only []
    rw [hframe2 k hk, hframe1]
  · intro hne hfree
    simp only []
    rw [hnew2 hne (by rw [hframe1]; exact hfree)]

/-- After the last flush the files of a sink hold all the rows added to it. -/
theorem filesHold_of_rotated (chunkSize : Int) (file : Int → String) (rows buf : List Row)
    (c : Nat) (fs fs' : FS) (h : Rotated chunkSize file rows buf (c : Int) fs)
    (hkeep : ∀ k : Nat, k ≠ c ∨ buf = [] → fs' (file (k : Int)) = fs (file (k : Int)))
    (hnew : buf ≠ [] → fs (file (c : Int)) = none →
      fs' (file (c : Int)) = some (.file (commandsHeader :: buf))) :
    FilesHold file rows fs' := by
  obtain ⟨blocks, hrows, hblocks, hbuf, hcounter, hfiles, hnone⟩ := h
  have hc : c = blocks.length := by exact_mod_cast hcounter
  subst hc
  by_cases hb : buf = []
  · refine ⟨blocks, by simp [hrows, hb], ?_, ?_⟩
    · intro k b hk
      rw [hkeep k (Or.inr hb)]
      exact hfiles k b hk
    · intro k hk
      rw [hkeep k (Or.inr hb)]
      exact hnone k hk
  · refine ⟨blocks ++ [buf], by simp [hrows], ?_, ?_⟩
    · intro k b hk
      by_cases hkl : k < blocks.length
      · rw [List.getElem?_append_left hkl] at hk
        rw [hkeep k (Or.inl (by omega))]
        exact hfiles k b hk
      · have hk' : k = blocks.length := by
          by_contra hne
          rw [List.getElem?_eq_none (by simp; omega)] at hk
          cases hk
        subst hk'
        rw [List.getElem?_append_right (le_refl _)] at hk
        simp only [Nat.sub_self, List.getElem?_cons_zero, Option.some.injEq] at hk
        subst hk
        exact hnew hb (hnone _ (le_refl _))
    · intro k hk
      simp only [List.length_append, List.length_singleton] at hk
      rw [hkeep k (Or.inl (by omega))]
      exact hnone k (by omega)

theorem rotated_init_coll (cfg : Config) (fs : FS) (hN : 1 ≤ cfg.chunkSize)
    (hfs : ∀ name, fs name = none) :
    Rotated cfg.chunkSize (collscansFile cfg) [] (State.init fs).collscans
      (State.init fs).collscansCounter (State.init fs).fs := by
  exact ⟨[], by simp [State.init], by simp, by simp [State.init]; omega, by simp [State.init],
    by simp, fun k _ => hfs _⟩

/-- C15: for every run over an empty output directory that completes without
error (the chunks processed, then the last flush), the data rows of the
collscans files, in file-index order and then row order, are exactly the rows
of the commands files whose Plan column equals "COLLSCAN", in the same relative
order; the commands files hold the rows of all slow-query records. -/
theorem collscans_are_commands_with_plan_collscan (cfg : Config) (lib : Lib)
    (chunks : List (Int × List String)) (fs : FS) (s : State)
    (hN : 1 ≤ cfg.chunkSize) (hfs : ∀ name, fs name = none)
    (hrun : processAll cfg lib chunks (State.init fs) = (none, s))
    (hlen : ((allRecords lib chunks).length : Int) < 9223372036854775808) :
    ∃ s', flushRemaining cfg s = (none, s') ∧
      FilesHold (commandsFile cfg) (commandRows lib (allRecords lib chunks)) s'.fs ∧
      FilesHold (collscansFile cfg)
        ((commandRows lib (allRecords lib chunks)).filter
          (fun row => decide (row[9]? = some "COLLSCAN"))) s'.fs := by
  obtain ⟨hinit, hall0⟩ := rotated_init cfg fs hN hfs
  have hinitc := rotated_init_coll cfg fs hN hfs
  obtain ⟨hrot, hall⟩ := processAll_rotated cfg lib chunks (State.init fs) s [] hinit hN
    (by simpa using hlen) hall0 hrun
  have hrotc := processAll_rotated_coll cfg lib chunks (State.init fs) s [] hinitc hN
    (by simpa using hlen) hrun
  rw [List.nil_append] at hrot hrotc
  have hc : ∃ c : Nat, s.commandsCounter = (c : Int) := by
    obtain ⟨blocks, -, -, -, h, -⟩ := hrot
    exact ⟨blocks.length, h⟩
  have hd : ∃ d : Nat, s.collscansCounter = (d : Int) := by
    obtain ⟨blocks, -, -, -, h, -⟩ := hrotc
    exact ⟨blocks.length, h⟩
  obtain ⟨c, hc⟩ := hc
  obtain ⟨d, hd⟩ := hd
  obtain ⟨s', hflush, -, -, hkeep, hnew⟩ := flushRemaining_spec cfg s c hall hc
  obtain ⟨s'', hflush', hkeepc, hnewc⟩ := flushRemaining_spec_coll cfg s d hall hd
  rw [hflush] at hflush'
  simp only [Prod.mk.injEq, true_and] at hflush'
  subst hflush'
  rw [hc] at hrot
  rw [hd] at hrotc
  refine ⟨s', hflush, filesHold_of_rotated _ _ _ _ _ _ _ hrot hkeep hnew, ?_⟩
  rw [← collscanRows_eq_filter]
  exact filesHold_of_rotated _ _ _ _ _ _ _ hrotc hkeepc hnewc

/-- C15 at chunk size 2 on two chunks holding three collection scans and one
slow query with another plan: the commands files hold four rows, the collscans
files the three rows whose Plan column is "COLLSCAN", two in the file of index
0 and the third, flushed at the end, in the file of index 1. -/
theorem collscans_are_commands_with_plan_collscan_witness :
    (processAll smallConfig scanLib [(0, ["s1", "a"]), (2, ["s2", "c", "s3"])]
        (State.init noFiles)).1 = none ∧
      (commandRows scanLib (allRecords scanLib [(0, ["s1", "a"]), (2, ["s2", "c", "s3"])])).length
        = 4 ∧
      (commandRows scanLib (allRecords scanLib [(0, ["s1", "a"]), (2, ["s2", "c", "s3"])])).filter
          (fun row => decide (row[9]? = some "COLLSCAN"))
        = [(sampleScan "S1"), (sampleScan "S2"), (sampleScan "S3")].map
            (fun r => match commandOf scanLib r with
              | .ok (some c) => c.row scanLib
              | _ => []) ∧
      ∃ s', flushRemaining smallConfig
          (processAll smallConfig scanLib [(0, ["s1", "a"]), (2, ["s2", "c", "s3"])]
            (State.init noFiles)).2 = (none, s') ∧
        FilesHold (commandsFile smallConfig)
          (commandRows scanLib (allRecords scanLib [(0, ["s1", "a"]), (2, ["s2", "c", "s3"])]))
          s'.fs ∧
        FilesHold (collscansFile smallConfig)
          ((commandRows scanLib
            (allRecords scanLib [(0, ["s1", "a"]), (2, ["s2", "c", "s3"])])).filter
            (fun row => decide (row[9]? = some "COLLSCAN"))) s'.fs :=
  ⟨by decide, by decide, by decide,
    collscans_are_commands_with_plan_collscan smallConfig scanLib
      [(0, ["s1", "a"]), (2, ["s2", "c", "s3"])] noFiles _ (by decide) (fun _ => rfl)
      (Prod.ext (by decide) rfl) (by decide)⟩

/-! ## The chunking loop -/

theorem mainLoop_eq_processAll (cfg : Config) (lib : Lib) (lines : List String) (N : Nat)
    (hN : 1 ≤ N) (hsize : cfg.chunkSize = (N : Int))
    (hint : N < 9223372036854775808) (hlen : lines.length < 4611686018427387904)
    (fuel k : Nat) (s : State) (hfuel : (lines.drop (k * N)).length ≤ fuel) :
    mainLoop cfg lib lines fuel ((k * N : Nat) : Int) s =
      processAll cfg lib (chunkList N fuel k (lines.drop (k * N))) s := by
  induction fuel generalizing k s with
  | zero =>
    have hnil : lines.drop (k * N) = [] := List.length_eq_zero.1 (Nat.le_zero.1 hfuel)
    have hge : lines.length ≤ k * N := List.drop_eq_nil_iff.1 hnil
    have hnot : ¬ (((k * N : Nat) : Int) < (lines.length : Int)) := by
      exact_mod_cast not_lt.2 hge
    simp only [mainLoop, if_neg hnot, chunkList, processAll]
  | succ fuel ih =>
    unfold mainLoop chunkList
    by_cases hlt : k * N < lines.length
    · have hlt' : ((k * N : Nat) : Int) < (lines.length : Int) := by exact_mod_cast hlt
      have hne : lines.drop (k * N) ≠ [] := by
        intro h
        have := List.drop_eq_nil_iff.1 h
        omega
      rw [if_pos hlt', if_neg hne]
      have hwrap : wrapInt64 (((k * N : Nat) : Int) + cfg.chunkSize)
          = (((k + 1) * N : Nat) : Int) := by
        have hsum : k * N + N < 9223372036854775808 := by
          rcases Nat.eq_zero_or_pos k with hk | hk
          · subst hk
            omega
          · have : N ≤ k * N := Nat.le_mul_of_pos_left N hk
            omega
        have hsum' : ((k * N : Nat) : Int) + (N : Int) < 9223372036854775808 := by
          exact_mod_cast hsum
        rw [hsize, wrapInt64_of_lt _ (by positivity) hsum']
        push_cast
        ring
      simp only [hwrap]
      have hnopanic : ¬ (((k * N : Nat) : Int) < 0 ∨
          (if (((k + 1) * N : Nat) : Int) > (lines.length : Int) then (lines.length : Int)
            else (((k + 1) * N : Nat) : Int)) < ((k * N : Nat) : Int)) := by
        push_neg
        refine ⟨by positivity, ?_⟩
        split_ifs
        · omega
        · push_cast
          nlinarith
      rw [if_neg hnopanic]
      have hchunk : List.take
          ((if (((k + 1) * N : Nat) : Int) > (lines.length : Int) then (lines.length : Int)
            else (((k + 1) * N : Nat) : Int)) - ((k * N : Nat) : Int)).toNat
          (List.drop ((k * N : Nat) : Int).toNat lines)
          = (lines.drop (k * N)).take N := by
        rw [Int.toNat_ofNat]
        split_ifs with hgt
        · have h1 : ((lines.length : Int) - ((k * N : Nat) : Int)).toNat
              = (lines.drop (k * N)).length := by
            rw [List.length_drop]
            omega
          have h2 : (lines.drop (k * N)).length ≤ N := by
            rw [List.length_drop]
            have : lines.length < (k + 1) * N := by exact_mod_cast hgt
            have : (k + 1) * N = k * N + N := by ring
            omega
          rw [h1, List.take_length, List.take_of_length_le h2]
        · have h1 : ((((k + 1) * N : Nat) : Int) - ((k * N : Nat) : Int)).toNat = N := by
            have : (k + 1) * N = k * N + N := by ring
            omega
          rw [h1]
      rw [hchunk]
      have hdrop : (lines.drop (k * N)).drop N = lines.drop ((k + 1) * N) := by
        rw [List.drop_drop]
        congr 1
        ring
      rw [hdrop]
      unfold processAll
      rcases hp : process cfg lib ((k * N : Nat) : Int) ((lines.drop (k * N)).take N) s
        with ⟨_ | err, s1⟩
      · simp only []
        apply ih (k + 1) s1
        have h1 := List.length_drop (k * N) lines
        have h2 := List.length_drop ((k + 1) * N) lines
        have h3 : (k + 1) * N = k * N + N := by ring
        omega
      · rfl
    · have hnot : ¬ (((k * N : Nat) : Int) < (lines.length : Int)) := by
        exact_mod_cast hlt
      have hnil : lines.drop (k * N) = [] := List.drop_eq_nil_iff.2 (by omega)
      rw [if_neg hnot, if_pos hnil]
      rfl

/-- The chunks of `chunkList`, one by one: chunk `j` starts at line `j * N` of
the lines handed over and holds the next `N` of them. -/
theorem chunkList_getElem? (N : Nat) (hN : 1 ≤ N) (fuel k : Nat) (rest : List String)
    (hfuel : rest.length ≤ fuel) (j : Nat) (c : Int × List String)
    (h : (chunkList N fuel k rest)[j]? = some c) :
    c.1 = (((k + j) * N : Nat) : Int) ∧ c.2 = (rest.drop (j * N)).take N ∧
      j * N < rest.length := by
  induction fuel generalizing k rest j with
  | zero => simp [chunkList] at h
  | succ fuel ih =>
    unfold chunkList at h
    by_cases hnil : rest = []
    · simp [hnil] at h
    · rw [if_neg hnil] at h
      have hpos : 0 < rest.length := List.length_pos.2 hnil
      cases j with
      | zero =>
        simp only [List.getElem?_cons_zero, Option.some.injEq] at h
        subst h
        simp [hpos]
      | succ j =>
        simp only [List.getElem?_cons_succ] at h
        have hlen : (rest.drop N).length ≤ fuel := by
          rw [List.length_drop]
          omega
        obtain ⟨h1, h2, h3⟩ := ih (k + 1) (rest.drop N) hlen j h
        rw [List.length_drop] at h3
        refine ⟨?_, ?_, ?_⟩
        · rw [h1]
          congr 2
          ring
        · rw [h2, List.drop_drop]
          congr 2
          ring
        · have : (j + 1) * N = j * N + N := by ring
          omega

/-- The chunks of `chunkList`, concatenated, are the lines handed over. -/
theorem chunkList_flatten (N : Nat) (hN : 1 ≤ N) (fuel k : Nat) (rest : List String)
    (hfuel : rest.length ≤ fuel) :
    ((chunkList N fuel k rest).map Prod.snd).flatten = rest := by
  induction fuel generalizing k rest with
  | zero =>
    have : rest = [] := List.length_eq_zero.1 (Nat.le_zero.1 hfuel)
    simp [chunkList, this]
  | succ fuel ih =>
    unfold chunkList
    by_cases hnil : rest = []
    · simp [hnil]
    · rw [if_neg hnil]
      have hpos : 0 < rest.length := List.length_pos.2 hnil
      have hlen : (rest.drop N).length ≤ fuel := by
        rw [List.length_drop]
        omega
      simp only [List.map_cons, List.flatten_cons, ih (k + 1) (rest.drop N) hlen,
        List.take_append_drop]

theorem tdiv_mul_natCast (k N : Nat) (hN : 1 ≤ N) :
    Int.tdiv (((k * N : Nat) : Int)) (N : Int) = (k : Int) := by
  rw [← Int.ofNat_tdiv]
  congr 1
  exact Nat.mul_div_cancel k (by omega)

/-! ## The end-to-end scenario (C16) -/

/-- A collscans file is never the query report. -/
theorem collscansFile_ne_queryProf (cfg : Config) (k : Int) :
    collscansFile cfg k ≠ cfg.outputDir ++ "/" ++ (cfg.outputPrefix ++ "_query_prof.csv") := by
  intro h
  unfold collscansFile at h
  have := congrArg String.data h
  simp only [String.data_append, List.append_assoc] at this
  have h3 := List.append_cancel_left (List.append_cancel_left (List.append_cancel_left this))
  simp at h3

/-- A collscans file is never the collection report. -/
theorem collscansFile_ne_collectionProf (cfg : Config) (k : Int) :
    collscansFile cfg k ≠ cfg.outputDir ++ "/" ++ (cfg.outputPrefix ++ "_collection_prof.csv") := by
  intro h
  unfold collscansFile at h
  have := congrArg String.data h
  simp only [String.data_append, List.append_assoc] at this
  have h3 := List.append_cancel_left (List.append_cancel_left (List.append_cancel_left this))
  simp at h3

theorem scenario_fs :
    (main sampleConfig scenarioLib scenarioLines noFiles).2.fs = fun name =>
      if name = sampleConfig.outputDir ++ "/" ++ (sampleConfig.outputPrefix ++ "_collection_prof.csv")
      then some (.file (profRows scenarioLib collectionProfHeader
        (main sampleConfig scenarioLib scenarioLines noFiles).2.collectionProf))
      else if name = sampleConfig.outputDir ++ "/" ++ (sampleConfig.outputPrefix ++ "_query_prof.csv")
      then some (.file (profRows scenarioLib queryProfHeader
        (main sampleConfig scenarioLib scenarioLines noFiles).2.queryProf))
      else if name = commandsFile sampleConfig 0
      then some (.file (commandsHeader ::
        (main sampleConfig scenarioLib scenarioLines noFiles).2.commands))
      else if name = logsFile sampleConfig 0
      then some (.file [logsHeader, logsRow scenarioLib scenarioSlow,
        logsRow scenarioLib sampleOther])
      else none := by
  rfl

/-- The `float64` value of 0.02, which adding to 0 leaves as it is. -/
theorem f64_fiftieth :
    Float64.round (1 / 50) = .fin (5764607523034235 / 288230376151711744) ∧
      Float64.round (5764607523034235 / 288230376151711744)
        = .fin (5764607523034235 / 288230376151711744) := by
  constructor
  · rw [f64_round_pos (1 / 50) (-6) 5764607523034235 (by norm_num) (by norm_num) (by norm_num)
      (roundHalfEven_of_near _ _ (by norm_num [abs_lt])) (by norm_num)]
    norm_num
  · rw [f64_round_pos _ (-6) 5764607523034235 (by norm_num) (by norm_num) (by norm_num)
      (roundHalfEven_of_near _ _ (by norm_num [abs_lt])) (by norm_num)]
    norm_num

theorem scenario_queryProf :
    (main sampleConfig scenarioLib scenarioLines noFiles).2.queryProf =
      [("H1", { docsExamined := 0, nreturned := 0, reslen := 0,
                duration := .fin (5764607523034235 / 288230376151711744), count := 1,
                min := 1200, max := 1200 })] := by
  have h : (main sampleConfig scenarioLib scenarioLines noFiles).2.queryProf =
      [("H1", mergeStat none scenarioEvent)] := by
    rfl
  have hlt : (1200 : Float64) < maxFloat64 := by
    rw [f64_ofNat, maxFloat64, f64_fin_lt_fin]
    norm_num
  have hgt : (1200 : Float64) > 0 := by
    rw [gt_iff_lt, f64_ofNat, f64_ofNat, f64_fin_lt_fin]
    norm_num
  have hdur : (0 : Float64) + 1200 / 60000 = .fin (5764607523034235 / 288230376151711744) := by
    rw [f64_div, f64_ofNat, f64_ofNat]
    simp only [Float64.div]
    norm_num
    rw [f64_fiftieth.1, f64_add]
    simp only [Float64.add, zero_add]
    exact f64_fiftieth.2
  rw [h]
  simp only [mergeStat, profMeta.zero, scenarioEvent, if_pos hlt, if_pos hgt, hdur,
    f64_zero_add_zero, f64_zero_div 1048576 (by norm_num)]
  rfl

/-- C16: the run of `main` at chunk size 100 on three lines, one that is not
JSON, one "Slow query" event (1200 ms, nothing returned, namespace "db.coll",
no plan summary) and one other event, over an empty output directory.  It ends
without error; two records parse and the transcript file of index 0 holds the
header and their two rows; the commands buffer holds exactly one row, which the
last flush writes to the commands file of index 0; the query accumulator has
exactly one entry, with count 1, duration `1200 / 60000` minutes, which is the
`float64` 0.02 (`5764607523034235 / 2^58`), and ratio `math.MaxFloat64`, and the query report has one row under its header; the
collscans buffer is empty and no collscans file exists. -/
theorem end_to_end_scenario :
    (main sampleConfig scenarioLib scenarioLines noFiles).1 = none ∧
    (parse scenarioLib scenarioLines).1 = [scenarioSlow, sampleOther] ∧
    (main sampleConfig scenarioLib scenarioLines noFiles).2.fs (logsFile sampleConfig 0)
      = some (.file [logsHeader, logsRow scenarioLib scenarioSlow,
          logsRow scenarioLib sampleOther]) ∧
    (main sampleConfig scenarioLib scenarioLines noFiles).2.commands
      = commandRows scenarioLib [scenarioSlow, sampleOther] ∧
    (main sampleConfig scenarioLib scenarioLines noFiles).2.commands.length = 1 ∧
    (main sampleConfig scenarioLib scenarioLines noFiles).2.fs (commandsFile sampleConfig 0)
      = some (.file (commandsHeader ::
          (main sampleConfig scenarioLib scenarioLines noFiles).2.commands)) ∧
    (∃ value : profMeta,
      (main sampleConfig scenarioLib scenarioLines noFiles).2.queryProf = [("H1", value)] ∧
      value.count = 1 ∧ value.duration = Float64.round (2 / 100) ∧
      Float64.round (2 / 100) = .fin (5764607523034235 / 288230376151711744) ∧
      ratio value = maxFloat64 ∧
      ∃ row, (main sampleConfig scenarioLib scenarioLines noFiles).2.fs
          (sampleConfig.outputDir ++ "/" ++ (sampleConfig.outputPrefix ++ "_query_prof.csv"))
        = some (.file [queryProfHeader, row])) ∧
    (main sampleConfig scenarioLib scenarioLines noFiles).2.collscans = [] ∧
    ∀ k : Int,
      (main sampleConfig scenarioLib scenarioLines noFiles).2.fs (collscansFile sampleConfig k)
        = none := by
  refine ⟨by decide, by rfl, by decide, by decide, by decide, by decide, ?_, by decide, ?_⟩
  · have h02 : Float64.round (2 / 100) = .fin (5764607523034235 / 288230376151711744) := by
      have := f64_fiftieth.1
      norm_num at this ⊢
      exact this
    refine ⟨_, scenario_queryProf, rfl, h02.symm, h02, by simp [ratio], ?_⟩
    rw [scenario_fs, scenario_queryProf]
    exact ⟨_, by rfl⟩
  · intro k
    rw [scenario_fs]
    simp only []
    rw [if_neg (collscansFile_ne_collectionProf sampleConfig k),
      if_neg (collscansFile_ne_queryProf sampleConfig k),
      if_neg (Ne.symm (commandsFile_ne_collscansFile sampleConfig 0 k)),
      if_neg (collscansFile_ne_logsFile sampleConfig k 0)]

/-! ## Transcript rows of a whole run (C11) -/

/-- A transcript file is never the query report. -/
theorem logsFile_ne_queryProf (cfg : Config) (k : Int) :
    logsFile cfg k ≠ cfg.outputDir ++ "/" ++ (cfg.outputPrefix ++ "_query_prof.csv") := by
  intro h
  unfold logsFile at h
  have := congrArg String.data h
  simp only [String.data_append, List.append_assoc] at this
  have h3 := List.append_cancel_left (List.append_cancel_left (List.append_cancel_left this))
  simp at h3

/-- A transcript file is never the collection report. -/
theorem logsFile_ne_collectionProf (cfg : Config) (k : Int) :
    logsFile cfg k ≠ cfg.outputDir ++ "/" ++ (cfg.outputPrefix ++ "_collection_prof.csv") := by
  intro h
  unfold logsFile at h
  have := congrArg String.data h
  simp only [String.data_append, List.append_assoc] at this
  have h3 := List.append_cancel_left (List.append_cancel_left (List.append_cancel_left this))
  simp at h3

/-- `chunkCommands` writes to commands and collscans files only. -/
theorem chunkCommands_fs_frame (cfg : Config) (lib : Lib) (records : List JMap) (s : State)
    (name : String) (h1 : ∀ k : Int, name ≠ commandsFile cfg k)
    (h2 : ∀ k : Int, name ≠ collscansFile cfg k) :
    (chunkCommands cfg lib records s).2.fs name = s.fs name := by
  induction records generalizing s with
  | nil => rfl
  | cons r rest ih =>
    rw [chunkCommands_cons]
    rcases hc : commandOf lib r with err | _ | c
    · rfl
    · exact ih s
    · simp only []
      have hA := (addCommand_frame cfg (c.row lib) s).2.2 name h1
      rcases ha : addCommand cfg (c.row lib) s with ⟨_ | err, s1⟩
      · rw [ha] at hA
        simp only [] at hA ⊢
        split_ifs
        · have hB := (addCollscan_frame cfg (c.row lib) s1).2.2.1 name h2
          rcases hb : addCollscan cfg (c.row lib) s1 with ⟨_ | err, s2⟩
          · rw [hb] at hB
            simp only [] at hB ⊢
            rw [ih s2, hB, hA]
          · rw [hb] at hB
            simp only [] at hB ⊢
            rw [hB, hA]
        · rw [ih s1, hA]
      · rw [ha] at hA
        exact hA

/-- The last flush of `main` writes to commands and collscans files only. -/
theorem flushRemaining_fs_frame (cfg : Config) (s : State) (name : String)
    (h1 : ∀ k : Int, name ≠ commandsFile cfg k) (h2 : ∀ k : Int, name ≠ collscansFile cfg k) :
    (flushRemaining cfg s).2.fs name = s.fs name := by
  have hA : ∀ fs, (if s.commands.length > 0 then
      saveCommands s.commands (commandsFile cfg s.commandsCounter) fs else (none, fs)).2 name
      = fs name := by
    intro fs
    split_ifs
    · exact saveCommands_frame _ _ _ _ (h1 _)
    · rfl
  have hB : ∀ fs, (if s.collscans.length > 0 then
      saveCommands s.collscans (collscansFile cfg s.collscansCounter) fs else (none, fs)).2 name
      = fs name := by
    intro fs
    split_ifs
    · exact saveCommands_frame _ _ _ _ (h2 _)
    · rfl
  unfold flushRemaining
  have hA' := hA s.fs
  rcases ha : (if s.commands.length > 0 then
      saveCommands s.commands (commandsFile cfg s.commandsCounter) s.fs else (none, s.fs))
    with ⟨_ | err, fs1⟩
  · rw [ha] at hA'
    simp only [] at hA' ⊢
    have hB' := hB fs1
    rcases hb : (if s.collscans.length > 0 then
        saveCommands s.collscans (collscansFile cfg s.collscansCounter) fs1 else (none, fs1))
      with ⟨_ | err, fs2⟩
    · rw [hb] at hB'
      simp only [] at hB' ⊢
      rw [hB', hA']
    · rw [hb] at hB'
      simp only [] at hB' ⊢
      rw [hB', hA']
  · rw [ha] at hA'
    exact hA'

/-- Go `save` writes to its file only. -/
theorem save_frame (cfg : Config) (fileName : String) (rows : List Row) (fs : FS) (name : String)
    (h : name ≠ cfg.outputDir ++ "/" ++ fileName) :
    (save cfg fileName rows fs).2 name = fs name := by
  unfold save
  split
  · rfl
  · simp only [if_neg h]

/-- What a call of `process` that returns no error does to the transcript
files: the file of its chunk, when absent before, gets one data row per parsed
record; the other transcript files are left as they were. -/
theorem process_transcript (cfg : Config) (lib : Lib) (i : Int) (chunk : List String)
    (s s' : State) (j : Nat) (hsize : cfg.chunkSize ≠ 0)
    (hj : Int.tdiv i cfg.chunkSize = (j : Int))
    (hrun : process cfg lib i chunk s = (none, s')) :
    (∀ m : Nat, m ≠ j → s'.fs (logsFile cfg (m : Int)) = s.fs (logsFile cfg (m : Int))) ∧
      (s.fs (logsFile cfg (j : Int)) = none →
        dataRows s'.fs (logsFile cfg (j : Int)) = (parse lib chunk).1.length ∧
        ((parse lib chunk).1 = [] → s'.fs (logsFile cfg (j : Int)) = none)) := by
  obtain ⟨fs1, s2, hconv, hcmd, -, -, -, -, -, -, hfs⟩ := process_ok_parts cfg lib i chunk s s' hrun
  have hframe : ∀ m : Nat, s'.fs (logsFile cfg (m : Int)) = fs1 (logsFile cfg (m : Int)) := by
    intro m
    have := chunkCommands_fs_frame cfg lib (parse lib chunk).1 { s with fs := fs1 }
      (logsFile cfg (m : Int)) (fun k => Ne.symm (commandsFile_ne_logsFile cfg k _))
      (fun k => Ne.symm (collscansFile_ne_logsFile cfg k _))
    rw [hcmd] at this
    rw [hfs]
    exact this
  refine ⟨?_, ?_⟩
  · intro m hm
    rw [hframe m]
    have := chunkConvert_frame cfg lib i (parse lib chunk).1 s.fs (logsFile cfg (m : Int))
      (by
        rw [hj]
        intro h
        exact hm (logsFile_injective cfg m j h))
    rw [hconv] at this
    exact this
  · intro hnone
    have hd : dataRows s'.fs (logsFile cfg (j : Int)) = dataRows fs1 (logsFile cfg (j : Int)) := by
      unfold dataRows
      rw [hframe j]
    rw [hd, hframe j]
    by_cases hne : (parse lib chunk).1 = []
    · have hfs1 : fs1 = s.fs := by
        have : chunkConvert cfg lib i (parse lib chunk).1 s.fs = (none, s.fs) := by
          rw [hne]
          rfl
        rw [this] at hconv
        exact (Prod.mk.inj hconv).2.symm
      rw [hfs1]
      refine ⟨?_, fun _ => hnone⟩
      unfold dataRows
      rw [hnone, hne]
      rfl
    · have hnew := chunkConvert_new cfg lib i (parse lib chunk).1 s.fs hne hsize
        (by rw [hj]; exact hnone)
      rw [hnew, hj] at hconv
      have hfs1 := (Prod.mk.inj hconv).2
      refine ⟨?_, fun h => absurd h hne⟩
      unfold dataRows
      rw [← hfs1]
      simp

/-- The transcript files after a run of `process` over chunks whose files have
the consecutive indices `k`, `k + 1`, ... and are absent before. -/
theorem processAll_transcripts (cfg : Config) (lib : Lib) (hsize : cfg.chunkSize ≠ 0)
    (cs : List (Int × List String)) (k : Nat) (s s' : State)
    (hidx : ∀ (j : Nat) (c : Int × List String), cs[j]? = some c →
      Int.tdiv c.1 cfg.chunkSize = ((k + j : Nat) : Int))
    (hnone : ∀ m : Nat, k ≤ m → s.fs (logsFile cfg (m : Int)) = none)
    (hrun : processAll cfg lib cs s = (none, s')) :
    (∀ (j : Nat) (c : Int × List String), cs[j]? = some c →
        dataRows s'.fs (logsFile cfg ((k + j : Nat) : Int)) = (parse lib c.2).1.length) ∧
      (∀ m : Nat, k + cs.length ≤ m → s'.fs (logsFile cfg (m : Int)) = none) ∧
      (∀ m : Nat, m < k → s'.fs (logsFile cfg (m : Int)) = s.fs (logsFile cfg (m : Int))) := by
  induction cs generalizing k s with
  | nil =>
    simp only [processAll, Prod.mk.injEq, true_and] at hrun
    subst hrun
    refine ⟨fun j c h => by simp at h, fun m hm => hnone m (by simpa using hm), fun _ _ => rfl⟩
  | cons c0 rest ih =>
    obtain ⟨i, chunk⟩ := c0
    unfold processAll at hrun
    rcases hp : process cfg lib i chunk s with ⟨_ | err, s1⟩
    · rw [hp] at hrun
      simp only [] at hrun
      have h0 : Int.tdiv i cfg.chunkSize = (k : Int) := by
        have := hidx 0 (i, chunk) (by simp)
        simpa using this
      obtain ⟨hother, hfile⟩ := process_transcript cfg lib i chunk s s1 k hsize h0 hp
      obtain ⟨hrows, -⟩ := hfile (hnone k (le_refl _))
      obtain ⟨ih1, ih2, ih3⟩ := ih (k + 1) s1
        (fun j c hc => by
          have := hidx (j + 1) c (by simpa using hc)
          rw [this]
          congr 1
          omega)
        (fun m hm => by
          rw [hother m (by omega)]
          exact hnone m (by omega))
        hrun
      refine ⟨?_, ?_, ?_⟩
      · intro j c hc
        cases j with
        | zero =>
          simp only [List.getElem?_cons_zero, Option.some.injEq] at hc
          subst hc
          have hd : dataRows s'.fs (logsFile cfg (k : Int))
              = dataRows s1.fs (logsFile cfg (k : Int)) := by
            unfold dataRows
            rw [ih3 k (by omega)]
          rw [Nat.add_zero, hd]
          exact hrows
        | succ j =>
          have := ih1 j c (by simpa using hc)
          have e : k + (j + 1) = k + 1 + j := by omega
          rw [e]
          exact this
      · intro m hm
        exact ih2 m (by simp only [List.length_cons] at hm; omega)
      · intro m hm
        rw [ih3 m (by omega), hother m (by omega)]
    · rw [hp] at hrun
      simp at hrun

theorem sum_parse_chunks (lib : Lib) (cs : List (Int × List String)) :
    (cs.map fun c => (parse lib c.2).1.length).sum
      = (parse lib (cs.map Prod.snd).flatten).1.length := by
  induction cs with
  | nil => rfl
  | cons c rest ih =>
    simp only [List.map_cons, List.sum_cons, List.flatten_cons, ih]
    simp only [(parse_eq_filterMap lib _).2.1, List.filterMap_append, List.length_append]

/-- The total over the transcript files of the chunks of a run. -/
theorem transcriptRows_eq_sum (cfg : Config) (lib : Lib) (fs : FS)
    (cs : List (Int × List String))
    (h : ∀ (j : Nat) (c : Int × List String), cs[j]? = some c →
      dataRows fs (logsFile cfg ((0 + j : Nat) : Int)) = (parse lib c.2).1.length) :
    transcriptRows cfg fs cs.length = (cs.map fun c => (parse lib c.2).1.length).sum := by
  unfold transcriptRows
  congr 1
  apply List.ext_getElem
  · simp
  · intro n h1 h2
    simp only [List.getElem_map, List.getElem_range]
    have hn : n < cs.length := by simpa using h2
    have := h n cs[n] (List.getElem?_eq_getElem hn)
    rw [Nat.zero_add] at this
    exact this

/-- Past the last transcript file the total does not change. -/
theorem transcriptRows_of_none (cfg : Config) (fs : FS) (n m : Nat)
    (h : ∀ k : Nat, n ≤ k → fs (logsFile cfg (k : Int)) = none) (hm : n ≤ m) :
    transcriptRows cfg fs m = transcriptRows cfg fs n := by
  induction m with
  | zero =>
    have : n = 0 := by omega
    rw [this]
  | succ m ih =>
    rcases Nat.eq_or_lt_of_le hm with heq | hlt
    · rw [heq]
    · have hz : dataRows fs (logsFile cfg (m : Int)) = 0 := by
        unfold dataRows
        rw [h m (by omega)]
      have : transcriptRows cfg fs (m + 1) = transcriptRows cfg fs m := by
        unfold transcriptRows
        rw [List.range_succ, List.map_append, List.sum_append]
        simp [hz]
      rw [this]
      exact ih (by omega)

/-- The steps of a run of `main` that ends without error. -/
theorem main_ok_parts (cfg : Config) (lib : Lib) (lines : List String) (fs : FS) (s : State)
    (hrun : main cfg lib lines fs = (none, s)) :
    100 ≤ cfg.chunkSize ∧
      ∃ s1, mainLoop cfg lib lines lines.length 0 (State.init fs) = (none, s1) ∧
        s.fs = (saveCollectionProf cfg lib
          { (flushRemaining cfg s1).2 with
            fs := (saveQueryProf cfg lib (flushRemaining cfg s1).2).2 }).2 := by
  unfold main at hrun
  split_ifs at hrun with hsz
  · simp at hrun
  · refine ⟨by omega, ?_⟩
    rcases h1 : mainLoop cfg lib lines lines.length 0 (State.init fs) with ⟨_ | err, s1⟩
    · rw [h1] at hrun
      simp only [] at hrun
      refine ⟨s1, rfl, ?_⟩
      rcases h2 : flushRemaining cfg s1 with ⟨_ | err, s2⟩
      · rw [h2] at hrun
        simp only [] at hrun ⊢
        rcases h3 : saveQueryProf cfg lib s2 with ⟨_ | err, fs3⟩
        · rw [h3] at hrun
          simp only [] at hrun ⊢
          rcases h4 : saveCollectionProf cfg lib { s2 with fs := fs3 } with ⟨_ | err, fs4⟩
          · rw [h4] at hrun
            simp only [Prod.mk.injEq, true_and] at hrun
            rw [← hrun]
          · rw [h4] at hrun
            simp at hrun
        · rw [h3] at hrun
          simp at hrun
      · rw [h2] at hrun
        simp at hrun
    · rw [h1] at hrun
      simp at hrun

/-- The total depends on the transcript files only. -/
theorem transcriptRows_congr (cfg : Config) (fs fs' : FS) (n : Nat)
    (h : ∀ k : Nat, fs (logsFile cfg (k : Int)) = fs' (logsFile cfg (k : Int))) :
    transcriptRows cfg fs n = transcriptRows cfg fs' n := by
  unfold transcriptRows
  congr 1
  apply List.map_congr_left
  intro k _
  unfold dataRows
  rw [h k]

/-- Both reports leave the transcript files as they are. -/
theorem reports_frame (cfg : Config) (lib : Lib) (s : State) (k : Int) :
    (saveCollectionProf cfg lib
        { s with fs := (saveQueryProf cfg lib s).2 }).2 (logsFile cfg k)
      = s.fs (logsFile cfg k) := by
  have h1 : (saveQueryProf cfg lib s).2 (logsFile cfg k) = s.fs (logsFile cfg k) := by
    unfold saveQueryProf
    split_ifs
    · rfl
    · exact save_frame cfg _ _ _ _ (logsFile_ne_queryProf cfg k)
  rw [← h1]
  unfold saveCollectionProf
  split_ifs
  · rfl
  · exact save_frame cfg _ _ _ _ (logsFile_ne_collectionProf cfg k)

/-- The transcript files after a run of `main` that ends without error, over an
output directory without transcript files: one data row per parsed line of
chunk `j` in file `j`, and no file past the last chunk. -/
theorem main_transcripts (cfg : Config) (lib : Lib) (lines : List String) (fs : FS) (s : State)
    (hint : cfg.chunkSize < 9223372036854775808)
    (hlen : lines.length < 4611686018427387904)
    (hfs : ∀ k : Nat, fs (logsFile cfg (k : Int)) = none)
    (hrun : main cfg lib lines fs = (none, s)) :
    ∃ n : Nat, (∀ k : Nat, n ≤ k → s.fs (logsFile cfg (k : Int)) = none) ∧
      transcriptRows cfg s.fs n = (parse lib lines).1.length := by
  obtain ⟨h100, s1, hloop, hsfs⟩ := main_ok_parts cfg lib lines fs s hrun
  have hsize : cfg.chunkSize = ((cfg.chunkSize.toNat : Nat) : Int) :=
    (Int.toNat_of_nonneg (by omega)).symm
  have hN : 1 ≤ cfg.chunkSize.toNat := by omega
  have hne : cfg.chunkSize ≠ 0 := by omega
  have hloop2 := mainLoop_eq_processAll cfg lib lines cfg.chunkSize.toNat hN hsize (by omega) hlen
    lines.length 0 (State.init fs) (by simp)
  simp only [Nat.zero_mul, List.drop_zero, Nat.cast_zero] at hloop2
  rw [hloop2] at hloop
  have hidx : ∀ (j : Nat) (c : Int × List String),
      (chunkList cfg.chunkSize.toNat lines.length 0 lines)[j]? = some c →
      Int.tdiv c.1 cfg.chunkSize = ((0 + j : Nat) : Int) := by
    intro j c hc
    obtain ⟨h1, -, -⟩ := chunkList_getElem? cfg.chunkSize.toNat hN lines.length 0 lines
      (le_refl _) j c hc
    rw [h1]
    nth_rewrite 2 [hsize]
    exact tdiv_mul_natCast (0 + j) cfg.chunkSize.toNat hN
  obtain ⟨h1, h2, -⟩ := processAll_transcripts cfg lib hne
    (chunkList cfg.chunkSize.toNat lines.length 0 lines) 0 (State.init fs) s1 hidx
    (fun m _ => hfs m) hloop
  have hframe : ∀ k : Nat, s.fs (logsFile cfg (k : Int)) = s1.fs (logsFile cfg (k : Int)) := by
    intro k
    rw [hsfs, reports_frame cfg lib (flushRemaining cfg s1).2 (k : Int)]
    exact flushRemaining_fs_frame cfg s1 _
      (fun k => Ne.symm (commandsFile_ne_logsFile cfg k _))
      (fun k => Ne.symm (collscansFile_ne_logsFile cfg k _))
  refine ⟨(chunkList cfg.chunkSize.toNat lines.length 0 lines).length, ?_, ?_⟩
  · intro k hk
    rw [hframe k]
    exact h2 k (by omega)
  · rw [transcriptRows_congr cfg s.fs s1.fs _ hframe,
      transcriptRows_eq_sum cfg lib s1.fs _ h1, sum_parse_chunks,
      chunkList_flatten cfg.chunkSize.toNat hN lines.length 0 lines (le_refl _)]

/-- C11 (amended): for every run of `main` that ends without error, over an
output directory that holds no transcript file beforehand, the data rows of all
transcript files `<prefix>_logs_<k>.csv` together are as many as the input
lines that parse into a record: there is an index past which no transcript
file exists, and up to any such index the total of the data rows is the number
of parsed lines. -/
theorem transcript_rows_eq_parsed_lines (cfg : Config) (lib : Lib) (lines : List String)
    (fs : FS) (s : State)
    (hint : cfg.chunkSize < 9223372036854775808)
    (hlen : lines.length < 4611686018427387904)
    (hfs : ∀ k : Nat, fs (logsFile cfg (k : Int)) = none)
    (hrun : main cfg lib lines fs = (none, s)) :
    (∃ n : Nat, ∀ k : Nat, n ≤ k → s.fs (logsFile cfg (k : Int)) = none) ∧
      ∀ n : Nat, (∀ k : Nat, n ≤ k → s.fs (logsFile cfg (k : Int)) = none) →
        transcriptRows cfg s.fs n = (parse lib lines).1.length := by
  obtain ⟨n0, hn0, htot⟩ := main_transcripts cfg lib lines fs s hint hlen hfs hrun
  refine ⟨⟨n0, hn0⟩, ?_⟩
  intro n hn
  rw [← htot, ← transcriptRows_of_none cfg s.fs n (max n n0) hn (le_max_left _ _),
    ← transcriptRows_of_none cfg s.fs n0 (max n n0) hn0 (le_max_right _ _)]

/-- C11 (amended) on a run of three lines, one of which does not parse. -/
theorem transcript_rows_eq_parsed_lines_witness :
    (parse sampleLib ["a", "x", "c"]).1.length = 2 ∧
      (∃ n : Nat, ∀ k : Nat, n ≤ k →
        (main sampleConfig sampleLib ["a", "x", "c"] noFiles).2.fs
          (logsFile sampleConfig (k : Int)) = none) ∧
      ∀ n : Nat, (∀ k : Nat, n ≤ k →
          (main sampleConfig sampleLib ["a", "x", "c"] noFiles).2.fs
            (logsFile sampleConfig (k : Int)) = none) →
        transcriptRows sampleConfig (main sampleConfig sampleLib ["a", "x", "c"] noFiles).2.fs n
          = (parse sampleLib ["a", "x", "c"]).1.length :=
  ⟨by decide,
    transcript_rows_eq_parsed_lines sampleConfig sampleLib ["a", "x", "c"] noFiles
      (main sampleConfig sampleLib ["a", "x", "c"] noFiles).2 (by decide) (by decide)
      (fun _ => rfl) (Prod.ext (by decide) rfl)⟩

set_option maxRecDepth 100000 in
theorem aborted_run_fs :
    (main sampleConfig sampleLib abortedLines noFiles).2.fs = fun name =>
      if name = logsFile sampleConfig 0 then
        some (.file (logsHeader ::
          (parse sampleLib (abortedLines.take 100)).1.map (logsRow sampleLib)))
      else none := by
  rfl

set_option maxRecDepth 100000 in
/-- C11 as stated fails on a run that stops at an error: of 101 lines that all
parse, the first lacks the required field `t`; `main` at chunk size 100 over an
empty output directory writes the 100 rows of the first chunk to the transcript
file of index 0, stops at the error of `chunkCommands`, and never reaches the
second chunk, so the transcript files hold 100 data rows for 101 parsed
lines. -/
theorem aborted_run_misses_transcript_rows :
    (∀ k : Nat, noFiles (logsFile sampleConfig (k : Int)) = none) ∧
      (main sampleConfig sampleLib abortedLines noFiles).1 = some "t: invalid key" ∧
      (∀ k : Nat, 1 ≤ k →
        (main sampleConfig sampleLib abortedLines noFiles).2.fs
          (logsFile sampleConfig (k : Int)) = none) ∧
      transcriptRows sampleConfig (main sampleConfig sampleLib abortedLines noFiles).2.fs 1
        = 100 ∧
      (parse sampleLib abortedLines).1.length = 101 := by
  refine ⟨fun _ => rfl, by decide, ?_, ?_, by decide⟩
  · intro k hk
    rw [aborted_run_fs]
    have hne : logsFile sampleConfig (k : Int) ≠ logsFile sampleConfig 0 := by
      intro h
      have := logsFile_injective sampleConfig k 0 h
      omega
    simp only [if_neg hne]
  · rw [aborted_run_fs]
    decide

/-- The calls the loop makes are the chunks of `chunkList`, up to and including
the first one on which `process` fails; all of them when none fails. -/
theorem mainLoopCalls_eq (cfg : Config) (lib : Lib) (lines : List String) (N : Nat)
    (hN : 1 ≤ N) (hsize : cfg.chunkSize = (N : Int))
    (hint : N < 9223372036854775808) (hlen : lines.length < 4611686018427387904)
    (fuel k : Nat) (s : State) (hfuel : (lines.drop (k * N)).length ≤ fuel) :
    (∃ n, mainLoopCalls cfg lib lines fuel ((k * N : Nat) : Int) s
        = (chunkList N fuel k (lines.drop (k * N))).take n ∧
      (lines.drop (k * N) ≠ [] → 1 ≤ n)) ∧
      ((mainLoop cfg lib lines fuel ((k * N : Nat) : Int) s).1 = none →
        mainLoopCalls cfg lib lines fuel ((k * N : Nat) : Int) s
          = chunkList N fuel k (lines.drop (k * N))) := by
  induction fuel generalizing k s with
  | zero =>
    have hnil : lines.drop (k * N) = [] := List.length_eq_zero.1 (Nat.le_zero.1 hfuel)
    refine ⟨⟨0, by simp [mainLoopCalls, chunkList], fun h => absurd hnil h⟩, ?_⟩
    intro _
    simp [mainLoopCalls, chunkList]
  | succ fuel ih =>
    unfold mainLoopCalls mainLoop chunkList
    by_cases hlt : k * N < lines.length
    · have hlt' : ((k * N : Nat) : Int) < (lines.length : Int) := by exact_mod_cast hlt
      have hne : lines.drop (k * N) ≠ [] := by
        intro h
        have := List.drop_eq_nil_iff.1 h
        omega
      rw [if_pos hlt', if_pos hlt', if_neg hne]
      have hwrap : wrapInt64 (((k * N : Nat) : Int) + cfg.chunkSize)
          = (((k + 1) * N : Nat) : Int) := by
        have hsum : k * N + N < 9223372036854775808 := by
          rcases Nat.eq_zero_or_pos k with hk | hk
          · subst hk
            omega
          · have : N ≤ k * N := Nat.le_mul_of_pos_left N hk
            omega
        have hsum' : ((k * N : Nat) : Int) + (N : Int) < 9223372036854775808 := by
          exact_mod_cast hsum
        rw [hsize, wrapInt64_of_lt _ (by positivity) hsum']
        push_cast
        ring
      simp only [hwrap]
      have hnopanic : ¬ (((k * N : Nat) : Int) < 0 ∨
          (if (((k + 1) * N : Nat) : Int) > (lines.length : Int) then (lines.length : Int)
            else (((k + 1) * N : Nat) : Int)) < ((k * N : Nat) : Int)) := by
        push_neg
        refine ⟨by positivity, ?_⟩
        split_ifs
        · omega
        · push_cast
          nlinarith
      rw [if_neg hnopanic, if_neg hnopanic]
      have hchunk : List.take
          ((if (((k + 1) * N : Nat) : Int) > (lines.length : Int) then (lines.length : Int)
            else (((k + 1) * N : Nat) : Int)) - ((k * N : Nat) : Int)).toNat
          (List.drop ((k * N : Nat) : Int).toNat lines)
          = (lines.drop (k * N)).take N := by
        rw [Int.toNat_ofNat]
        split_ifs with hgt
        · have h1 : ((lines.length : Int) - ((k * N : Nat) : Int)).toNat
              = (lines.drop (k * N)).length := by
            rw [List.length_drop]
            omega
          have h2 : (lines.drop (k * N)).length ≤ N := by
            rw [List.length_drop]
            have : lines.length < (k + 1) * N := by exact_mod_cast hgt
            have : (k + 1) * N = k * N + N := by ring
            omega
          rw [h1, List.take_length, List.take_of_length_le h2]
        · have h1 : ((((k + 1) * N : Nat) : Int) - ((k * N : Nat) : Int)).toNat = N := by
            have : (k + 1) * N = k * N + N := by ring
            omega
          rw [h1]
      rw [hchunk]
      have hdrop : (lines.drop (k * N)).drop N = lines.drop ((k + 1) * N) := by
        rw [List.drop_drop]
        congr 1
        ring
      rw [hdrop]
      rcases hp : process cfg lib ((k * N : Nat) : Int) ((lines.drop (k * N)).take N) s
        with ⟨_ | err, s1⟩
      · simp only []
        obtain ⟨⟨n, hn, -⟩, hall⟩ := ih (k + 1) s1 (by
          have h1 := List.length_drop (k * N) lines
          have h2 := List.length_drop ((k + 1) * N) lines
          have h3 : (k + 1) * N = k * N + N := by ring
          omega)
        refine ⟨⟨n + 1, by rw [hn, List.take_succ_cons], fun _ => by omega⟩, ?_⟩
        intro hok
        rw [hall hok]
      · simp only []
        refine ⟨⟨1, by simp, fun _ => le_refl _⟩, ?_⟩
        intro hok
        simp at hok
    · have hnot : ¬ (((k * N : Nat) : Int) < (lines.length : Int)) := by
        exact_mod_cast hlt
      have hnil : lines.drop (k * N) = [] := List.drop_eq_nil_iff.2 (by omega)
      rw [if_neg hnot, if_neg hnot, if_pos hnil]
      exact ⟨⟨0, by simp, fun h => absurd hnil h⟩, fun _ => rfl⟩

/-! ## The chunks of a run (C19) -/

/-- The transcript file a call of `process` that returns no error leaves for
its chunk, when the file was absent before: the header and one row per parsed
record, or no file when no line of the chunk parses. -/
theorem process_transcript_file (cfg : Config) (lib : Lib) (i : Int) (chunk : List String)
    (s s' : State) (j : Nat) (hsize : cfg.chunkSize ≠ 0)
    (hj : Int.tdiv i cfg.chunkSize = (j : Int))
    (hnone : s.fs (logsFile cfg (j : Int)) = none)
    (hrun : process cfg lib i chunk s = (none, s')) :
    s'.fs (logsFile cfg (j : Int)) =
      if (parse lib chunk).1.isEmpty then none
      else some (.file (logsHeader :: (parse lib chunk).1.map (logsRow lib))) := by
  obtain ⟨fs1, s2, hconv, hcmd, -, -, -, -, -, -, hfs⟩ := process_ok_parts cfg lib i chunk s s' hrun
  have hframe : s'.fs (logsFile cfg (j : Int)) = fs1 (logsFile cfg (j : Int)) := by
    have := chunkCommands_fs_frame cfg lib (parse lib chunk).1 { s with fs := fs1 }
      (logsFile cfg (j : Int)) (fun k => Ne.symm (commandsFile_ne_logsFile cfg k _))
      (fun k => Ne.symm (collscansFile_ne_logsFile cfg k _))
    rw [hcmd] at this
    rw [hfs]
    exact this
  rw [hframe]
  by_cases hne : (parse lib chunk).1 = []
  · have : chunkConvert cfg lib i (parse lib chunk).1 s.fs = (none, s.fs) := by
      rw [hne]
      rfl
    rw [this] at hconv
    rw [if_pos (by rw [hne]; rfl), ← (Prod.mk.inj hconv).2]
    exact hnone
  · have hnew := chunkConvert_new cfg lib i (parse lib chunk).1 s.fs hne hsize
      (by rw [hj]; exact hnone)
    rw [hnew, hj] at hconv
    rw [if_neg (by simpa using hne), ← (Prod.mk.inj hconv).2]
    simp

/-- The transcript files after `process` has run without error over chunks
whose files have the consecutive indices `k`, `k + 1`, ... and are absent
before. -/
theorem processAll_transcript_files (cfg : Config) (lib : Lib) (hsize : cfg.chunkSize ≠ 0)
    (cs : List (Int × List String)) (k : Nat) (s s' : State)
    (hidx : ∀ (j : Nat) (c : Int × List String), cs[j]? = some c →
      Int.tdiv c.1 cfg.chunkSize = ((k + j : Nat) : Int))
    (hnone : ∀ m : Nat, k ≤ m → s.fs (logsFile cfg (m : Int)) = none)
    (hrun : processAll cfg lib cs s = (none, s')) :
    ∀ (j : Nat) (c : Int × List String), cs[j]? = some c →
      s'.fs (logsFile cfg ((k + j : Nat) : Int)) =
        if (parse lib c.2).1.isEmpty then none
        else some (.file (logsHeader :: (parse lib c.2).1.map (logsRow lib))) := by
  induction cs generalizing k s with
  | nil =>
    intro j c h
    simp at h
  | cons c0 rest ih =>
    obtain ⟨i, chunk⟩ := c0
    have hrun0 := hrun
    unfold processAll at hrun
    rcases hp : process cfg lib i chunk s with ⟨_ | err, s1⟩
    · rw [hp] at hrun
      simp only [] at hrun
      have h0 : Int.tdiv i cfg.chunkSize = (k : Int) := by
        have := hidx 0 (i, chunk) (by simp)
        simpa using this
      obtain ⟨hother, -⟩ := process_transcript cfg lib i chunk s s1 k hsize h0 hp
      have hidx1 : ∀ (j : Nat) (c : Int × List String), rest[j]? = some c →
          Int.tdiv c.1 cfg.chunkSize = ((k + 1 + j : Nat) : Int) := by
        intro j c hc
        have := hidx (j + 1) c (by simpa using hc)
        rw [this]
        congr 1
        omega
      have hnone1 : ∀ m : Nat, k + 1 ≤ m → s1.fs (logsFile cfg (m : Int)) = none := by
        intro m hm
        rw [hother m (by omega)]
        exact hnone m (by omega)
      obtain ⟨-, -, ih3⟩ := processAll_transcripts cfg lib hsize rest (k + 1) s1 s' hidx1 hnone1 hrun
      intro j c hc
      cases j with
      | zero =>
        simp only [List.getElem?_cons_zero, Option.some.injEq] at hc
        subst hc
        rw [Nat.add_zero, ih3 k (by omega)]
        exact process_transcript_file cfg lib i chunk s s1 k hsize h0 (hnone k (le_refl _)) hp
      | succ j =>
        have := ih (k + 1) s1 hidx1 hnone1 hrun j c (by simpa using hc)
        have e : k + (j + 1) = k + 1 + j := by omega
        rw [e]
        exact this
    · rw [hp] at hrun
      simp at hrun

/-- C19 (amended): for every chunk size `N ≥ 1` (an `int`) and every list of
lines (fewer than `2 ^ 62`), the loop of `main` ends within `len(lines)`
iterations: its result is that of the calls of `process` on the chunks of
`chunkList`, in order, stopped at the first error, and the chunks it passes to
`process` are the first ones of that list (at least one when there is a line).
Chunk `k` has offset `k * N`, holds the lines from `k * N` on, is non-empty with
at most `N` lines and exactly `N` unless it is the last, and its transcript
index is `(k * N) / N = k`, so distinct chunks never share a transcript file.
The chunks concatenated are the lines.  When no call of `process` fails, every
chunk is passed to `process` (every line exactly once, in input order), and,
over a directory without transcript files, the transcript file of index `k`
holds the header and the rows of the records parsed from chunk `k`, and is
absent when no line of the chunk parses. -/
theorem main_loop_chunks (cfg : Config) (lib : Lib) (lines : List String) (s : State) (N : Nat)
    (hN : 1 ≤ N) (hsize : cfg.chunkSize = (N : Int))
    (hint : N < 9223372036854775808) (hlen : lines.length < 4611686018427387904) :
    mainLoop cfg lib lines lines.length 0 s =
        processAll cfg lib (chunkList N lines.length 0 lines) s ∧
      (∃ n, mainLoopCalls cfg lib lines lines.length 0 s
          = (chunkList N lines.length 0 lines).take n ∧ (lines ≠ [] → 1 ≤ n)) ∧
      ((chunkList N lines.length 0 lines).map Prod.snd).flatten = lines ∧
      (∀ (k : Nat) (c : Int × List String), (chunkList N lines.length 0 lines)[k]? = some c →
        c.1 = ((k * N : Nat) : Int) ∧ c.2 = (lines.drop (k * N)).take N ∧
        c.2 ≠ [] ∧ c.2.length ≤ N ∧
        (k + 1 < (chunkList N lines.length 0 lines).length → c.2.length = N) ∧
        Int.tdiv c.1 cfg.chunkSize = (k : Int) ∧
        ∀ (k' : Nat) (c' : Int × List String),
          (chunkList N lines.length 0 lines)[k']? = some c' →
          logsFile cfg (Int.tdiv c'.1 cfg.chunkSize) = logsFile cfg (Int.tdiv c.1 cfg.chunkSize) →
          k' = k) ∧
      ∀ s' : State, mainLoop cfg lib lines lines.length 0 s = (none, s') →
        mainLoopCalls cfg lib lines lines.length 0 s = chunkList N lines.length 0 lines ∧
        ((mainLoopCalls cfg lib lines lines.length 0 s).map Prod.snd).flatten = lines ∧
        ((∀ m : Nat, s.fs (logsFile cfg (m : Int)) = none) →
          ∀ (k : Nat) (c : Int × List String),
            (mainLoopCalls cfg lib lines lines.length 0 s)[k]? = some c →
            s'.fs (logsFile cfg (Int.tdiv c.1 cfg.chunkSize)) =
              if (parse lib c.2).1.isEmpty then none
              else some (.file (logsHeader :: (parse lib c.2).1.map (logsRow lib)))) := by
  have hloop := mainLoop_eq_processAll cfg lib lines N hN hsize hint hlen lines.length 0 s
    (by simp)
  have hcalls := mainLoopCalls_eq cfg lib lines N hN hsize hint hlen lines.length 0 s (by simp)
  simp only [Nat.zero_mul, List.drop_zero, Nat.cast_zero] at hloop hcalls
  have hflat := chunkList_flatten N hN lines.length 0 lines (le_refl _)
  have hidx : ∀ (k : Nat) (c : Int × List String),
      (chunkList N lines.length 0 lines)[k]? = some c →
      c.1 = ((k * N : Nat) : Int) ∧ c.2 = (lines.drop (k * N)).take N ∧ k * N < lines.length ∧
      Int.tdiv c.1 cfg.chunkSize = (k : Int) := by
    intro k c hk
    obtain ⟨h1, h2, h3⟩ := chunkList_getElem? N hN lines.length 0 lines (le_refl _) k c hk
    rw [Nat.zero_add] at h1
    exact ⟨h1, h2, h3, by rw [h1, hsize, tdiv_mul_natCast k N hN]⟩
  refine ⟨hloop, hcalls.1, hflat, ?_, ?_⟩
  · intro k c hk
    obtain ⟨h1, h2, h3, h4⟩ := hidx k c hk
    have hlen : c.2.length = min N (lines.length - k * N) := by
      rw [h2, List.length_take, List.length_drop]
    refine ⟨h1, h2, ?_, ?_, ?_, h4, ?_⟩
    · intro hnil
      rw [hnil] at hlen
      simp only [List.length_nil] at hlen
      omega
    · rw [hlen]
      exact Nat.min_le_left _ _
    · intro hnext
      obtain ⟨c', hc'⟩ : ∃ c', (chunkList N lines.length 0 lines)[k + 1]? = some c' :=
        ⟨_, List.getElem?_eq_getElem hnext⟩
      obtain ⟨-, -, h3', -⟩ := hidx (k + 1) c' hc'
      have : (k + 1) * N = k * N + N := by ring
      rw [hlen]
      omega
    · intro k' c' hk' hfile
      obtain ⟨-, -, -, h4'⟩ := hidx k' c' hk'
      rw [h4, h4'] at hfile
      exact logsFile_injective cfg _ _ hfile
  · intro s' hrun
    have hall := hcalls.2 (by rw [hrun])
    refine ⟨hall, by rw [hall, hflat], ?_⟩
    intro hfs k c hk
    rw [hall] at hk
    obtain ⟨-, -, -, h4⟩ := hidx k c hk
    rw [hloop] at hrun
    have hne : cfg.chunkSize ≠ 0 := by
      rw [hsize]
      exact_mod_cast (by omega : N ≠ 0)
    have := processAll_transcript_files cfg lib hne (chunkList N lines.length 0 lines) 0 s s'
      (fun j c hc => by
        rw [(hidx j c hc).2.2.2, Nat.zero_add])
      (fun m _ => hfs m) hrun k c hk
    rw [Nat.zero_add] at this
    rw [h4]
    exact this

/-- C19 (amended) at chunk size 2 and five lines: three chunks, the last of one
line, all passed to `process`; the second chunk, one of whose two lines parses,
leaves the transcript file of index 1 with the header and one row. -/
theorem main_loop_chunks_witness :
    chunkList 2 5 0 ["a", "c", "b", "x", "a"]
        = [(0, ["a", "c"]), (2, ["b", "x"]), (4, ["a"])] ∧
      (mainLoop smallConfig sampleLib ["a", "c", "b", "x", "a"] 5 0 (State.init noFiles)).1
        = none ∧
      mainLoopCalls smallConfig sampleLib ["a", "c", "b", "x", "a"] 5 0 (State.init noFiles)
        = [(0, ["a", "c"]), (2, ["b", "x"]), (4, ["a"])] ∧
      (mainLoop smallConfig sampleLib ["a", "c", "b", "x", "a"] 5 0 (State.init noFiles)).2.fs
          (logsFile smallConfig 1)
        = some (.file [logsHeader, logsRow sampleLib (sampleSlow "H1" 600 "shop.orders")]) := by
  have h := (main_loop_chunks smallConfig sampleLib ["a", "c", "b", "x", "a"]
    (State.init noFiles) 2 (by decide) rfl (by decide) (by decide)).2.2.2.2
    (mainLoop smallConfig sampleLib ["a", "c", "b", "x", "a"] 5 0 (State.init noFiles)).2
    (Prod.ext (by decide) rfl)
  have hlist : chunkList 2 5 0 ["a", "c", "b", "x", "a"]
      = [(0, ["a", "c"]), (2, ["b", "x"]), (4, ["a"])] := by decide
  refine ⟨hlist, by decide, h.1.trans hlist, ?_⟩
  have hfile := h.2.2 (fun _ => rfl) 1 (2, ["b", "x"]) (by rw [h.1]; decide)
  exact hfile.trans (by decide)

set_option maxRecDepth 100000 in
/-- C19 as stated fails when a call of `process` returns an error: on 101 lines
that all parse, the first a "Slow query" record without the required field
`t`, the loop of `main` at chunk size 100 passes the first chunk to `process`,
which returns the error; `main` exits there, and the second chunk, the line
"c", is never passed to `process` and has no transcript file, although it
parses: the chunks passed to `process` are not all the lines. -/
theorem stopped_loop_skips_last_chunk :
    (mainLoop sampleConfig sampleLib abortedLines abortedLines.length 0
        (State.init noFiles)).1 = some "t: invalid key" ∧
      chunkList 100 abortedLines.length 0 abortedLines
        = [(0, abortedLines.take 100), (100, ["c"])] ∧
      mainLoopCalls sampleConfig sampleLib abortedLines abortedLines.length 0
        (State.init noFiles) = [(0, abortedLines.take 100)] ∧
      ((mainLoopCalls sampleConfig sampleLib abortedLines abortedLines.length 0
        (State.init noFiles)).map Prod.snd).flatten ≠ abortedLines ∧
      (parse sampleLib ["c"]).1.length = 1 ∧
      (mainLoop sampleConfig sampleLib abortedLines abortedLines.length 0
        (State.init noFiles)).2.fs (logsFile sampleConfig 1) = none := by
  refine ⟨by decide, by decide, by decide, by decide, by decide, by decide⟩

end MongoAnalyzer
